import Mathlib

/-!
# testcafe-hammerhead: control-channel transport and resource-rewrite dispatch

A shallow embedding of `src/client/transport.js` (class `Transport`) and of
`src/processing/resources/index.js` (`getResourceUrlReplacer`, `process`).

## Transport

JavaScript runs one turn at a time.  The transport is embedded as a machine
whose state holds the fields of the `Transport` object, the persistent store,
the requests that are in flight, and the frames of the turn that is running
(`stack`).  A caller-supplied function is a value `UserCb`: it records its
invocation and then makes a finite sequence of calls into the transport.
The closures the transport creates itself are the constructors of `ItemCb`
and `SendCb`.

The environment drives the machine through `Event`s: a call from top-level
code, the delivery of a signal of an `XMLHttpRequest`, a timer, a promise job.
A synchronous request blocks inside `request.send`: the frame `awaitSync`
stays on top of the stack until the environment delivers the terminal signal
of that request.

Messages are values.  The writes `msg.sessionId = …` and `msg.referer = …`
of `asyncServiceMsg` are applied to the copy that is sent and persisted.
A stored string is represented by the list it serialises (`none`: the key is
absent or holds the empty string).
-/

namespace Transport

/-- Command identifier: the value of `msg.cmd`, a member of `COMMAND`. -/
abbrev Cmd := Nat

/-- Control message: `cmd`, the command specific fields (`payload`), and the
fields stamped by `asyncServiceMsg`. -/
structure Msg where
  cmd : Cmd
  payload : Nat
  sessionId : Option Nat
  referer : Option Nat
deriving DecidableEq, Repr

/-- Argument of a completion callback, the value of
`this.responseText && parseJSON(this.responseText)`: `none` when there is no
response text, `some j` for the parsed body. -/
abbrev Response := Option Nat

/-- Constants of the page the transport runs in: `isWebKit`, `isIE9`
(`./utils/browser`), `isIFrameWithoutSrc`, `settings.get()` and
`COMMAND.setCookie`. -/
structure Env where
  isWebKit : Bool
  isIE9 : Bool
  isIFrameWithoutSrc : Bool
  sessionId : Nat
  referer : Nat
  setCookie : Cmd
deriving DecidableEq, Repr

mutual

/-- Function supplied by a caller as `callback`: `absent` is `undefined`;
`fn tag body` records `tag` with its argument and then performs the calls of
`body` in order. -/
inductive UserCb where
  | absent : UserCb
  | fn (tag : Nat) (body : List Call) : UserCb

/-- Call of a sending method of the transport made by caller code. -/
inductive Call where
  | queuedAsyncServiceMsg (msg : Msg) (callback : UserCb) : Call
  | asyncServiceMsg (msg : Msg) (callback : UserCb) : Call
  | syncServiceMsg (msg : Msg) (callback : UserCb) : Call
  | batchUpdate (updateCallback : UserCb) : Call

end

/-- Value of `queueItem.callback`: the function of the caller, or the `resolve`
function of the promise `index` created by `batchUpdate` number `batch`. -/
inductive ItemCb where
  | user (cb : UserCb) : ItemCb
  | resolve (batch : Nat) (index : Nat) : ItemCb

/-- Value of the parameter `callback` of `asyncServiceMsg`: the function of
the caller, the arrow function of `sendNextQueuedMsg` (it captures `queueId`
and `queueItem`), or the arrow function of `syncServiceMsg` (it captures
`storedSync` and `callback`). -/
inductive SendCb where
  | user (cb : UserCb) : SendCb
  | queued (queueId : Cmd) (item : ItemCb) : SendCb
  | sync (storedSync : Bool) (cb : UserCb) : SendCb

/-- Entry of `msgQueue[cmd]`. -/
structure QueueItem where
  msg : Msg
  callback : ItemCb

/-- An `XMLHttpRequest` created by `sendMsg`.  `call` numbers the invocation
of `asyncServiceMsg` the request belongs to. -/
structure Request where
  id : Nat
  call : Nat
  msg : Msg
  forced : Bool
  async : Bool
  callback : SendCb

/-- Event an `XMLHttpRequest` raises.  `readystatechange` carries
`this.readyState`, `this.status` (`none` when reading it throws) and the
response; `load` carries the response. -/
inductive Signal where
  | load (response : Response) : Signal
  | abort : Signal
  | error : Signal
  | timeout : Signal
  | readystatechange (readyState : Nat) (status : Option Nat) (response : Response) : Signal
deriving DecidableEq, Repr

/-- Handler registered by `waitCookieMsg` for `MSG_RECEIVED`. -/
structure Listener where
  id : Nat
  callback : UserCb

/-- The pair of timers of one `waitForServiceMessagesCompleted` call:
`timeoutDue` and `intervalDue` are the times the timeout and the next interval
tick are due, `none` once cleared. -/
structure Waiter where
  id : Nat
  callback : UserCb
  timeoutDue : Option Nat
  intervalDue : Option Nat

/-- `Promise.all(tasks).then(updateCallback)` of one `batchUpdate` call:
`tasks` is the number of promises, `unresolved` lists the tasks whose `resolve` has not been called, `armed` tells
that `then` has been reached, `fired` that the reaction has run. -/
structure Batch where
  id : Nat
  tasks : Nat
  unresolved : List Nat
  armed : Bool
  fired : Bool
  callback : UserCb

/-- Frame of the running turn. -/
inductive Action where
  | call (c : Call) : Action
  | replay (msg : Msg) (batch : Nat) (index : Nat) : Action
  | thenAll (batch : Nat) : Action
  | advance (queueId : Cmd) : Action
  | handler (l : Listener) : Action
  | sendNextIfAny (queueId : Cmd) : Action
  | awaitSync (request : Nat) : Action

/-- What an observer of the transport sees, in order of occurrence. -/
inductive Obs where
  | enqueued (msg : Msg) : Obs
  | dispatched (msg : Msg) : Obs
  | completed (queueId : Cmd) : Obs
  | sendStarted (call : Nat) (msg : Msg) : Obs
  | request (call : Nat) (id : Nat) (forced : Bool) (async : Bool) : Obs
  | msgCallback (call : Nat) (response : Response) : Obs
  | callback (tag : Nat) (response : Response) : Obs
  | resolved (batch : Nat) (index : Nat) : Obs
  | reaction (batch : Nat) : Obs
deriving DecidableEq, Repr

/-- State of the transport and of its environment. -/
structure State where
  msgQueue : Cmd → List QueueItem
  useAsyncXhr : Bool
  activeServiceMessagesCounter : Int
  store : Option (List Msg)
  listeners : List Listener
  inflight : List Request
  stack : List Action
  batches : List Batch
  waiters : List Waiter
  switchBack : List Nat
  clock : Nat
  nextId : Nat
  nextCall : Nat
  history : List Obs

/-- `SWITCH_BACK_TO_ASYNC_XHR_DELAY`. -/
def SWITCH_BACK_TO_ASYNC_XHR_DELAY : Nat := 2000

/-- `SERVICE_MESSAGES_WAITING_INTERVAL`. -/
def SERVICE_MESSAGES_WAITING_INTERVAL : Nat := 50

/-- The constructor of `Transport`, with the persistent store as found. -/
def init (store : Option (List Msg)) : State :=
  { msgQueue := fun _ => []
    useAsyncXhr := true
    activeServiceMessagesCounter := 0
    store := store
    listeners := []
    inflight := []
    stack := []
    batches := []
    waiters := []
    switchBack := []
    clock := 0
    nextId := 0
    nextCall := 0
    history := [] }

/-- An uncaught exception unwinds the running turn. -/
def raise (s : State) : State :=
  { s with stack := [] }

/-- Append an observation to the history. -/
def observe (s : State) (o : Obs) : State :=
  { s with history := s.history ++ [o] }

/-! ### Persistent store -/

/-- `Transport._getStoredMessages`. -/
def _getStoredMessages (s : State) : List Msg :=
  match s.store with
  | none => []
  | some l => l

/-- `Transport._storeMessage`. -/
def _storeMessage (s : State) (msg : Msg) : State :=
  { s with store := some (_getStoredMessages s ++ [msg]) }

/-- The loop of `_removeMessageFromStore`: splice out the first message whose
`cmd` is `cmd`, then stop. -/
def spliceFirst (cmd : Cmd) : List Msg → List Msg
  | [] => []
  | m :: ms => if m.cmd = cmd then ms else m :: spliceFirst cmd ms

/-- `Transport._removeMessageFromStore`. -/
def _removeMessageFromStore (s : State) (cmd : Cmd) : State :=
  { s with store := some (spliceFirst cmd (_getStoredMessages s)) }

/-- `_cookieMsgInProgress`. -/
def _cookieMsgInProgress (env : Env) (s : State) : Bool :=
  !(s.msgQueue env.setCookie).isEmpty

/-! ### Callbacks -/

/-- Invocation of a function supplied by a caller.  `guarded` tells that the
call site tests the function first (`if (callback) callback(res)`); an
unguarded call of `undefined` throws. -/
def runUserCb (s : State) (cb : UserCb) (guarded : Bool) (res : Response) : State :=
  match cb with
  | .absent => if guarded then s else raise s
  | .fn tag body =>
    { s with history := s.history ++ [Obs.callback tag res]
             stack := body.map Action.call ++ s.stack }

/-- The `resolve` function of task `index` of batch `batch`. -/
def resolveTask (s : State) (batch index : Nat) : State :=
  { s with history := s.history ++ [Obs.resolved batch index]
           batches := s.batches.map fun b =>
             if b.id = batch then { b with unresolved := b.unresolved.filter (· ≠ index) }
             else b }

/-- `if (queueItem.callback) queueItem.callback(res)`. -/
def runItemCb (s : State) (cb : ItemCb) (res : Response) : State :=
  match cb with
  | .user u => runUserCb s u true res
  | .resolve batch index => resolveTask s batch index

/-- `if (callback) callback(res)` at the end of `msgCallback`.  For the arrow
function of `sendNextQueuedMsg` the statements after the item callback are
left as the frame `advance queueId`. -/
def runSendCb (s : State) (cb : SendCb) (res : Response) : State :=
  match cb with
  | .user u => runUserCb s u true res
  | .sync storedSync u => runUserCb { s with useAsyncXhr := storedSync } u false res
  | .queued queueId item =>
    let s1 := observe s (Obs.completed queueId)
    runItemCb { s1 with stack := Action.advance queueId :: s1.stack } item res

/-! ### Sending -/

/-- `sendMsg(forced)` inside `asyncServiceMsg`: count the message, create the
request and send it.  A synchronous request keeps the turn inside
`request.send`. -/
def sendMsg (s : State) (call : Nat) (msg : Msg) (callback : SendCb) (forced : Bool) : State :=
  let requestIsAsync := if forced then false else s.useAsyncXhr
  let request : Request :=
    { id := s.nextId, call := call, msg := msg, forced := forced
      async := requestIsAsync, callback := callback }
  { s with activeServiceMessagesCounter := s.activeServiceMessagesCounter + 1
           nextId := s.nextId + 1
           inflight := s.inflight ++ [request]
           history := s.history ++ [Obs.request call s.nextId forced requestIsAsync]
           stack := if requestIsAsync then s.stack else Action.awaitSync s.nextId :: s.stack }

/-- `msgCallback`, with `this` given by `response`: the request for
`addEventListener('load', msgCallback)` and `msgCallback.call(this)`, and no
response text for the plain call `msgCallback()`. -/
def msgCallback (s : State) (r : Request) (response : Response) : State :=
  let s1 := { s with activeServiceMessagesCounter := s.activeServiceMessagesCounter - 1
                     history := s.history ++ [Obs.msgCallback r.call response] }
  runSendCb s1 r.callback response

/-- `errorHandler`. -/
def errorHandler (env : Env) (s : State) (r : Request) : State :=
  if env.isWebKit then msgCallback (_storeMessage s r.msg) r none
  else sendMsg s r.call r.msg r.callback true

/-- The first two statements of `asyncServiceMsg`. -/
def stamp (env : Env) (msg : Msg) : Msg :=
  let msg1 := { msg with sessionId := some env.sessionId }
  if env.isIFrameWithoutSrc then { msg1 with referer := some env.referer } else msg1

/-- `asyncServiceMsg`. -/
def asyncServiceMsg (env : Env) (s : State) (msg : Msg) (callback : SendCb) : State :=
  let msg1 := stamp env msg
  let s1 := _removeMessageFromStore s msg1.cmd
  let s2 := { s1 with nextCall := s1.nextCall + 1
                      history := s1.history ++ [Obs.sendStarted s1.nextCall msg1] }
  sendMsg s2 s1.nextCall msg1 callback false

/-- `sendNextQueuedMsg`. -/
def sendNextQueuedMsg (env : Env) (s : State) (queueId : Cmd) : State :=
  match s.msgQueue queueId with
  | [] => raise s
  | queueItem :: _ =>
    asyncServiceMsg env (observe s (Obs.dispatched queueItem.msg)) queueItem.msg
      (SendCb.queued queueId queueItem.callback)

/-- `queuedAsyncServiceMsg`. -/
def queuedAsyncServiceMsg (env : Env) (s : State) (msg : Msg) (callback : ItemCb) : State :=
  let queue := s.msgQueue msg.cmd ++ [{ msg := msg, callback := callback }]
  let s1 := { s with msgQueue := fun c => if c = msg.cmd then queue else s.msgQueue c
                     history := s.history ++ [Obs.enqueued msg] }
  if queue.length = 1 then sendNextQueuedMsg env s1 msg.cmd else s1

/-- `syncServiceMsg`. -/
def syncServiceMsg (env : Env) (s : State) (msg : Msg) (callback : UserCb) : State :=
  let storedSync := s.useAsyncXhr
  asyncServiceMsg env { s with useAsyncXhr := false } msg (SendCb.sync storedSync callback)

/-- The frames of `storedMessages.map(item => new Promise(resolve =>
this.queuedAsyncServiceMsg(item, resolve)))`, from index `i` on. -/
def replayFrames (batch : Nat) : Nat → List Msg → List Action
  | _, [] => []
  | i, m :: ms => Action.replay m batch i :: replayFrames batch (i + 1) ms

/-- `batchUpdate`. -/
def batchUpdate (s : State) (updateCallback : UserCb) : State :=
  let storedMessages := _getStoredMessages s
  if storedMessages.isEmpty then runUserCb s updateCallback false none
  else
    let b : Batch :=
      { id := s.nextId, tasks := storedMessages.length
        unresolved := List.range storedMessages.length
        armed := false, fired := false, callback := updateCallback }
    { s with store := none
             nextId := s.nextId + 1
             batches := s.batches ++ [b]
             stack := replayFrames s.nextId 0 storedMessages ++ Action.thenAll s.nextId :: s.stack }

/-- `Promise.all(tasks).then(updateCallback)` is reached. -/
def thenAll (s : State) (batch : Nat) : State :=
  { s with batches := s.batches.map fun b =>
             if b.id = batch then { b with armed := true } else b }

/-- The reaction registered by `then`: it is due once every task is resolved
and `then` has been reached, and runs once. -/
def Batch.due (b : Batch) : Bool :=
  b.unresolved.isEmpty && b.armed && !b.fired

/-- Run the reaction of a batch: `updateCallback` is called. -/
def runJob (s : State) (b : Batch) : State :=
  let bs := s.batches.map fun x => if x.id = b.id then { x with fired := true } else x
  runUserCb { s with batches := bs, history := s.history ++ [Obs.reaction b.id] }
    b.callback true none

/-! ### Completion signal and waiting -/

/-- Modelled from the spec: `eventEmitter.emit(MSG_RECEIVED, {})` of
`./utils/event-emitter`, which is not among the sources.  The signal is
delivered to every handler subscribed when it is emitted, in order of
subscription; the statements of the arrow function of `sendNextQueuedMsg`
that precede and follow the emit are the `shift` and the frame
`sendNextIfAny`. -/
def advance (s : State) (queueId : Cmd) : State :=
  { s with msgQueue := fun c => if c = queueId then (s.msgQueue c).tail else s.msgQueue c
           stack := s.listeners.map Action.handler ++ Action.sendNextIfAny queueId :: s.stack }

/-- The `handler` of `waitCookieMsg`; `eventEmitter.off` (modelled from the
spec, as unsubscribing) removes the handler. -/
def handler (env : Env) (s : State) (l : Listener) : State :=
  if _cookieMsgInProgress env s then s
  else runUserCb { s with listeners := s.listeners.filter (·.id ≠ l.id) } l.callback false none

/-- `if (this.msgQueue[queueId].length) this.sendNextQueuedMsg(queueId)`. -/
def sendNextIfAny (env : Env) (s : State) (queueId : Cmd) : State :=
  if (s.msgQueue queueId).isEmpty then s else sendNextQueuedMsg env s queueId

/-- `waitCookieMsg`; `eventEmitter.on` (modelled from the spec, as
subscribing) appends the handler. -/
def waitCookieMsg (env : Env) (s : State) (callback : UserCb) : State :=
  if _cookieMsgInProgress env s then
    { s with listeners := s.listeners ++ [{ id := s.nextId, callback := callback }]
             nextId := s.nextId + 1 }
  else runUserCb s callback false none

/-- `waitForServiceMessagesCompleted`. -/
def waitForServiceMessagesCompleted (s : State) (callback : UserCb) (timeout : Nat) : State :=
  if s.activeServiceMessagesCounter = 0 then runUserCb s callback false none
  else
    { s with waiters := s.waiters ++
               [{ id := s.nextId, callback := callback
                  timeoutDue := some (s.clock + timeout)
                  intervalDue := some (s.clock + SERVICE_MESSAGES_WAITING_INTERVAL) }]
             nextId := s.nextId + 1 }

/-- The function passed to `window.setTimeout` in
`waitForServiceMessagesCompleted`. -/
def timeoutFires (s : State) (w : Waiter) : State :=
  let ws := s.waiters.map fun x =>
    if x.id = w.id then { x with timeoutDue := none, intervalDue := none } else x
  runUserCb { s with waiters := ws } w.callback false none

/-- The function passed to `window.setInterval` in
`waitForServiceMessagesCompleted`, run for the tick due at `due`. -/
def intervalFires (s : State) (w : Waiter) (due : Nat) : State :=
  if s.activeServiceMessagesCounter = 0 then
    let ws := s.waiters.map fun x =>
      if x.id = w.id then { x with timeoutDue := none, intervalDue := none } else x
    runUserCb { s with waiters := ws } w.callback false none
  else
    { s with waiters := s.waiters.map fun x =>
               if x.id = w.id then
                 { x with intervalDue := some (due + SERVICE_MESSAGES_WAITING_INTERVAL) }
               else x }

/-! ### The machine -/

/-- What the environment does next. -/
inductive Event where
  | call (c : Call) : Event
  | waitCookieMsg (callback : UserCb) : Event
  | waitForServiceMessagesCompleted (callback : UserCb) (timeout : Nat) : Event
  | run : Event
  | xhr (request : Nat) (signal : Signal) : Event
  | job (batch : Nat) : Event
  | elapse (dt : Nat) : Event
  | timeout (waiter : Nat) : Event
  | interval (waiter : Nat) : Event
  | beforeunload : Event
  | switchBack : Event

/-- A call of caller code. -/
def perform (env : Env) (s : State) : Call → State
  | .queuedAsyncServiceMsg msg callback => queuedAsyncServiceMsg env s msg (ItemCb.user callback)
  | .asyncServiceMsg msg callback => asyncServiceMsg env s msg (SendCb.user callback)
  | .syncServiceMsg msg callback => syncServiceMsg env s msg callback
  | .batchUpdate updateCallback => batchUpdate s updateCallback

/-- Execute a frame of the running turn; a turn blocked in `request.send`
does not run. -/
def runFrame (env : Env) (s : State) : Action → Option State
  | .call c => some (perform env s c)
  | .replay msg batch index => some (queuedAsyncServiceMsg env s msg (ItemCb.resolve batch index))
  | .thenAll batch => some (thenAll s batch)
  | .advance queueId => some (advance s queueId)
  | .handler l => some (handler env s l)
  | .sendNextIfAny queueId => some (sendNextIfAny env s queueId)
  | .awaitSync _ => none

/-- The listeners `sendMsg` registers on the request, run for one signal. -/
def onSignal (env : Env) (s : State) (r : Request) (signal : Signal) : State :=
  if r.forced then
    match signal with
    | .readystatechange readyState _ _ =>
      if readyState ≠ 4 then s else msgCallback s r none
    | _ => s
  else if env.isIE9 then
    match signal with
    | .readystatechange readyState status response =>
      if readyState ≠ 4 then s
      else
        let s1 := match status with
          | none => errorHandler env s r
          | some _ => s
        if status = some 200 then msgCallback s1 r response else s1
    | _ => s
  else
    match signal with
    | .load response => msgCallback s r response
    | .abort => errorHandler env s r
    | .error => errorHandler env s r
    | .timeout => errorHandler env s r
    | .readystatechange _ _ _ => s

/-- The signal after which the request raises nothing its listeners handle:
`readyState` 4 for the requests that listen to `readystatechange`, and
`load`, `abort`, `error` or `timeout` for the others. -/
def completes (env : Env) (r : Request) : Signal → Bool
  | .readystatechange readyState _ _ => (r.forced || env.isIE9) && readyState = 4
  | _ => !(r.forced || env.isIE9)

/-- Find the request `id` among those in flight and take it out. -/
def takeRequest (id : Nat) : List Request → Option (Request × List Request)
  | [] => none
  | r :: rs =>
    if r.id = id then some (r, rs)
    else match takeRequest id rs with
      | none => none
      | some (x, rest) => some (x, r :: rest)

/-- Find the waiter `id`. -/
def findWaiter (id : Nat) (ws : List Waiter) : Option Waiter :=
  ws.find? fun w => w.id = id

/-- Find the batch `id`. -/
def findBatch (id : Nat) (bs : List Batch) : Option Batch :=
  bs.find? fun b => b.id = id

/-- Delivery of a signal of request `id`.  An asynchronous request signals
in a turn of its own; a synchronous one signals inside `request.send`. -/
def xhr (env : Env) (s : State) (id : Nat) (signal : Signal) : Option State :=
  match takeRequest id s.inflight with
  | none => none
  | some (r, rest) =>
    if r.async then
      match s.stack with
      | [] =>
        if completes env r signal then some (onSignal env { s with inflight := rest } r signal)
        else some (onSignal env s r signal)
      | _ :: _ => none
    else
      match s.stack with
      | .awaitSync j :: frames =>
        if j = id then
          if completes env r signal then
            some (onSignal env { s with inflight := rest, stack := frames } r signal)
          else some (onSignal env s r signal)
        else none
      | _ => none

/-- One step of the machine; `none` when the event cannot occur in `s`. -/
def step (env : Env) (s : State) : Event → Option State
  | .run =>
    match s.stack with
    | [] => none
    | a :: frames => runFrame env { s with stack := frames } a
  | .xhr id signal => xhr env s id signal
  | .call c =>
    if s.stack.isEmpty then some (perform env s c) else none
  | .waitCookieMsg callback =>
    if s.stack.isEmpty then some (waitCookieMsg env s callback) else none
  | .waitForServiceMessagesCompleted callback timeout =>
    if s.stack.isEmpty then some (waitForServiceMessagesCompleted s callback timeout) else none
  | .job batch =>
    if s.stack.isEmpty then
      match findBatch batch s.batches with
      | some b => if b.due then some (runJob s b) else none
      | none => none
    else none
  | .elapse dt =>
    if s.stack.isEmpty then some { s with clock := s.clock + dt } else none
  | .timeout waiter =>
    if s.stack.isEmpty then
      match findWaiter waiter s.waiters with
      | some w =>
        match w.timeoutDue with
        | some due => if due ≤ s.clock then some (timeoutFires s w) else none
        | none => none
      | none => none
    else none
  | .interval waiter =>
    if s.stack.isEmpty then
      match findWaiter waiter s.waiters with
      | some w =>
        match w.intervalDue with
        | some due => if due ≤ s.clock then some (intervalFires s w due) else none
        | none => none
      | none => none
    else none
  | .beforeunload =>
    if s.stack.isEmpty then
      some { s with useAsyncXhr := false
                    switchBack := s.switchBack ++ [s.clock + SWITCH_BACK_TO_ASYNC_XHR_DELAY] }
    else none
  | .switchBack =>
    if s.stack.isEmpty then
      match s.switchBack with
      | due :: rest =>
        if due ≤ s.clock then some { s with useAsyncXhr := true, switchBack := rest } else none
      | [] => none
    else none

/-- Run a sequence of events. -/
def run (env : Env) (s : State) : List Event → Option State
  | [] => some s
  | e :: es =>
    match step env s e with
    | none => none
    | some s1 => run env s1 es

/-- States the transport can be in. -/
def Reachable (env : Env) (s : State) : Prop :=
  ∃ store events, run env (init store) events = some s


/-! ### Observations about one command -/

/-- The message, when the observation is its being queued for `cmd`. -/
def Obs.enqueuedFor (cmd : Cmd) : Obs → Option Msg
  | .enqueued m => if m.cmd = cmd then some m else none
  | _ => none

/-- The message, when the observation is its being dispatched for `cmd`. -/
def Obs.dispatchedFor (cmd : Cmd) : Obs → Option Msg
  | .dispatched m => if m.cmd = cmd then some m else none
  | _ => none

/-- Whether the observation is the completion of a queued message of `cmd`. -/
def Obs.completedFor (cmd : Cmd) : Obs → Bool
  | .completed c => c = cmd
  | _ => false

/-- Messages passed to `queuedAsyncServiceMsg` with command `cmd`, in call order. -/
def enqueuedOf (cmd : Cmd) (h : List Obs) : List Msg :=
  h.filterMap (Obs.enqueuedFor cmd)

/-- Messages of command `cmd` that `sendNextQueuedMsg` passed to
`asyncServiceMsg`, in order. -/
def dispatchedOf (cmd : Cmd) (h : List Obs) : List Msg :=
  h.filterMap (Obs.dispatchedFor cmd)

/-- Number of queued messages of `cmd` whose completion callback has run. -/
def completedOf (cmd : Cmd) (h : List Obs) : Nat :=
  h.countP (Obs.completedFor cmd)

/-- Whether the request carries the arrow function of `sendNextQueuedMsg(cmd)`. -/
def Request.ownedBy (cmd : Cmd) (r : Request) : Bool :=
  match r.callback with
  | .queued c _ => c = cmd
  | _ => false

/-- Whether the frame is `advance cmd`. -/
def Action.isAdvance (cmd : Cmd) : Action → Bool
  | .advance c => c = cmd
  | _ => false

/-- Whether the frame is `sendNextIfAny cmd`. -/
def Action.isSendNext (cmd : Cmd) : Action → Bool
  | .sendNextIfAny c => c = cmd
  | _ => false

/-- Requests in flight for the head of `msgQueue[cmd]`. -/
def owners (cmd : Cmd) (s : State) : Nat := s.inflight.countP (Request.ownedBy cmd)

/-- Pending `advance cmd` frames. -/
def advancing (cmd : Cmd) (s : State) : Nat := s.stack.countP (Action.isAdvance cmd)

/-- Pending `sendNextIfAny cmd` frames. -/
def resuming (cmd : Cmd) (s : State) : Nat := s.stack.countP (Action.isSendNext cmd)

/-- The messages of a queue. -/
def msgsOf (q : List QueueItem) : List Msg := q.map fun i => i.msg

/-- Every dispatch of a message of `cmd` recorded in `h` happened when all
messages of `cmd` dispatched before it had completed, and the message was the
next one in call order. -/
def DispatchedInTurn (cmd : Cmd) (h : List Obs) : Prop :=
  ∀ h1 m h2, h = h1 ++ Obs.dispatched m :: h2 → m.cmd = cmd →
    completedOf cmd h1 = (dispatchedOf cmd h1).length ∧
    dispatchedOf cmd h1 ++ [m] <+: enqueuedOf cmd h1

/-- The queue of `cmd` between the dispatch of its head and the `shift`. -/
def Settled (s : State) (cmd : Cmd) : Prop :=
  resuming cmd s = 0 ∧
  dispatchedOf cmd s.history ++ msgsOf (s.msgQueue cmd).tail = enqueuedOf cmd s.history ∧
  owners cmd s + advancing cmd s ≤ 1 ∧
  (s.msgQueue cmd = [] →
    owners cmd s + advancing cmd s = 0 ∧
    (dispatchedOf cmd s.history).length = completedOf cmd s.history) ∧
  (owners cmd s = 1 → (dispatchedOf cmd s.history).length = completedOf cmd s.history + 1) ∧
  (advancing cmd s = 1 → (dispatchedOf cmd s.history).length = completedOf cmd s.history) ∧
  completedOf cmd s.history ≤ (dispatchedOf cmd s.history).length ∧
  (dispatchedOf cmd s.history).length ≤ completedOf cmd s.history + 1

/-- The queue of `cmd` after the `shift`, up to the `sendNextIfAny` on top of
the stack: no message of the queue has been dispatched. -/
def Ready (s : State) (cmd : Cmd) : Prop :=
  owners cmd s = 0 ∧ advancing cmd s = 0 ∧
  dispatchedOf cmd s.history ++ msgsOf (s.msgQueue cmd) = enqueuedOf cmd s.history ∧
  (dispatchedOf cmd s.history).length = completedOf cmd s.history

/-- `Ready`, with the `sendNextIfAny cmd` frame being the next to run. -/
def Resuming (s : State) (cmd : Cmd) : Prop :=
  (∃ frames, s.stack = Action.sendNextIfAny cmd :: frames ∧
    frames.countP (Action.isSendNext cmd) = 0) ∧ Ready s cmd

/-- Invariant of the states reached without subscribing a `MSG_RECEIVED` handler. -/
structure QInv (s : State) : Prop where
  listeners : s.listeners = []
  keyed : ∀ cmd, ∀ i ∈ s.msgQueue cmd, i.msg.cmd = cmd
  inTurn : ∀ cmd, DispatchedInTurn cmd s.history
  phase : ∀ cmd, Settled s cmd ∨ Resuming s cmd

/-- Whether the callback is the arrow function of `sendNextQueuedMsg(cmd)`. -/
def SendCb.ownedBy (cmd : Cmd) : SendCb → Bool
  | .queued c _ => c = cmd
  | _ => false

/-- The step from `s` to `t` leaves the queue of `cmd` and what was observed
about it as they were, and adds no frame of the queue to the stack. -/
structure Keeps (cmd : Cmd) (s t : State) : Prop where
  queue : t.msgQueue cmd = s.msgQueue cmd
  owners : owners cmd t = owners cmd s
  enq : enqueuedOf cmd t.history = enqueuedOf cmd s.history
  disp : dispatchedOf cmd t.history = dispatchedOf cmd s.history
  done : completedOf cmd t.history = completedOf cmd s.history
  inTurn : DispatchedInTurn cmd s.history → DispatchedInTurn cmd t.history
  adv : advancing cmd t ≤ advancing cmd s
  res : resuming cmd t ≤ resuming cmd s

/-- Observations that concern no queue. -/
def Obs.plain : Obs → Bool
  | .enqueued _ => false
  | .dispatched _ => false
  | .completed _ => false
  | _ => true

/-- Invariant of the queue of `cmd` while no `sendNextIfAny cmd` is pending. -/
structure Calm (s : State) (cmd : Cmd) : Prop where
  keyed : ∀ i ∈ s.msgQueue cmd, i.msg.cmd = cmd
  inTurn : DispatchedInTurn cmd s.history
  settled : Settled s cmd

/-- The queue of `cmd` when the request of its head has just signalled. -/
structure Awaited (s : State) (cmd : Cmd) : Prop where
  res : resuming cmd s = 0
  own : owners cmd s = 0
  adv : advancing cmd s = 0
  seq : dispatchedOf cmd s.history ++ msgsOf (s.msgQueue cmd).tail = enqueuedOf cmd s.history
  len : (dispatchedOf cmd s.history).length = completedOf cmd s.history + 1
  nonempty : s.msgQueue cmd ≠ []

/-- Whether the event is a call of `waitCookieMsg`, the only method that can
subscribe a handler to `MSG_RECEIVED`. -/
def Event.isWaitCookieMsg : Event → Bool
  | .waitCookieMsg _ => true
  | _ => false


/-! ### Sample inputs -/

/-- A page in a browser that is neither WebKit nor IE9; `COMMAND.setCookie` is 1. -/
def sampleEnv : Env :=
  { isWebKit := false, isIE9 := false, isIFrameWithoutSrc := false
    sessionId := 7, referer := 9, setCookie := 1 }

/-- The same page in a WebKit browser. -/
def webKitEnv : Env :=
  { sampleEnv with isWebKit := true }

/-- A message as a caller passes it. -/
def sampleMsg (cmd payload : Nat) : Msg :=
  { cmd := cmd, payload := payload, sessionId := none, referer := none }

/-- Two messages of command 1 and one of command 2 are queued; the request of
command 2 completes first, then those of command 1 in turn. -/
def orderedEvents : List Event :=
  [ Event.call (Call.queuedAsyncServiceMsg (sampleMsg 1 10) (UserCb.fn 0 [])),
    Event.call (Call.queuedAsyncServiceMsg (sampleMsg 2 20) UserCb.absent),
    Event.call (Call.queuedAsyncServiceMsg (sampleMsg 1 11) (UserCb.fn 1 [])),
    Event.xhr 1 (Signal.load (some 5)), Event.run, Event.run,
    Event.xhr 0 Signal.error, Event.xhr 2 (Signal.readystatechange 4 (some 200) none),
    Event.run, Event.run,
    Event.xhr 3 (Signal.load none), Event.run, Event.run ]

/-- The state `orderedEvents` leads to. -/
def orderedState : State :=
  (run sampleEnv (init none) orderedEvents).getD (init none)

/-- A set-cookie message is queued; `waitCookieMsg` is called with a callback
that queues another set-cookie message; the first request loads and the turn
of its completion runs to its end. -/
def reentryEvents : List Event :=
  [ Event.call (Call.queuedAsyncServiceMsg (sampleMsg 1 10) UserCb.absent),
    Event.waitCookieMsg
      (UserCb.fn 6 [Call.queuedAsyncServiceMsg (sampleMsg 1 11) UserCb.absent]),
    Event.xhr 0 (Signal.load none),
    Event.run, Event.run, Event.run, Event.run ]

/-- After `reentryEvents`, with two requests for message 11 in flight, the
messages 12 and 13 are queued; the first request of message 11 loads and the
turn of its completion dispatches message 12; the second request of message
11 loads and its turn runs to its end. -/
def overtakeEvents : List Event :=
  reentryEvents ++
  [ Event.call (Call.queuedAsyncServiceMsg (sampleMsg 1 12) (UserCb.fn 12 [])),
    Event.call (Call.queuedAsyncServiceMsg (sampleMsg 1 13) (UserCb.fn 13 [])),
    Event.xhr 2 (Signal.load none), Event.run, Event.run,
    Event.xhr 3 (Signal.load none), Event.run, Event.run ]

/-- A message is sent, its request fails, and the forced request completes. -/
def retryEvents : List Event :=
  [ Event.call (Call.asyncServiceMsg (sampleMsg 3 30) (UserCb.fn 5 [])),
    Event.xhr 0 Signal.error,
    Event.xhr 1 (Signal.readystatechange 4 (some 200) (some 8)) ]

/-- The state `retryEvents` leads to. -/
def retryState : State :=
  (run sampleEnv (init none) retryEvents).getD (init none)

/-- On WebKit, two messages of command 1 are sent through `asyncServiceMsg`
and are in flight together; both requests fail. -/
def concurrentEvents : List Event :=
  [ Event.call (Call.asyncServiceMsg (sampleMsg 1 10) UserCb.absent),
    Event.call (Call.asyncServiceMsg (sampleMsg 1 11) UserCb.absent),
    Event.xhr 0 Signal.error,
    Event.xhr 1 Signal.abort ]

/-- On WebKit, one message of command 1 has been sent and is in flight. -/
def oneInFlight : State :=
  asyncServiceMsg webKitEnv (init none) (sampleMsg 1 10) (SendCb.user UserCb.absent)

/-- A message as it is stored: stamped with the session of `sampleEnv`. -/
def storedMsg (cmd payload : Nat) : Msg :=
  { cmd := cmd, payload := payload, sessionId := some 7, referer := none }

/-- The store holds one record; `batchUpdate` replays it, and the request of
the replayed message fails; the turn of the failure runs to its end and the
reaction of `Promise.all(tasks).then(updateCallback)` runs. -/
def failedReplayEvents : List Event :=
  [ Event.call (Call.batchUpdate (UserCb.fn 4 [])), Event.run, Event.run,
    Event.xhr 1 Signal.error, Event.run, Event.run, Event.job 0 ]

/-- A page whose store holds two records of command 1 and one of command 2. -/
def replayStart : State :=
  init (some [storedMsg 1 10, storedMsg 2 20, storedMsg 1 11])

/-- After `batchUpdate` has replayed the three records of `replayStart`, the
requests load one after the other, each turn running to its end. -/
def replayDoneEvents : List Event :=
  [ Event.xhr 1 (Signal.load none), Event.run, Event.run,
    Event.xhr 2 (Signal.load none), Event.run, Event.run,
    Event.xhr 3 (Signal.load none), Event.run, Event.run ]

/-- The state after `batchUpdate` has replayed the records of `replayStart`
and reached `then`. -/
def replayedState : State :=
  (run sampleEnv (batchUpdate replayStart (UserCb.fn 4 []))
    (List.replicate 4 Event.run)).getD replayStart

/-- The state after the requests of the replayed messages have loaded. -/
def replayDoneState : State :=
  (run sampleEnv replayedState replayDoneEvents).getD replayStart

/-- On WebKit, a message of command 3 has been sent with a callback and is in
flight. -/
def webKitSent : State :=
  asyncServiceMsg webKitEnv (init none) (sampleMsg 3 30) (SendCb.user (UserCb.fn 5 []))

/-- A page in IE9. -/
def ie9Env : Env :=
  { sampleEnv with isIE9 := true }

/-- A message is sent and its request loads with the response 8. -/
def loadEvents : List Event :=
  [ Event.call (Call.asyncServiceMsg (sampleMsg 3 30) (UserCb.fn 5 [])),
    Event.xhr 0 (Signal.load (some 8)) ]

/-- In IE9, a message is sent and its request reaches `readyState` 4 with
status 200 and the response 8. -/
def ie9Events : List Event :=
  [ Event.call (Call.asyncServiceMsg (sampleMsg 3 30) (UserCb.fn 5 [])),
    Event.xhr 0 (Signal.readystatechange 4 (some 200) (some 8)) ]

/-! ### Requests issued -/

/-- The invocation of `asyncServiceMsg`, and the `forced` and `async` flags,
of a request observed. -/
def Obs.requestOf : Obs → Option (Nat × Bool × Bool)
  | .request call _ forced async => some (call, forced, async)
  | _ => none

/-- Requests issued so far, in order: invocation, `forced`, `async`. -/
def requestsIssued (h : List Obs) : List (Nat × Bool × Bool) :=
  h.filterMap Obs.requestOf

/-- Requests issued for the invocation `call` of `asyncServiceMsg`. -/
def requestsOf (call : Nat) (h : List Obs) : List (Nat × Bool × Bool) :=
  (requestsIssued h).filter fun x => x.1 = call

/-- Whether the signal is a transport-level failure of a first attempt:
`abort`, `error` or `timeout`, and in IE9, which raises none of them,
`readyState` 4 with a `status` that cannot be read. -/
def Signal.fails (env : Env) : Signal → Bool
  | .abort => !env.isIE9
  | .error => !env.isIE9
  | .timeout => !env.isIE9
  | .readystatechange readyState status _ => env.isIE9 && readyState = 4 && status.isNone
  | .load _ => false

/-- First attempts of invocation `call` in flight. -/
def firstAttempts (call : Nat) (s : State) : Nat :=
  s.inflight.countP fun r => r.call = call && !r.forced

/-- Forced requests issued for invocation `call`. -/
def forcedIssued (call : Nat) (h : List Obs) : Nat :=
  (requestsIssued h).countP fun x => x.1 = call && x.2.1

/-- First attempts issued for invocation `call`. -/
def firstIssued (call : Nat) (h : List Obs) : Nat :=
  (requestsIssued h).countP fun x => x.1 = call && !x.2.1

/-- Invariant: an invocation of `asyncServiceMsg` has one first attempt, and
a forced request only in place of its first attempt. -/
structure KInv (s : State) : Prop where
  inflight : ∀ r ∈ s.inflight, r.call < s.nextCall
  issued : ∀ x ∈ requestsIssued s.history, x.1 < s.nextCall
  forcedSync : ∀ x ∈ requestsIssued s.history, x.2.1 = true → x.2.2 = false
  once : ∀ call, firstAttempts call s + forcedIssued call s.history ≤ 1
  first : ∀ call, firstIssued call s.history ≤ 1

/-- The step from `s` to `t` issues no request, ends none, and leaves the
persistent store as it is. -/
structure Silent (s t : State) : Prop where
  inflight : t.inflight = s.inflight
  nextCall : t.nextCall = s.nextCall
  issued : requestsIssued t.history = requestsIssued s.history
  store : t.store = s.store

/-- How a step of the transport other than a signal changes the requests and
the store: not at all; by removing the item of the session (`batchUpdate`);
or by the first attempt of a new invocation of `asyncServiceMsg`, which takes
the first record with the `cmd` of its message out of the store. -/
inductive Traffic (s t : State) : Prop where
  | silent (h : Silent s t) : Traffic s t
  | cleared (hi : t.inflight = s.inflight) (hc : t.nextCall = s.nextCall)
      (hr : requestsIssued t.history = requestsIssued s.history)
      (hst : t.store = none) : Traffic s t
  | fresh (r : Request) (hi : t.inflight = s.inflight ++ [r]) (hcall : r.call = s.nextCall)
      (hf : r.forced = false) (hc : t.nextCall = s.nextCall + 1)
      (hr : requestsIssued t.history =
        requestsIssued s.history ++ [(r.call, r.forced, r.async)])
      (hst : t.store = some (spliceFirst r.msg.cmd (_getStoredMessages s))) : Traffic s t

/-! ### The steps of the machine, by kind -/

/-- The steps `step` can take: `Fired env s e t` holds when event `e` leads
from `s` to `t`. -/
inductive Fired (env : Env) (s : State) : Event → State → Prop where
  | frame (a : Action) (frames : List Action) (t : State) (hs : s.stack = a :: frames)
      (h : runFrame env { s with stack := frames } a = some t) : Fired env s Event.run t
  | ignored (id : Nat) (signal : Signal) (r : Request) (rest : List Request)
      (ht : takeRequest id s.inflight = some (r, rest))
      (hc : completes env r signal = false) : Fired env s (Event.xhr id signal) s
  | signal (id : Nat) (signal : Signal) (r : Request) (rest : List Request)
      (frames : List Action)
      (ht : takeRequest id s.inflight = some (r, rest))
      (hc : completes env r signal = true)
      (hs : (r.async = true ∧ s.stack = [] ∧ frames = []) ∨
        (r.async = false ∧ s.stack = Action.awaitSync id :: frames)) :
      Fired env s (Event.xhr id signal)
        (onSignal env { s with inflight := rest, stack := frames } r signal)
  | call (c : Call) (hs : s.stack = []) : Fired env s (Event.call c) (perform env s c)
  | waitCookieMsg (cb : UserCb) (hs : s.stack = []) :
      Fired env s (Event.waitCookieMsg cb) (waitCookieMsg env s cb)
  | waitForServiceMessagesCompleted (cb : UserCb) (timeout : Nat) (hs : s.stack = []) :
      Fired env s (Event.waitForServiceMessagesCompleted cb timeout)
        (waitForServiceMessagesCompleted s cb timeout)
  | job (batch : Nat) (b : Batch) (hs : s.stack = [])
      (hb : findBatch batch s.batches = some b) (hd : b.due = true) :
      Fired env s (Event.job batch) (runJob s b)
  | elapse (dt : Nat) (hs : s.stack = []) :
      Fired env s (Event.elapse dt) { s with clock := s.clock + dt }
  | timeout (waiter : Nat) (w : Waiter) (due : Nat) (hs : s.stack = [])
      (hw : findWaiter waiter s.waiters = some w) (hdue : w.timeoutDue = some due)
      (hle : due ≤ s.clock) : Fired env s (Event.timeout waiter) (timeoutFires s w)
  | interval (waiter : Nat) (w : Waiter) (due : Nat) (hs : s.stack = [])
      (hw : findWaiter waiter s.waiters = some w) (hdue : w.intervalDue = some due)
      (hle : due ≤ s.clock) : Fired env s (Event.interval waiter) (intervalFires s w due)
  | beforeunload (hs : s.stack = []) :
      Fired env s Event.beforeunload
        { s with useAsyncXhr := false
                 switchBack := s.switchBack ++ [s.clock + SWITCH_BACK_TO_ASYNC_XHR_DELAY] }
  | switchBack (due : Nat) (rest : List Nat) (hs : s.stack = [])
      (hsb : s.switchBack = due :: rest) (hle : due ≤ s.clock) :
      Fired env s Event.switchBack { s with useAsyncXhr := true, switchBack := rest }

/-! ### Records and requests of a command -/

/-- Number of stored records whose `cmd` is `cmd`. -/
def storedFor (cmd : Cmd) (s : State) : Nat :=
  (_getStoredMessages s).countP fun m => m.cmd = cmd

/-- Number of requests in flight whose message has the command `cmd`. -/
def inflightFor (cmd : Cmd) (s : State) : Nat :=
  s.inflight.countP fun r => r.msg.cmd = cmd

/-! ### Replaying the stored messages -/

/-- Whether the observation is the reaction of batch `batch`. -/
def Obs.reactionOf (batch : Nat) : Obs → Bool
  | .reaction b => b = batch
  | _ => false

/-- Number of times the reaction of batch `batch`, the call of
`updateCallback`, has run. -/
def reactionsOf (batch : Nat) (h : List Obs) : Nat :=
  h.countP (Obs.reactionOf batch)

/-- Observations other than the reaction of a batch and the resolution of a task. -/
def Obs.batchFree : Obs → Bool
  | .reaction _ => false
  | .resolved _ _ => false
  | _ => true

/-- Every reaction of batch `batch` recorded in `h` ran after all its `tasks`
promises had been resolved. -/
def ReactionAfterAll (batch tasks : Nat) (h : List Obs) : Prop :=
  ∀ h1 h2, h = h1 ++ Obs.reaction batch :: h2 →
    ∀ i, i < tasks → Obs.resolved batch i ∈ h1

/-- Invariant of the batches. -/
structure BInv (s : State) : Prop where
  fresh : ∀ b ∈ s.batches, b.id < s.nextId
  nodup : (s.batches.map fun b => b.id).Nodup
  known : ∀ id, reactionsOf id s.history ≠ 0 → ∃ b ∈ s.batches, b.id = id
  once : ∀ b ∈ s.batches, reactionsOf b.id s.history = if b.fired then 1 else 0
  tracked : ∀ b ∈ s.batches, ∀ i, i < b.tasks →
    i ∈ b.unresolved ∨ Obs.resolved b.id i ∈ s.history
  ordered : ∀ b ∈ s.batches, ReactionAfterAll b.id b.tasks s.history
  pending : ∀ b ∈ s.batches, ∀ i ∈ b.unresolved,
    i < b.tasks ∧ Obs.resolved b.id i ∉ s.history

/-- The queue items `batchUpdate` creates for the stored messages, from index
`i` on: each message with the `resolve` function of its own promise. -/
def replayItems (batch : Nat) : Nat → List Msg → List QueueItem
  | _, [] => []
  | i, m :: ms => { msg := m, callback := ItemCb.resolve batch i } :: replayItems batch (i + 1) ms

/-- Messages passed to `queuedAsyncServiceMsg`, in call order. -/
def allEnqueued (h : List Obs) : List Msg :=
  h.filterMap fun o => match o with
    | .enqueued m => some m
    | _ => none

/-- Whether the event is a failure signal of a request. -/
def Event.failure (env : Env) : Event → Bool
  | .xhr _ signal => signal.fails env
  | _ => false

/-- What identifies a batch and does not change while it lives: its
identifier, the number of its tasks and `updateCallback`. -/
def Batch.key (b : Batch) : Nat × Nat × UserCb :=
  (b.id, b.tasks, b.callback)

/-- The batches of `s` live on in `t`: each keeps its key, and one on which
`then` has been reached stays so. -/
def KeepsBatches (s t : State) : Prop :=
  ∀ b ∈ s.batches, ∃ x ∈ t.batches, x.key = b.key ∧ (b.armed = true → x.armed = true)

/-- Whether the event may put a message into the persistent store: a failure
signal of a request, in a WebKit browser. -/
def Event.stores (env : Env) (e : Event) : Bool :=
  env.isWebKit && e.failure env

/-- Whether the observation is a call of the caller's function `tag`. -/
def Obs.callbackOf (tag : Nat) : Obs → Bool
  | .callback t _ => t = tag
  | _ => false

/-- Number of calls of the caller's function `tag`. -/
def callbacksOf (tag : Nat) (h : List Obs) : Nat :=
  h.countP (Obs.callbackOf tag)

/-- The callback resolves no promise of a batch created at `n` or later. -/
def ItemCb.olderThan (n : Nat) : ItemCb → Prop
  | .resolve batch _ => batch < n
  | .user _ => True

/-- The item callback inside the callback of a send is older than `n`. -/
def SendCb.olderThan (n : Nat) : SendCb → Prop
  | .queued _ item => item.olderThan n
  | _ => True

/-- A replay frame belongs to a batch older than `n`. -/
def Action.olderThan (n : Nat) : Action → Prop
  | .replay _ batch _ => batch < n
  | _ => True

/-- A resolution observed belongs to a batch older than `n`. -/
def Obs.olderThan (n : Nat) : Obs → Prop
  | .resolved batch _ => batch < n
  | _ => True

/-- Invariant: the `resolve` functions held by the frames, the queues and the
requests, and the resolutions observed, belong to batches already created. -/
structure WInv (s : State) : Prop where
  stack : ∀ a ∈ s.stack, a.olderThan s.nextId
  queue : ∀ cmd, ∀ it ∈ s.msgQueue cmd, it.callback.olderThan s.nextId
  inflight : ∀ r ∈ s.inflight, r.callback.olderThan s.nextId
  history : ∀ o ∈ s.history, o.olderThan s.nextId

/-! ### Messages in flight -/

/-- Whether the observation is the start of a send (`asyncServiceMsg` reaches
`sendMsg()`). -/
def Obs.isSendStarted : Obs → Bool
  | .sendStarted _ _ => true
  | _ => false

/-- Whether the observation is a run of `msgCallback`, the completion
callback of a message. -/
def Obs.isMsgCallback : Obs → Bool
  | .msgCallback _ _ => true
  | _ => false

/-- Number of messages whose send has started. -/
def sendsStarted (h : List Obs) : Nat :=
  h.countP Obs.isSendStarted

/-- Number of messages whose completion callback has run. -/
def sendsCompleted (h : List Obs) : Nat :=
  h.countP Obs.isMsgCallback

/-! ### The stored string

`State.store` holds the list a stored string serialises.  The functions below
read the item itself, as `window.localStorage.getItem(sessionId)` returns it;
`parseJSON` of `./json`, which is not among the sources, is a parameter: it
returns the list a string serialises or throws. -/

/-- `Transport._getStoredMessages` on the item found under the session key:
`storedMessagesStr ? parseJSON(storedMessagesStr) : []`. -/
def Raw._getStoredMessages (parseJSON : String → Except String (List Msg))
    (item : Option String) : Except String (List Msg) :=
  match item with
  | none => Except.ok []
  | some storedMessagesStr =>
    if storedMessagesStr = "" then Except.ok [] else parseJSON storedMessagesStr

/-- `batchUpdate` with the item as found: its first statement reads the store. -/
def Raw.batchUpdate (parseJSON : String → Except String (List Msg)) (item : Option String)
    (s : State) (updateCallback : UserCb) : Except String State :=
  match Raw._getStoredMessages parseJSON item with
  | .error err => Except.error err
  | .ok storedMessages =>
    Except.ok (Transport.batchUpdate { s with store := some storedMessages } updateCallback)

/-- `asyncServiceMsg` with the item as found: `_removeMessageFromStore` reads
the store before `sendMsg()` is reached. -/
def Raw.asyncServiceMsg (parseJSON : String → Except String (List Msg)) (item : Option String)
    (env : Env) (s : State) (msg : Msg) (callback : SendCb) : Except String State :=
  match Raw._getStoredMessages parseJSON item with
  | .error err => Except.error err
  | .ok storedMessages =>
    Except.ok (Transport.asyncServiceMsg env { s with store := some storedMessages } msg callback)

/-- The serialisation of the list of one stored message of command 3. -/
def sampleItem : String :=
  "[\x7b\"cmd\":3,\"payload\":30,\"sessionId\":7\x7d]"

/-- Stand-in for `parseJSON`: it reads the serialisation of the empty list and
of the list of one sample message, and throws on any other string. -/
def sampleParseJSON (str : String) : Except String (List Msg) :=
  if str = "[]" then Except.ok []
  else if str = sampleItem then Except.ok [storedMsg 3 30]
  else Except.error "SyntaxError"

/-! ### Identifiers -/

/-- Invariant: the identifiers of the requests in flight, of the waiters and
of the subscribed handlers are smaller than the next identifier, and no two
waiters and no two handlers share one. -/
structure IdInv (s : State) : Prop where
  inflight : ∀ r ∈ s.inflight, r.id < s.nextId
  waiters : ∀ w ∈ s.waiters, w.id < s.nextId
  waitersNodup : (s.waiters.map fun w => w.id).Nodup
  listeners : ∀ l ∈ s.listeners, l.id < s.nextId
  listenersNodup : (s.listeners.map fun l => l.id).Nodup

/-! ### Inside a synchronous send -/

/-- The turn is inside `request.send` of a synchronous request whose callback
is the arrow function of a call `syncServiceMsg(msg, cb)` made when
`useAsyncXhr` was `stored`. -/
def InSend (stored : Bool) (cb : UserCb) (u : State) : Prop :=
  ∃ j frames r rest, u.stack = Action.awaitSync j :: frames ∧
    takeRequest j u.inflight = some (r, rest) ∧ r.async = false ∧
    r.callback = SendCb.sync stored cb

/-! ### Waiting for the messages in flight -/

/-- The waiter `id`, registered at time `start` by
`waitForServiceMessagesCompleted(cb, timeout)`, has not called back: its
timeout is due at `start + timeout` and its interval at a tick
`start + 50 * k`. -/
def Waiting (start timeout id : Nat) (cb : UserCb) (u : State) : Prop :=
  ∃ w, findWaiter id u.waiters = some w ∧ w.callback = cb ∧
    w.timeoutDue = some (start + timeout) ∧
    ∃ k, 1 ≤ k ∧ w.intervalDue = some (start + SERVICE_MESSAGES_WAITING_INTERVAL * k)

/-- The waiter `id` has called back: its timeout and its interval are cleared. -/
def CalledBack (id : Nat) (u : State) : Prop :=
  ∃ w, findWaiter id u.waiters = some w ∧ w.timeoutDue = none ∧ w.intervalDue = none

/-- A message is sent; `waitForServiceMessagesCompleted` is called with the
timeout 120; the polls at 50 and 100 find the message in flight; its request
loads at 110. -/
def quiescenceEvents : List Event :=
  [ Event.call (Call.asyncServiceMsg (sampleMsg 3 30) (UserCb.fn 5 [])),
    Event.waitForServiceMessagesCompleted (UserCb.fn 9 []) 120,
    Event.elapse 50, Event.interval 1, Event.elapse 50, Event.interval 1,
    Event.elapse 10, Event.xhr 0 (Signal.load none) ]

/-- The state `quiescenceEvents` leads to. -/
def quiescenceState : State :=
  (run sampleEnv (init none) quiescenceEvents).getD (init none)

/-- Whether the callback of waiter `id` can be called in state `s` once `dt`
more units of time have passed: its timeout or its interval can fire. -/
def canCallBack (env : Env) (s : State) (id dt : Nat) : Bool :=
  match step env s (Event.elapse dt) with
  | none => false
  | some t => (step env t (Event.timeout id)).isSome || (step env t (Event.interval id)).isSome

/-- A message of command 3 has been sent and is in flight. -/
def messageInFlight : State :=
  (run sampleEnv (init none)
    [Event.call (Call.asyncServiceMsg (sampleMsg 3 30) (UserCb.fn 5 []))]).getD (init none)

/-! ### A completion signal inside a completion signal -/

/-- The calls before the first completion: a set-cookie message is queued
and in flight; `waitCookieMsg` is called with a callback that queues a
message of command 2, and again with a second callback. -/
def cookieWaitEvents : List Event :=
  [ Event.call (Call.queuedAsyncServiceMsg (sampleMsg 1 10) UserCb.absent),
    Event.waitCookieMsg
      (UserCb.fn 6 [Call.queuedAsyncServiceMsg (sampleMsg 2 20) UserCb.absent]),
    Event.waitCookieMsg (UserCb.fn 7 []) ]

/-- After `cookieWaitEvents`, `beforeunload` switches to synchronous requests
and the request of the set-cookie message loads.  The first handler calls its
callback, whose message of command 2 is sent synchronously and completes
inside the call; the turn runs to its end. -/
def nestedSignalEvents : List Event :=
  cookieWaitEvents ++
  [ Event.beforeunload, Event.xhr 0 (Signal.load none),
    Event.run, Event.run, Event.run,
    Event.xhr 3 (Signal.load none),
    Event.run, Event.run, Event.run, Event.run, Event.run ]

/-- After `cookieWaitEvents`, in asynchronous mode, the request of the
set-cookie message loads and the turn runs to its end; then the request of
the message of command 2 loads and its turn runs to its end. -/
def plainSignalEvents : List Event :=
  cookieWaitEvents ++
  [ Event.xhr 0 (Signal.load none),
    Event.run, Event.run, Event.run, Event.run, Event.run,
    Event.xhr 3 (Signal.load none), Event.run, Event.run ]

/-- What a trace leaves: the length of the stack, the number of subscribed
handlers, the lengths of the queues of commands 1 and 2, and how often the
callbacks 6 and 7 have been called. -/
def cookieWaitSummary (events : List Event) : Option (Nat × Nat × Nat × Nat × Nat × Nat) :=
  (run sampleEnv (init none) events).map fun s =>
    (s.stack.length, s.listeners.length, (s.msgQueue 1).length, (s.msgQueue 2).length,
      callbacksOf 6 s.history, callbacksOf 7 s.history)

end Transport

/-!
## Resource processing

`src/processing/resources/index.js`.  The processors (`./page`, `./manifest`,
`./script`, `./stylesheet`), `contentUtils`, `urlUtil` and the `url` module
are not among the sources: they are parameters.  The context is a value; what
a collaborator may change in it, the state of `contentInfo.charset`, is
returned by the collaborator and written back.
-/

namespace Resources

/-- A URL, as text. -/
abbrev Url := String

/-- State of the `contentInfo.charset` object. -/
abbrev Charset := String

/-- A JavaScript value passed as `charsetStr`. -/
inductive JsValue where
  | undefined : JsValue
  | bool (b : Bool) : JsValue
  | string (s : String) : JsValue
deriving DecidableEq, Repr

/-- The context of a fetched resource: `ctx.destResBody`, `ctx.dest.url`,
`ctx.contentInfo.encoding`, the state of `ctx.contentInfo.charset`, what else
the processors inspect (`info`), and `ctx.toProxyUrl`, which may throw. -/
structure Ctx where
  destResBody : List Nat
  destUrl : Url
  encoding : String
  charset : Charset
  info : Nat
  toProxyUrl : Url → Bool → Option String → JsValue → Except String Url

/-- The `url` module and `urlUtil`: `url.resolve`, `urlUtil.prepareUrl` and
`urlUtil.SCRIPT`. -/
structure UrlUtil where
  resolve : Url → Url → Url
  prepareUrl : Url → Url
  SCRIPT : String

/-- Truthiness of an optional string: `undefined` and the empty string are falsy. -/
def truthy : Option String → Bool
  | none => false
  | some s => s != ""

/-- The value of `baseUrl` after its reassignment in the callback:
`baseUrl ? url.resolve(ctx.dest.url, baseUrl) : ''`. -/
def resolvedBase (u : UrlUtil) (ctx : Ctx) (baseUrl : Option Url) : Url :=
  if truthy baseUrl then u.resolve ctx.destUrl (baseUrl.getD "") else ""

/-- The value `resolvedUrl` of the callback:
`url.resolve(baseUrl || ctx.dest.url, resourceUrl)` for the prepared
`resourceUrl`. -/
def resolvedUrl (u : UrlUtil) (ctx : Ctx) (resourceUrl : Url) (baseUrl : Option Url) : Url :=
  u.resolve
    (if truthy (some (resolvedBase u ctx baseUrl)) then resolvedBase u ctx baseUrl
     else ctx.destUrl)
    (u.prepareUrl resourceUrl)

/-- The value `charsetStr` of the callback: `charsetAttrValue ||
resourceType === urlUtil.SCRIPT && ctx.contentInfo.charset.get()`. -/
def charsetStr (u : UrlUtil) (ctx : Ctx) (resourceType : Option String)
    (charsetAttrValue : Option String) : JsValue :=
  if truthy charsetAttrValue then JsValue.string (charsetAttrValue.getD "")
  else if resourceType = some u.SCRIPT then JsValue.string ctx.charset
  else JsValue.bool false

/-- The function returned by `getResourceUrlReplacer(ctx)`, applied to
`resourceUrl`, `resourceType`, `charsetAttrValue` and `baseUrl`. -/
def getResourceUrlReplacer (u : UrlUtil) (ctx : Ctx) (resourceUrl : Url)
    (resourceType : Option String) (charsetAttrValue : Option String)
    (baseUrl : Option Url) : Url :=
  match ctx.toProxyUrl (resolvedUrl u ctx resourceUrl baseUrl) false resourceType
      (charsetStr u ctx resourceType charsetAttrValue) with
  | .ok proxied => proxied
  | .error _ => u.prepareUrl resourceUrl

/-- Result of `processResource`: the sentinel `RESTART_PROCESSING` or the
processed text. -/
inductive Processed where
  | restart : Processed
  | content (text : String) : Processed
deriving DecidableEq, Repr

/-- The URL-rewrite callback as a processor receives it. -/
abbrev UrlReplacer := Url → Option String → Option String → Option Url → Url

/-- A processor: `shouldProcessResource(ctx)` and
`processResource(decoded, ctx, charset, urlReplacer)`, which returns its
result and the state it leaves `charset` in. -/
structure Processor where
  shouldProcessResource : Ctx → Bool
  processResource : String → Ctx → UrlReplacer → Processed × Charset

/-- The collaborators of `process`. -/
structure Deps where
  decodeContent : List Nat → String → Charset → String × Charset
  encodeContent : String → String → Charset → List Nat
  page : Processor
  manifest : Processor
  script : Processor
  stylesheet : Processor
  url : UrlUtil

/-- Calls `process` makes, in order.  Processors are numbered in the order of
the array `processors`: page 0, manifest 1, script 2, stylesheet 3. -/
inductive Effect where
  | decodeContent (encoding : String) (charset : Charset) : Effect
  | shouldProcessResource (processor : Nat) : Effect
  | processResource (processor : Nat) (charset : Charset) : Effect
  | encodeContent (text : String) (encoding : String) (charset : Charset) : Effect
deriving DecidableEq, Repr

/-- The array `processors`. -/
def processors (d : Deps) : List Processor :=
  [d.page, d.manifest, d.script, d.stylesheet]

/-- The `for` loop of `process` up to the first processor that accepts the
context: the processor and its index, with the predicates called. -/
def select (ctx : Ctx) : Nat → List Processor → List Effect →
    Option (Nat × Processor) × List Effect
  | _, [], trace => (none, trace)
  | i, p :: ps, trace =>
    if p.shouldProcessResource ctx then (some (i, p), trace ++ [Effect.shouldProcessResource i])
    else select ctx (i + 1) ps (trace ++ [Effect.shouldProcessResource i])

/-- What a call of `process` leaves: the returned body, the context and the
calls made. -/
structure Outcome where
  body : List Nat
  ctx : Ctx
  trace : List Effect

/-- `process(ctx)`, with the calls made so far in `trace`.  `fuel` bounds the
number of passes; `none` means the bound was reached. -/
def process (d : Deps) : Nat → Ctx → List Effect → Option Outcome
  | 0, _, _ => none
  | fuel + 1, ctx, trace =>
    let body := ctx.destResBody
    let encoding := ctx.encoding
    let decoded := d.decodeContent body encoding ctx.charset
    let ctx1 := { ctx with charset := decoded.2 }
    match select ctx1 0 (processors d)
        (trace ++ [Effect.decodeContent encoding ctx.charset]) with
    | (none, trace1) => some { body := body, ctx := ctx1, trace := trace1 }
    | (some (i, p), trace1) =>
      let processed := p.processResource decoded.1 ctx1 (getResourceUrlReplacer d.url ctx1)
      let ctx2 := { ctx1 with charset := processed.2 }
      let trace2 := trace1 ++ [Effect.processResource i ctx1.charset]
      match processed.1 with
      | .restart => process d fuel ctx2 trace2
      | .content text =>
        some { body := d.encodeContent text encoding processed.2
               ctx := ctx2
               trace := trace2 ++ [Effect.encodeContent text encoding processed.2] }

/-- Index of the first processor that accepts `ctx`. -/
def firstMatch (d : Deps) (ctx : Ctx) : Option (Nat × Processor) :=
  (select ctx 0 (processors d) []).1

/-- The context once the `charset` object has been left in state `cs`. -/
def withCharset (ctx : Ctx) (cs : Charset) : Ctx :=
  { ctx with charset := cs }

/-- The context as the processors see it in a pass: after `decodeContent`. -/
def decodedCtx (d : Deps) (ctx : Ctx) : Ctx :=
  withCharset ctx (d.decodeContent ctx.destResBody ctx.encoding ctx.charset).2

/-- The processors of the calls of `processResource` in a trace. -/
def transformsOf (trace : List Effect) : List Nat :=
  trace.filterMap fun e => match e with
    | .processResource i _ => some i
    | _ => none

/-- Number of calls of `decodeContent` in a trace. -/
def decodesOf (trace : List Effect) : Nat :=
  trace.countP fun e => match e with
    | .decodeContent _ _ => true
    | _ => false

/-- Number of calls of `encodeContent` in a trace. -/
def encodesOf (trace : List Effect) : Nat :=
  trace.countP fun e => match e with
    | .encodeContent _ _ _ => true
    | _ => false

/-- The calls of a pass up to the selection. -/
def passTrace (d : Deps) (ctx : Ctx) (trace : List Effect) : List Effect :=
  (select (decodedCtx d ctx) 0 (processors d)
    (trace ++ [Effect.decodeContent ctx.encoding ctx.charset])).2

/-! ### Sample inputs -/

/-- Stand-in for `url.resolve` and `urlUtil.prepareUrl`: it agrees with
`url.resolve` on the one pair of arguments used below, and `prepareUrl` leaves
the URL as it is. -/
def sampleUrlUtil : UrlUtil :=
  { resolve := fun base relative =>
      if base = "https://site.example/page" ∧ relative = "/a.js" then
        "https://site.example/a.js"
      else relative
    prepareUrl := fun url => url
    SCRIPT := "script" }

/-- A context whose `toProxyUrl` throws. -/
def failingCtx : Ctx :=
  { destResBody := [], destUrl := "https://site.example/page", encoding := "gzip"
    charset := "utf-8", info := 0
    toProxyUrl := fun _ _ _ _ => Except.error "cannot translate" }

/-- A context whose `toProxyUrl` prefixes the proxy host; `info` tells the
kind of resource: 0 a page, 2 a script, anything else no processed kind. -/
def sampleCtx (info : Nat) : Ctx :=
  { destResBody := [1, 2, 3], destUrl := "https://site.example/page", encoding := "gzip"
    charset := "utf-8", info := info
    toProxyUrl := fun url _ _ _ => Except.ok ("http://proxy/" ++ url) }

/-- Collaborators for the samples: the page processor accepts `info` 0 and
restarts once, moving the charset from `utf-8` to `koi8-r`; the script
processor accepts `info` 2; manifest and stylesheet accept nothing. -/
def sampleDeps : Deps :=
  { decodeContent := fun body _ charset => (charset ++ ":" ++ toString body.length, charset)
    encodeContent := fun text _ _ => text.length :: []
    page :=
      { shouldProcessResource := fun ctx => ctx.info == 0
        processResource := fun decoded ctx _ =>
          if ctx.charset = "utf-8" then (Processed.restart, "koi8-r")
          else (Processed.content ("<page>" ++ decoded), ctx.charset) }
    manifest :=
      { shouldProcessResource := fun _ => false
        processResource := fun decoded ctx _ => (Processed.content decoded, ctx.charset) }
    script :=
      { shouldProcessResource := fun ctx => ctx.info == 2
        processResource := fun decoded ctx replace =>
          (Processed.content (replace "/a.js" none none none ++ decoded), ctx.charset) }
    stylesheet :=
      { shouldProcessResource := fun _ => false
        processResource := fun decoded ctx _ => (Processed.content decoded, ctx.charset) }
    url := sampleUrlUtil }

end Resources

namespace Resources

/-- A context whose `toProxyUrl` returns the URL it is given. -/
def echoCtx : Ctx :=
  { destResBody := [], destUrl := "https://site.example/page", encoding := "gzip"
    charset := "utf-8", info := 2
    toProxyUrl := fun url _ _ _ => Except.ok url }

/-- One pass of `process` up to the call of `processResource`: the index of
the processor selected, what it returns and the state it leaves the charset
in; `none` when no processor accepts the context. -/
def pass (d : Deps) (ctx : Ctx) : Option (Nat × Processed × Charset) :=
  match firstMatch d (decodedCtx d ctx) with
  | none => none
  | some (i, p) =>
    let r := p.processResource (d.decodeContent ctx.destResBody ctx.encoding ctx.charset).1
      (decodedCtx d ctx) (getResourceUrlReplacer d.url (decodedCtx d ctx))
    some (i, r.1, r.2)

/-- The processor selected returns `RESTART_PROCESSING` in each of the first
`n` passes on `ctx` and the text `text` in pass `n + 1`, leaving the charset
`cs`. -/
def restartsThen (d : Deps) : Nat → Ctx → String → Charset → Prop
  | 0, ctx, text, cs => ∃ i, pass d ctx = some (i, Processed.content text, cs)
  | n + 1, ctx, text, cs =>
    ∃ i cs1, pass d ctx = some (i, Processed.restart, cs1) ∧
      restartsThen d n (withCharset ctx cs1) text cs

/-- Collaborators whose script processor restarts while the charset is
shorter than three characters, appending a character each time. -/
def restartingDeps : Deps :=
  { sampleDeps with
    script :=
      { shouldProcessResource := fun ctx => ctx.info == 2
        processResource := fun decoded ctx _ =>
          if ctx.charset.length < 3 then (Processed.restart, ctx.charset ++ "x")
          else (Processed.content ("<js>" ++ decoded), ctx.charset) } }

/-- A script whose charset is not known yet. -/
def scriptCtx : Ctx :=
  { sampleCtx 2 with charset := "u" }

/-- The selection as the claim words it: the first of the processors page,
manifest, script, stylesheet, in this order, whose `shouldProcessResource`
holds for `ctx`, with its number in that order; `none` when none accepts. -/
def firstAccepting (d : Deps) (ctx : Ctx) : Option (Nat × Processor) :=
  if d.page.shouldProcessResource ctx then some (0, d.page)
  else if d.manifest.shouldProcessResource ctx then some (1, d.manifest)
  else if d.script.shouldProcessResource ctx then some (2, d.script)
  else if d.stylesheet.shouldProcessResource ctx then some (3, d.stylesheet)
  else none

/-- Collaborators whose page processor reads the charset: it accepts a
context once the charset is `koi8-r`; the script processor accepts `info` 2,
finds the charset `koi8-r` declared and asks for a restart. -/
def rereadingDeps : Deps :=
  { sampleDeps with
    page :=
      { shouldProcessResource := fun ctx => ctx.charset == "koi8-r"
        processResource := fun decoded ctx _ =>
          (Processed.content ("<page>" ++ decoded), ctx.charset) }
    script :=
      { shouldProcessResource := fun ctx => ctx.info == 2
        processResource := fun decoded ctx _ =>
          if ctx.charset = "utf-8" then (Processed.restart, "koi8-r")
          else (Processed.content ("<js>" ++ decoded), ctx.charset) } }

end Resources

namespace Resources

/-! ### Resolution of a URL against a base

`url.resolve` belongs to the `url` module, which is not among the sources.
The definitions of this section model it from the spec, which names it the
base-URL / URL resolver and asks that protocol-relative bases are treated
correctly: a URL is split into scheme, authority, path, query and fragment,
and a reference is resolved against a base component by component. -/

/-- Modelled from the spec: a URL in its components, scheme, authority, path,
query and fragment. -/
structure UrlParts where
  scheme : Option (List Char)
  authority : Option (List Char)
  path : List Char
  query : Option (List Char)
  fragment : Option (List Char)
deriving DecidableEq, Repr

/-- Modelled from the spec: the characters before the first one at which
`stop` holds, and the rest. -/
def upTo (stop : Char → Bool) : List Char → List Char × List Char
  | [] => ([], [])
  | c :: cs =>
    if stop c then ([], c :: cs)
    else ((c :: (upTo stop cs).1), (upTo stop cs).2)

/-- Modelled from the spec: the characters of a scheme. -/
def isSchemeChar (c : Char) : Bool :=
  c.isAlphanum || c == '+' || c == '-' || c == '.'

/-- Modelled from the spec: the scheme, when the text starts with a letter,
continues with scheme characters and a colon follows; and the text after
it. -/
def parseScheme (s : List Char) : Option (List Char) × List Char :=
  match (upTo (fun c => !isSchemeChar c) s).1, (upTo (fun c => !isSchemeChar c) s).2 with
  | c :: cs, d :: rest => if c.isAlpha && d == ':' then (some (c :: cs), rest) else (none, s)
  | _, _ => (none, s)

/-- Modelled from the spec: the authority, when the text starts with two
slashes; and the text after it. -/
def parseAuthority (s : List Char) : Option (List Char) × List Char :=
  match s with
  | c :: d :: rest =>
    if c == '/' && d == '/' then
      (some (upTo (fun x => x == '/' || x == '?' || x == '#') rest).1,
        (upTo (fun x => x == '/' || x == '?' || x == '#') rest).2)
    else (none, s)
  | _ => (none, s)

/-- Modelled from the spec: the query, when the text starts with a question
mark; and the text after it. -/
def parseQuery (s : List Char) : Option (List Char) × List Char :=
  match s with
  | c :: rest =>
    if c == '?' then (some (upTo (fun x => x == '#') rest).1, (upTo (fun x => x == '#') rest).2)
    else (none, s)
  | [] => (none, s)

/-- Modelled from the spec: the fragment, when the text starts with a hash. -/
def parseFragment (s : List Char) : Option (List Char) :=
  match s with
  | c :: rest => if c == '#' then some rest else none
  | [] => none

/-- Modelled from the spec: the components of a URL. -/
def parseUrl (s : List Char) : UrlParts :=
  let afterScheme := parseScheme s
  let afterAuthority := parseAuthority afterScheme.2
  let afterPath := upTo (fun c => c == '?' || c == '#') afterAuthority.2
  let afterQuery := parseQuery afterPath.2
  { scheme := afterScheme.1, authority := afterAuthority.1, path := afterPath.1
    query := afterQuery.1, fragment := parseFragment afterQuery.2 }

/-- Modelled from the spec: the text of a URL given in components. -/
def formatUrl (u : UrlParts) : List Char :=
  (match u.scheme with
    | some s => s ++ [':']
    | none => []) ++
  (match u.authority with
    | some a => '/' :: '/' :: a
    | none => []) ++
  u.path ++
  (match u.query with
    | some q => '?' :: q
    | none => []) ++
  (match u.fragment with
    | some f => '#' :: f
    | none => [])

/-- Modelled from the spec: the segments of a path, the texts between its
slashes. -/
def splitSegments : List Char → List (List Char)
  | [] => [[]]
  | c :: cs =>
    if c == '/' then [] :: splitSegments cs
    else
      match splitSegments cs with
      | [] => [[c]]
      | seg :: segs => (c :: seg) :: segs

/-- Modelled from the spec: the path with the given segments. -/
def joinSegments : List (List Char) → List Char
  | [] => []
  | [seg] => seg
  | seg :: segs => seg ++ '/' :: joinSegments segs

/-- Modelled from the spec: removal of the segments `.` and `..`; `out` holds
the segments kept so far, last first. A `..` removes the segment before it,
never the empty segment that starts an absolute path; a `.` or `..` at the end
leaves the path ending in a slash. -/
def removeDots : List (List Char) → List (List Char) → List (List Char)
  | out, [] => out.reverse
  | out, seg :: rest =>
    if seg = ['.'] then
      if rest.isEmpty then removeDots ([] :: out) rest else removeDots out rest
    else if seg = ['.', '.'] then
      let popped :=
        match out with
        | [] => []
        | [first] => if first.isEmpty then [first] else []
        | _ :: more => more
      if rest.isEmpty then removeDots ([] :: popped) rest else removeDots popped rest
    else removeDots (seg :: out) rest

/-- Modelled from the spec: the path without its `.` and `..` segments. -/
def removeDotSegments (path : List Char) : List Char :=
  joinSegments (removeDots [] (splitSegments path))

/-- Modelled from the spec: the path of a relative reference put after the
directory of the base. -/
def mergePaths (base : UrlParts) (path : List Char) : List Char :=
  if base.authority.isSome && base.path.isEmpty then '/' :: path
  else joinSegments ((splitSegments base.path).dropLast ++ [[]]) ++ path

/-- Modelled from the spec: whether a path starts with a slash. -/
def isAbsolutePath : List Char → Bool
  | c :: _ => c == '/'
  | [] => false

/-- Modelled from the spec: the reference `r` resolved against the base `b`,
in components. -/
def resolveParts (b r : UrlParts) : UrlParts :=
  match r.scheme with
  | some _ => { r with path := removeDotSegments r.path }
  | none =>
    match r.authority with
    | some _ => { r with scheme := b.scheme, path := removeDotSegments r.path }
    | none =>
      if r.path.isEmpty then
        { scheme := b.scheme, authority := b.authority, path := b.path
          query := if r.query.isSome then r.query else b.query
          fragment := r.fragment }
      else
        { scheme := b.scheme, authority := b.authority
          path := removeDotSegments
            (if isAbsolutePath r.path then r.path else mergePaths b r.path)
          query := r.query, fragment := r.fragment }

/-- Modelled from the spec: the schemes whose URLs have a host followed by a
path. -/
def slashedProtocols : List (List Char) :=
  ["http".data, "https".data, "ftp".data, "gopher".data, "file".data, "ws".data, "wss".data]

/-- Modelled from the spec: a URL of a slashed protocol with a host and no
path has the path `/`. -/
def withRootPath (u : UrlParts) : UrlParts :=
  match u.scheme, u.authority with
  | some s, some _ =>
    if u.path.isEmpty && slashedProtocols.contains s then { u with path := ['/'] } else u
  | _, _ => u

/-- Modelled from the spec: the `base-URL / URL resolver`, `url.resolve` of
the `url` module, which is not among the sources. The reference `relative` is
resolved against `base` by components: a reference with a scheme stands for
itself; one that starts with `//` (protocol-relative) takes the scheme of the
base; one with an absolute path takes scheme and authority of the base; any
other path is merged with the directory of the base path; `.` and `..`
segments are removed. -/
def urlResolve (base relative : Url) : Url :=
  String.mk (formatUrl (withRootPath (resolveParts (parseUrl base.data) (parseUrl relative.data))))

/-- Whether the URL is absolute: it has a scheme. -/
def isAbsoluteUrl (url : Url) : Bool :=
  (parseUrl url.data).scheme.isSome

/-- The collaborators of the URL-rewrite callback with the modelled resolver
for `url.resolve`; `prepareUrl` (`../../utils/url`, not among the sources) is
taken to leave the URL as it is. -/
def resolverUrlUtil : UrlUtil :=
  { resolve := urlResolve, prepareUrl := fun url => url, SCRIPT := "script" }

end Resources

namespace Transport

/-! ### Every step is of one of the kinds of `Fired` -/

@[simp] theorem stamp_cmd (env : Env) (msg : Msg) : (stamp env msg).cmd = msg.cmd := by
  unfold stamp
  split <;> rfl

theorem takeRequest_countP (p : Request → Bool) (id : Nat) :
    ∀ (l : List Request) (r : Request) (rest : List Request),
      takeRequest id l = some (r, rest) →
      l.countP p = (if p r then 1 else 0) + rest.countP p := by
  intro l
  induction l with
  | nil => intro r rest h; simp [takeRequest] at h
  | cons x xs ih =>
    intro r rest h
    unfold takeRequest at h
    split at h
    · simp at h
      obtain ⟨h1, h2⟩ := h
      subst h1 h2
      simp [List.countP_cons]
      omega
    · cases ht : takeRequest id xs with
      | none => simp [ht] at h
      | some p1 =>
        obtain ⟨y, rest1⟩ := p1
        simp [ht] at h
        obtain ⟨h1, h2⟩ := h
        subst h1 h2
        have := ih y rest1 ht
        simp [List.countP_cons, this]
        omega

theorem onSignal_of_not_completes (env : Env) (s : State) (r : Request) (signal : Signal)
    (h : completes env r signal = false) : onSignal env s r signal = s := by
  unfold onSignal
  cases signal <;> cases hf : r.forced <;> cases hi : env.isIE9 <;>
    simp_all [completes]

theorem step_fired (env : Env) (s t : State) (e : Event) (hstep : step env s e = some t) :
    Fired env s e t := by
  cases e with
  | run =>
    simp only [step] at hstep
    cases hs : s.stack with
    | nil => simp [hs] at hstep
    | cons a frames =>
      simp only [hs] at hstep
      exact Fired.frame a frames t hs hstep
  | xhr id signal =>
    simp only [step, xhr] at hstep
    cases ht : takeRequest id s.inflight with
    | none => simp [ht] at hstep
    | some p =>
      obtain ⟨r, rest⟩ := p
      simp only [ht] at hstep
      cases hasync : r.async with
      | true =>
        simp only [hasync, if_true] at hstep
        cases hs : s.stack with
        | cons a frames => simp [hs] at hstep
        | nil =>
          simp only [hs] at hstep
          cases hcomp : completes env r signal with
          | false =>
            rw [hcomp] at hstep
            simp only [Bool.false_eq_true, if_false, Option.some.injEq] at hstep
            rw [onSignal_of_not_completes env s r signal hcomp] at hstep
            subst hstep
            exact Fired.ignored id signal r rest ht hcomp
          | true =>
            simp only [hcomp, if_true, Option.some.injEq] at hstep
            subst hstep
            have := @Fired.signal env s id signal r rest [] ht hcomp
              (Or.inl ⟨hasync, hs, rfl⟩)
            simpa only [hs] using this
      | false =>
        simp only [hasync, Bool.false_eq_true, if_false] at hstep
        cases hs : s.stack with
        | nil => simp [hs] at hstep
        | cons a frames =>
          cases a with
          | awaitSync j =>
            simp only [hs] at hstep
            by_cases hj : j = id
            · subst hj
              simp only [if_true] at hstep
              cases hcomp : completes env r signal with
              | false =>
                rw [hcomp] at hstep
                simp only [Bool.false_eq_true, if_false, Option.some.injEq] at hstep
                rw [onSignal_of_not_completes env s r signal hcomp] at hstep
                subst hstep
                exact Fired.ignored j signal r rest ht hcomp
              | true =>
                simp only [hcomp, if_true, Option.some.injEq] at hstep
                subst hstep
                exact Fired.signal j signal r rest frames ht hcomp (Or.inr ⟨hasync, hs⟩)
            · simp [hj] at hstep
          | call c => simp [hs] at hstep
          | replay m b i => simp [hs] at hstep
          | thenAll b => simp [hs] at hstep
          | advance q => simp [hs] at hstep
          | handler l => simp [hs] at hstep
          | sendNextIfAny q => simp [hs] at hstep
  | call c =>
    simp only [step] at hstep
    cases hs : s.stack with
    | cons a frames => simp [hs] at hstep
    | nil =>
      simp [hs] at hstep
      subst hstep
      exact Fired.call c hs
  | waitCookieMsg cb =>
    simp only [step] at hstep
    cases hs : s.stack with
    | cons a frames => simp [hs] at hstep
    | nil =>
      simp [hs] at hstep
      subst hstep
      exact Fired.waitCookieMsg cb hs
  | waitForServiceMessagesCompleted cb timeout =>
    simp only [step] at hstep
    cases hs : s.stack with
    | cons a frames => simp [hs] at hstep
    | nil =>
      simp [hs] at hstep
      subst hstep
      exact Fired.waitForServiceMessagesCompleted cb timeout hs
  | job batch =>
    simp only [step] at hstep
    cases hs : s.stack with
    | cons a frames => simp [hs] at hstep
    | nil =>
      simp only [hs, List.isEmpty_nil, if_true] at hstep
      cases hb : findBatch batch s.batches with
      | none => simp [hb] at hstep
      | some b =>
        simp only [hb] at hstep
        cases hd : b.due with
        | false => simp [hd] at hstep
        | true =>
          simp only [hd, if_true, Option.some.injEq] at hstep
          subst hstep
          exact Fired.job batch b hs hb hd
  | elapse dt =>
    simp only [step] at hstep
    cases hs : s.stack with
    | cons a frames => simp [hs] at hstep
    | nil =>
      simp only [hs, List.isEmpty_nil, if_true, Option.some.injEq] at hstep
      subst hstep
      simpa only [hs] using @Fired.elapse env s dt hs
  | timeout waiter =>
    simp only [step] at hstep
    cases hs : s.stack with
    | cons a frames => simp [hs] at hstep
    | nil =>
      simp only [hs, List.isEmpty_nil, if_true] at hstep
      cases hw : findWaiter waiter s.waiters with
      | none => simp [hw] at hstep
      | some w =>
        simp only [hw] at hstep
        cases hdue : w.timeoutDue with
        | none => simp [hdue] at hstep
        | some due =>
          simp only [hdue] at hstep
          by_cases hle : due ≤ s.clock
          · simp only [hle, if_true, Option.some.injEq] at hstep
            subst hstep
            exact Fired.timeout waiter w due hs hw hdue hle
          · simp [hle] at hstep
  | interval waiter =>
    simp only [step] at hstep
    cases hs : s.stack with
    | cons a frames => simp [hs] at hstep
    | nil =>
      simp only [hs, List.isEmpty_nil, if_true] at hstep
      cases hw : findWaiter waiter s.waiters with
      | none => simp [hw] at hstep
      | some w =>
        simp only [hw] at hstep
        cases hdue : w.intervalDue with
        | none => simp [hdue] at hstep
        | some due =>
          simp only [hdue] at hstep
          by_cases hle : due ≤ s.clock
          · simp only [hle, if_true, Option.some.injEq] at hstep
            subst hstep
            exact Fired.interval waiter w due hs hw hdue hle
          · simp [hle] at hstep
  | beforeunload =>
    simp only [step] at hstep
    cases hs : s.stack with
    | cons a frames => simp [hs] at hstep
    | nil =>
      simp only [hs, List.isEmpty_nil, if_true, Option.some.injEq] at hstep
      subst hstep
      simpa only [hs] using @Fired.beforeunload env s hs
  | switchBack =>
    simp only [step] at hstep
    cases hs : s.stack with
    | cons a frames => simp [hs] at hstep
    | nil =>
      simp only [hs, List.isEmpty_nil, if_true] at hstep
      cases hsb : s.switchBack with
      | nil => simp [hsb] at hstep
      | cons due rest =>
        simp only [hsb] at hstep
        by_cases hle : due ≤ s.clock
        · simp only [hle, if_true, Option.some.injEq] at hstep
          subst hstep
          simpa only [hs] using @Fired.switchBack env s due rest hs hsb hle
        · simp [hle] at hstep

/-! ### The queues dispatch in call order -/

theorem dit_append_other {cmd : Cmd} {h : List Obs} {o : Obs}
    (hd : DispatchedInTurn cmd h) (ho : Obs.dispatchedFor cmd o = none) :
    DispatchedInTurn cmd (h ++ [o]) := by
  intro h1 m h2 heq hm
  rcases List.eq_nil_or_concat h2 with rfl | ⟨l, b, rfl⟩
  · have h3 : h ++ [o] = h1 ++ [Obs.dispatched m] := by simpa using heq
    have h4 := List.append_inj_right' h3 rfl
    simp at h4
    subst h4
    simp [Obs.dispatchedFor, hm] at ho
  · have h3 : h ++ [o] = (h1 ++ Obs.dispatched m :: l) ++ [b] := by simpa using heq
    have h4 := List.append_inj_left' h3 rfl
    exact hd h1 m l h4 hm

theorem dit_append_dispatched {cmd : Cmd} {h : List Obs} {m : Msg}
    (hd : DispatchedInTurn cmd h)
    (hc : m.cmd = cmd → completedOf cmd h = (dispatchedOf cmd h).length ∧
      dispatchedOf cmd h ++ [m] <+: enqueuedOf cmd h) :
    DispatchedInTurn cmd (h ++ [Obs.dispatched m]) := by
  intro h1 m1 h2 heq hm
  rcases List.eq_nil_or_concat h2 with rfl | ⟨l, b, rfl⟩
  · have h3 : h ++ [Obs.dispatched m] = h1 ++ [Obs.dispatched m1] := by simpa using heq
    have h4 := List.append_inj_right' h3 rfl
    have h5 := List.append_inj_left' h3 rfl
    simp at h4
    subst h4 h5
    exact hc hm
  · have h3 : h ++ [Obs.dispatched m] = (h1 ++ Obs.dispatched m1 :: l) ++ [b] := by simpa using heq
    have h4 := List.append_inj_left' h3 rfl
    exact hd h1 m1 l h4 hm

theorem Request.ownedBy_eq (cmd : Cmd) (r : Request) :
    r.ownedBy cmd = r.callback.ownedBy cmd := by
  cases r with
  | mk id call msg forced async callback => cases callback <;> rfl

section sendMsg
variable (env : Env) (s : State) (call : Nat) (msg : Msg) (cb : SendCb) (forced : Bool) (cmd : Cmd)

@[simp] theorem sendMsg_msgQueue : (sendMsg s call msg cb forced).msgQueue = s.msgQueue := rfl
@[simp] theorem sendMsg_listeners : (sendMsg s call msg cb forced).listeners = s.listeners := rfl
@[simp] theorem sendMsg_owners :
    owners cmd (sendMsg s call msg cb forced) = owners cmd s + if cb.ownedBy cmd then 1 else 0 := by
  simp [owners, sendMsg, List.countP_append, List.countP_cons, Request.ownedBy_eq]
@[simp] theorem sendMsg_advancing :
    advancing cmd (sendMsg s call msg cb forced) = advancing cmd s := by
  cases forced <;> cases h : s.useAsyncXhr <;>
    simp [advancing, sendMsg, h, List.countP_cons, Action.isAdvance]
@[simp] theorem sendMsg_resuming :
    resuming cmd (sendMsg s call msg cb forced) = resuming cmd s := by
  cases forced <;> cases h : s.useAsyncXhr <;>
    simp [resuming, sendMsg, h, List.countP_cons, Action.isSendNext]
@[simp] theorem sendMsg_enqueuedOf :
    enqueuedOf cmd (sendMsg s call msg cb forced).history = enqueuedOf cmd s.history := by
  simp [enqueuedOf, sendMsg, List.filterMap_append, Obs.enqueuedFor]
@[simp] theorem sendMsg_dispatchedOf :
    dispatchedOf cmd (sendMsg s call msg cb forced).history = dispatchedOf cmd s.history := by
  simp [dispatchedOf, sendMsg, List.filterMap_append, Obs.dispatchedFor]
@[simp] theorem sendMsg_completedOf :
    completedOf cmd (sendMsg s call msg cb forced).history = completedOf cmd s.history := by
  simp [completedOf, sendMsg, List.countP_append, Obs.completedFor]
theorem sendMsg_inTurn (h : DispatchedInTurn cmd s.history) :
    DispatchedInTurn cmd (sendMsg s call msg cb forced).history :=
  dit_append_other h rfl

end sendMsg

theorem Keeps.unchanged (cmd : Cmd) (s : State) : Keeps cmd s s :=
  ⟨rfl, rfl, rfl, rfl, rfl, id, le_rfl, le_rfl⟩

theorem Keeps.followed {cmd : Cmd} {s t u : State} (h1 : Keeps cmd s t) (h2 : Keeps cmd t u) :
    Keeps cmd s u :=
  ⟨h2.queue.trans h1.queue, h2.owners.trans h1.owners, h2.enq.trans h1.enq,
   h2.disp.trans h1.disp, h2.done.trans h1.done, fun h => h2.inTurn (h1.inTurn h),
   h2.adv.trans h1.adv, h2.res.trans h1.res⟩

theorem Keeps.keepsSettled {cmd : Cmd} {s t : State} (k : Keeps cmd s t) (h : Settled s cmd) :
    Settled t cmd := by
  obtain ⟨h1, h2, h3, h4, h5, h6, h7, h8⟩ := h
  have ha := k.adv
  have hr := k.res
  refine ⟨by omega, ?_, ?_, ?_, ?_, ?_, ?_, ?_⟩
  · rw [k.disp, k.queue, k.enq]; exact h2
  · rw [k.owners]; omega
  · intro hq
    rw [k.queue] at hq
    have := h4 hq
    rw [k.owners, k.disp, k.done]
    omega
  · rw [k.owners, k.disp, k.done]; exact h5
  · rw [k.disp, k.done]
    intro h
    apply h6
    omega
  · rw [k.disp, k.done]; exact h7
  · rw [k.disp, k.done]; exact h8

theorem Keeps.keepsKeyed {cmd : Cmd} {s t : State} (k : Keeps cmd s t)
    (h : ∀ i ∈ s.msgQueue cmd, i.msg.cmd = cmd) : ∀ i ∈ t.msgQueue cmd, i.msg.cmd = cmd := by
  rw [k.queue]; exact h

theorem keeps_runUserCb (cmd : Cmd) (s : State) (cb : UserCb) (g : Bool) (res : Response) :
    Keeps cmd s (runUserCb s cb g res) := by
  cases cb with
  | absent =>
    cases g
    · exact ⟨rfl, rfl, rfl, rfl, rfl, id, by simp [runUserCb, raise, advancing],
        by simp [runUserCb, raise, resuming]⟩
    · exact Keeps.unchanged cmd s
  | fn tag body =>
    refine ⟨rfl, rfl, ?_, ?_, ?_, fun h => dit_append_other h rfl, ?_, ?_⟩
    · simp [runUserCb, enqueuedOf, List.filterMap_append, Obs.enqueuedFor]
    · simp [runUserCb, dispatchedOf, List.filterMap_append, Obs.dispatchedFor]
    · simp [runUserCb, completedOf, List.countP_append, Obs.completedFor]
    · simp [runUserCb, advancing, List.countP_append, List.countP_map, Function.comp_def,
        Action.isAdvance]
    · simp [runUserCb, resuming, List.countP_append, List.countP_map, Function.comp_def,
        Action.isSendNext]

theorem keeps_sendMsg (cmd : Cmd) (s : State) (call : Nat) (msg : Msg) (cb : SendCb)
    (forced : Bool) (hcb : cb.ownedBy cmd = false) :
    Keeps cmd s (sendMsg s call msg cb forced) :=
  ⟨rfl, by simp [hcb], by simp, by simp, by simp, sendMsg_inTurn s call msg cb forced cmd,
   by simp, by simp⟩

theorem keeps_append (cmd : Cmd) {s t : State} {o : Obs} (hq : t.msgQueue = s.msgQueue)
    (hi : t.inflight = s.inflight) (hs : t.stack = s.stack)
    (hh : t.history = s.history ++ [o]) (ho : o.plain = true) : Keeps cmd s t := by
  refine ⟨by rw [hq], by simp [owners, hi], ?_, ?_, ?_, ?_, by simp [advancing, hs],
    by simp [resuming, hs]⟩
  · cases o <;> simp_all [enqueuedOf, List.filterMap_append, Obs.enqueuedFor, Obs.plain]
  · cases o <;> simp_all [dispatchedOf, List.filterMap_append, Obs.dispatchedFor, Obs.plain]
  · cases o <;> simp_all [completedOf, List.countP_append, Obs.completedFor, Obs.plain]
  · intro h
    rw [hh]
    apply dit_append_other h
    cases o <;> simp_all [Obs.dispatchedFor, Obs.plain]

theorem keeps_same (cmd : Cmd) {s t : State} (hq : t.msgQueue = s.msgQueue)
    (hi : t.inflight = s.inflight) (hs : t.stack = s.stack)
    (hh : t.history = s.history) : Keeps cmd s t :=
  ⟨by rw [hq], by simp [owners, hi], by rw [hh], by rw [hh], by rw [hh],
   by rw [hh]; exact id, by simp [advancing, hs], by simp [resuming, hs]⟩

section asyncServiceMsg
variable (env : Env) (s : State) (msg : Msg) (cb : SendCb) (cmd : Cmd)

@[simp] theorem asyncServiceMsg_msgQueue : (asyncServiceMsg env s msg cb).msgQueue = s.msgQueue := rfl
@[simp] theorem asyncServiceMsg_listeners :
    (asyncServiceMsg env s msg cb).listeners = s.listeners := rfl
@[simp] theorem asyncServiceMsg_owners :
    owners cmd (asyncServiceMsg env s msg cb) = owners cmd s + if cb.ownedBy cmd then 1 else 0 := by
  simp [asyncServiceMsg]
  simp [owners, _removeMessageFromStore]
@[simp] theorem asyncServiceMsg_advancing :
    advancing cmd (asyncServiceMsg env s msg cb) = advancing cmd s := by
  simp [asyncServiceMsg]
  simp [advancing, _removeMessageFromStore]
@[simp] theorem asyncServiceMsg_resuming :
    resuming cmd (asyncServiceMsg env s msg cb) = resuming cmd s := by
  simp [asyncServiceMsg]
  simp [resuming, _removeMessageFromStore]
@[simp] theorem asyncServiceMsg_enqueuedOf :
    enqueuedOf cmd (asyncServiceMsg env s msg cb).history = enqueuedOf cmd s.history := by
  simp [asyncServiceMsg]
  simp [enqueuedOf, _removeMessageFromStore, List.filterMap_append, Obs.enqueuedFor]
@[simp] theorem asyncServiceMsg_dispatchedOf :
    dispatchedOf cmd (asyncServiceMsg env s msg cb).history = dispatchedOf cmd s.history := by
  simp [asyncServiceMsg]
  simp [dispatchedOf, _removeMessageFromStore, List.filterMap_append, Obs.dispatchedFor]
@[simp] theorem asyncServiceMsg_completedOf :
    completedOf cmd (asyncServiceMsg env s msg cb).history = completedOf cmd s.history := by
  simp [asyncServiceMsg]
  simp [completedOf, _removeMessageFromStore, List.countP_append, Obs.completedFor]
theorem asyncServiceMsg_inTurn (h : DispatchedInTurn cmd s.history) :
    DispatchedInTurn cmd (asyncServiceMsg env s msg cb).history := by
  apply sendMsg_inTurn
  exact dit_append_other h rfl

theorem keeps_asyncServiceMsg (hcb : cb.ownedBy cmd = false) :
    Keeps cmd s (asyncServiceMsg env s msg cb) :=
  ⟨rfl, by simp [hcb], by simp, by simp, by simp, asyncServiceMsg_inTurn env s msg cb cmd,
   by simp, by simp⟩

end asyncServiceMsg

theorem Keeps.keepsCalm {cmd : Cmd} {s t : State} (k : Keeps cmd s t) (h : Calm s cmd) :
    Calm t cmd :=
  ⟨k.keepsKeyed h.keyed, k.inTurn h.inTurn, k.keepsSettled h.settled⟩

theorem keeps_raise (cmd : Cmd) (s : State) : Keeps cmd s (raise s) :=
  ⟨rfl, rfl, rfl, rfl, rfl, id, by simp [raise, advancing], by simp [raise, resuming]⟩

theorem keeps_observe_dispatched (cmd : Cmd) (s : State) (m : Msg) (h : m.cmd ≠ cmd) :
    Keeps cmd s (observe s (Obs.dispatched m)) := by
  refine ⟨rfl, rfl, ?_, ?_, ?_, ?_, le_rfl, le_rfl⟩
  · simp [observe, enqueuedOf, List.filterMap_append, Obs.enqueuedFor]
  · simp [observe, dispatchedOf, List.filterMap_append, Obs.dispatchedFor, h]
  · simp [observe, completedOf, List.countP_append, Obs.completedFor]
  · intro hd
    exact dit_append_other hd (by simp [Obs.dispatchedFor, h])

theorem keeps_sendNextQueuedMsg (env : Env) (s : State) (queueId cmd : Cmd)
    (hne : queueId ≠ cmd) (hk : ∀ i ∈ s.msgQueue queueId, i.msg.cmd = queueId) :
    Keeps cmd s (sendNextQueuedMsg env s queueId) := by
  unfold sendNextQueuedMsg
  cases hq : s.msgQueue queueId with
  | nil => exact keeps_raise cmd s
  | cons item rest =>
    have hc : item.msg.cmd = queueId := hk item (by simp [hq])
    exact (keeps_observe_dispatched cmd s item.msg (by rw [hc]; exact hne)).followed
      (keeps_asyncServiceMsg env _ _ _ cmd (by simp [SendCb.ownedBy, hne]))

theorem sendNextQueuedMsg_calm (env : Env) (s : State) (cmd : Cmd)
    (hk : ∀ i ∈ s.msgQueue cmd, i.msg.cmd = cmd) (ht : DispatchedInTurn cmd s.history)
    (hr : Ready s cmd) (hres : resuming cmd s = 0) (hq : s.msgQueue cmd ≠ []) :
    Calm (sendNextQueuedMsg env s cmd) cmd := by
  obtain ⟨h1, h2, h3, h4⟩ := hr
  unfold sendNextQueuedMsg
  cases hq1 : s.msgQueue cmd with
  | nil => exact absurd hq1 hq
  | cons item rest =>
    have hc : item.msg.cmd = cmd := hk item (by simp [hq1])
    have hD : dispatchedOf cmd (observe s (Obs.dispatched item.msg)).history =
        dispatchedOf cmd s.history ++ [item.msg] := by
      simp [observe, dispatchedOf, List.filterMap_append, Obs.dispatchedFor, hc]
    have hE : enqueuedOf cmd (observe s (Obs.dispatched item.msg)).history =
        enqueuedOf cmd s.history := by
      simp [observe, enqueuedOf, List.filterMap_append, Obs.enqueuedFor]
    have hC : completedOf cmd (observe s (Obs.dispatched item.msg)).history =
        completedOf cmd s.history := by
      simp [observe, completedOf, List.countP_append, Obs.completedFor]
    have hO : owners cmd (observe s (Obs.dispatched item.msg)) = owners cmd s := rfl
    have hA : advancing cmd (observe s (Obs.dispatched item.msg)) = advancing cmd s := rfl
    have hR : resuming cmd (observe s (Obs.dispatched item.msg)) = resuming cmd s := rfl
    have hQ : (observe s (Obs.dispatched item.msg)).msgQueue = s.msgQueue := rfl
    rw [hq1] at h3
    simp only [msgsOf, List.map_cons] at h3
    refine ⟨?_, ?_, ?_⟩
    · simpa [hQ] using hk
    · apply asyncServiceMsg_inTurn
      apply dit_append_dispatched ht
      intro _
      refine ⟨h4.symm, ?_⟩
      rw [← h3]
      exact ⟨List.map (fun i => i.msg) rest, by simp⟩
    · refine ⟨?_, ?_, ?_, ?_, ?_, ?_, ?_, ?_⟩ <;>
        simp only [asyncServiceMsg_resuming, asyncServiceMsg_owners, asyncServiceMsg_advancing,
          asyncServiceMsg_dispatchedOf, asyncServiceMsg_enqueuedOf, asyncServiceMsg_completedOf,
          asyncServiceMsg_msgQueue, hD, hE, hC, hO, hA, hR, hQ, hq1, SendCb.ownedBy,
          List.length_append, List.length_singleton, List.tail_cons, msgsOf]
      · exact hres
      · rw [← h3]; simp
      · simp [h1, h2]
      · simp
      · intro _; omega
      · intro h; omega
      · omega
      · omega

theorem keeps_queuedAsyncServiceMsg (env : Env) (s : State) (msg : Msg) (cb : ItemCb)
    (cmd : Cmd) (hne : msg.cmd ≠ cmd) (hk : ∀ i ∈ s.msgQueue msg.cmd, i.msg.cmd = msg.cmd) :
    Keeps cmd s (queuedAsyncServiceMsg env s msg cb) := by
  have hne1 : cmd ≠ msg.cmd := fun h => hne h.symm
  have k1 : Keeps cmd s
      { s with msgQueue := fun c => if c = msg.cmd then
                 s.msgQueue msg.cmd ++ [{ msg := msg, callback := cb }] else s.msgQueue c
               history := s.history ++ [Obs.enqueued msg] } := by
    refine ⟨by simp [hne1], rfl, ?_, ?_, ?_, ?_, le_rfl, le_rfl⟩
    · simp [enqueuedOf, List.filterMap_append, Obs.enqueuedFor, hne]
    · simp [dispatchedOf, List.filterMap_append, Obs.dispatchedFor]
    · simp [completedOf, List.countP_append, Obs.completedFor]
    · intro hd
      exact dit_append_other hd rfl
  unfold queuedAsyncServiceMsg
  simp only []
  split
  · refine k1.followed (keeps_sendNextQueuedMsg env _ _ cmd hne ?_)
    intro i hi
    simp only [if_true] at hi
    rcases List.mem_append.1 hi with h | h
    · exact hk i h
    · simp at h; subst h; rfl
  · exact k1

theorem queuedAsyncServiceMsg_calm (env : Env) (s : State) (msg : Msg) (cb : ItemCb)
    (h : Calm s msg.cmd) : Calm (queuedAsyncServiceMsg env s msg cb) msg.cmd := by
  obtain ⟨hk, ht, h1, h2, h3, h4, h5, h6, h7, h8⟩ := h
  unfold queuedAsyncServiceMsg
  simp only []
  have hk1 : ∀ i ∈ s.msgQueue msg.cmd ++ [{ msg := msg, callback := cb }],
      i.msg.cmd = msg.cmd := by
    intro i hi
    rcases List.mem_append.1 hi with h | h
    · exact hk i h
    · simp at h; subst h; rfl
  have hE : enqueuedOf msg.cmd (s.history ++ [Obs.enqueued msg]) =
      enqueuedOf msg.cmd s.history ++ [msg] := by
    simp [enqueuedOf, List.filterMap_append, Obs.enqueuedFor]
  have hD : dispatchedOf msg.cmd (s.history ++ [Obs.enqueued msg]) =
      dispatchedOf msg.cmd s.history := by
    simp [dispatchedOf, List.filterMap_append, Obs.dispatchedFor]
  have hC : completedOf msg.cmd (s.history ++ [Obs.enqueued msg]) =
      completedOf msg.cmd s.history := by
    simp [completedOf, List.countP_append, Obs.completedFor]
  have ht1 : DispatchedInTurn msg.cmd (s.history ++ [Obs.enqueued msg]) :=
    dit_append_other ht rfl
  split
  next hlen =>
    have hq : s.msgQueue msg.cmd = [] := by
      cases hq : s.msgQueue msg.cmd with
      | nil => rfl
      | cons a l => simp [hq] at hlen
    obtain ⟨h41, h42⟩ := h4 hq
    apply sendNextQueuedMsg_calm
    · simpa using hk1
    · exact ht1
    · refine ⟨?_, ?_, ?_, ?_⟩
      · show owners msg.cmd s = 0
        omega
      · show advancing msg.cmd s = 0
        omega
      · simp only [hE, hD, if_true, hq, List.nil_append, msgsOf, List.map_cons, List.map_nil]
        rw [hq] at h2
        simp [msgsOf] at h2
        rw [h2]
      · simp only [hD, hC]; exact h42
    · exact h1
    · simp
  next hlen =>
    have hq : s.msgQueue msg.cmd ≠ [] := by
      intro hq
      simp [hq] at hlen
    refine ⟨by simpa using hk1, ht1, h1, ?_, h3, ?_, ?_, ?_, ?_, ?_⟩
    · simp only [hE, hD, if_true]
      rw [← h2]
      cases hq1 : s.msgQueue msg.cmd with
      | nil => exact absurd hq1 hq
      | cons a l => simp [msgsOf]
    · intro h
      simp at h
    · simp only [hD, hC]; exact h5
    · simp only [hD, hC]; exact h6
    · simp only [hD, hC]; exact h7
    · simp only [hD, hC]; exact h8

theorem Awaited.isSettled {s : State} {cmd : Cmd} (h : Awaited s cmd) : Settled s cmd := by
  obtain ⟨h1, h2, h3, h4, h5, h6⟩ := h
  exact ⟨h1, h4, by omega, fun h => absurd h h6, by omega, by omega, by omega, by omega⟩

theorem Keeps.keepsAwaited {cmd : Cmd} {s t : State} (k : Keeps cmd s t) (h : Awaited s cmd) :
    Awaited t cmd := by
  obtain ⟨h1, h2, h3, h4, h5, h6⟩ := h
  have ha := k.adv
  have hr := k.res
  exact ⟨by omega, by rw [k.owners]; exact h2, by omega,
    by rw [k.disp, k.queue, k.enq]; exact h4, by rw [k.disp, k.done]; exact h5,
    by rw [k.queue]; exact h6⟩

theorem keeps_resolveTask (cmd : Cmd) (s : State) (batch index : Nat) :
    Keeps cmd s (resolveTask s batch index) :=
  keeps_append cmd (s := s) (o := Obs.resolved batch index) rfl rfl rfl rfl rfl

theorem keeps_runItemCb (cmd : Cmd) (s : State) (cb : ItemCb) (res : Response) :
    Keeps cmd s (runItemCb s cb res) := by
  cases cb with
  | user u => exact keeps_runUserCb cmd s u true res
  | resolve batch index => exact keeps_resolveTask cmd s batch index

theorem keeps_runSendCb (cmd : Cmd) (s : State) (cb : SendCb) (res : Response)
    (hcb : cb.ownedBy cmd = false) : Keeps cmd s (runSendCb s cb res) := by
  cases cb with
  | user u => exact keeps_runUserCb cmd s u true res
  | sync stored u =>
    show Keeps cmd s (runUserCb { s with useAsyncXhr := stored } u false res)
    exact (keeps_same cmd (s := s) (t := { s with useAsyncXhr := stored }) rfl rfl rfl rfl).followed
      (keeps_runUserCb cmd _ u false res)
  | queued queueId item =>
    have hne : queueId ≠ cmd := by simpa [SendCb.ownedBy] using hcb
    have k1 : Keeps cmd s
        { s with history := s.history ++ [Obs.completed queueId]
                 stack := Action.advance queueId :: s.stack } := by
      refine ⟨rfl, rfl, ?_, ?_, ?_, fun h => dit_append_other h rfl, ?_, ?_⟩
      · simp [enqueuedOf, List.filterMap_append, Obs.enqueuedFor]
      · simp [dispatchedOf, List.filterMap_append, Obs.dispatchedFor]
      · simp [completedOf, List.countP_append, Obs.completedFor, hne]
      · simp [advancing, List.countP_cons, Action.isAdvance, hne]
      · simp [resuming, List.countP_cons, Action.isSendNext]
    show Keeps cmd s (runItemCb _ item res)
    exact k1.followed (keeps_runItemCb cmd _ item res)

theorem keeps_msgCallback (cmd : Cmd) (s : State) (r : Request) (res : Response)
    (hcb : r.callback.ownedBy cmd = false) : Keeps cmd s (msgCallback s r res) :=
  (keeps_append cmd (s := s) (o := Obs.msgCallback r.call res) (t := { s with
      activeServiceMessagesCounter := s.activeServiceMessagesCounter - 1
      history := s.history ++ [Obs.msgCallback r.call res] }) rfl rfl rfl rfl rfl).followed
    (keeps_runSendCb cmd _ r.callback res hcb)

theorem keeps_storeMessage (cmd : Cmd) (s : State) (msg : Msg) :
    Keeps cmd s (_storeMessage s msg) :=
  keeps_same cmd (s := s) rfl rfl rfl rfl

theorem keeps_errorHandler (env : Env) (cmd : Cmd) (s : State) (r : Request)
    (hcb : r.callback.ownedBy cmd = false) : Keeps cmd s (errorHandler env s r) := by
  unfold errorHandler
  split
  · exact (keeps_storeMessage cmd s r.msg).followed (keeps_msgCallback cmd _ r none hcb)
  · exact keeps_sendMsg cmd s _ _ _ _ hcb

theorem keeps_onSignal (env : Env) (cmd : Cmd) (s : State) (r : Request) (signal : Signal)
    (hcb : r.callback.ownedBy cmd = false) : Keeps cmd s (onSignal env s r signal) := by
  unfold onSignal
  split
  · split
    · split
      · exact Keeps.unchanged cmd s
      · exact keeps_msgCallback cmd s r none hcb
    · exact Keeps.unchanged cmd s
  · split
    · split
      · split
        · exact Keeps.unchanged cmd s
        · rename_i status response _
          cases status with
          | none => simpa using keeps_errorHandler env cmd s r hcb
          | some n =>
            by_cases h200 : n = 200
            · simpa [h200] using keeps_msgCallback cmd s r response hcb
            · simpa [h200] using Keeps.unchanged cmd s
      · exact Keeps.unchanged cmd s
    · split
      · exact keeps_msgCallback cmd s r _ hcb
      · exact keeps_errorHandler env cmd s r hcb
      · exact keeps_errorHandler env cmd s r hcb
      · exact keeps_errorHandler env cmd s r hcb
      · exact Keeps.unchanged cmd s

theorem msgCallback_calm (cmd : Cmd) (s : State) (r : Request) (res : Response)
    (hcb : r.callback.ownedBy cmd = true) (hk : ∀ i ∈ s.msgQueue cmd, i.msg.cmd = cmd)
    (ht : DispatchedInTurn cmd s.history) (ha : Awaited s cmd) :
    Calm (msgCallback s r res) cmd := by
  obtain ⟨h1, h2, h3, h4, h5, h6⟩ := ha
  cases hr : r.callback with
  | user u => simp [hr, SendCb.ownedBy] at hcb
  | sync stored u => simp [hr, SendCb.ownedBy] at hcb
  | queued queueId item =>
    have hq : queueId = cmd := by simpa [hr, SendCb.ownedBy] using hcb
    subst hq
    have hc : Calm
        { s with activeServiceMessagesCounter := s.activeServiceMessagesCounter - 1
                 history := s.history ++ [Obs.msgCallback r.call res] ++ [Obs.completed queueId]
                 stack := Action.advance queueId :: s.stack } queueId := by
      have hE : enqueuedOf queueId
          (s.history ++ [Obs.msgCallback r.call res] ++ [Obs.completed queueId]) =
          enqueuedOf queueId s.history := by
        simp [enqueuedOf, List.filterMap_append, Obs.enqueuedFor]
      have hD : dispatchedOf queueId
          (s.history ++ [Obs.msgCallback r.call res] ++ [Obs.completed queueId]) =
          dispatchedOf queueId s.history := by
        simp [dispatchedOf, List.filterMap_append, Obs.dispatchedFor]
      have hC : completedOf queueId
          (s.history ++ [Obs.msgCallback r.call res] ++ [Obs.completed queueId]) =
          completedOf queueId s.history + 1 := by
        simp [completedOf, List.countP_append, Obs.completedFor]
      refine ⟨hk, dit_append_other (dit_append_other ht rfl) rfl, ?_, ?_, ?_, ?_, ?_, ?_, ?_, ?_⟩
      · simpa [resuming, List.countP_cons, Action.isSendNext] using h1
      · simp only [hE, hD]; exact h4
      · simp only [owners, advancing] at h2 h3 ⊢
        simp [List.countP_cons, Action.isAdvance, h2, h3]
      · intro h; exact absurd h h6
      · simp only [owners] at h2 ⊢
        intro h; omega
      · intro _; simp only [hD, hC]; exact h5
      · simp only [hD, hC]; omega
      · simp only [hD, hC]; omega
    have := (keeps_runItemCb queueId _ item res).keepsCalm hc
    simpa [msgCallback, runSendCb, observe, hr] using this

theorem errorHandler_calm (env : Env) (cmd : Cmd) (s : State) (r : Request)
    (hcb : r.callback.ownedBy cmd = true) (hk : ∀ i ∈ s.msgQueue cmd, i.msg.cmd = cmd)
    (ht : DispatchedInTurn cmd s.history) (ha : Awaited s cmd) :
    Calm (errorHandler env s r) cmd := by
  unfold errorHandler
  split
  · have k := keeps_storeMessage cmd s r.msg
    exact msgCallback_calm cmd _ r none hcb (k.keepsKeyed hk) (k.inTurn ht) (k.keepsAwaited ha)
  · obtain ⟨h1, h2, h3, h4, h5, h6⟩ := ha
    refine ⟨hk, sendMsg_inTurn _ _ _ _ _ _ ht, ?_⟩
    refine ⟨?_, ?_, ?_, ?_, ?_, ?_, ?_, ?_⟩ <;>
      simp only [sendMsg_resuming, sendMsg_owners, sendMsg_advancing, sendMsg_dispatchedOf,
        sendMsg_enqueuedOf, sendMsg_completedOf, sendMsg_msgQueue, hcb, if_true]
    · exact h1
    · exact h4
    · omega
    · intro h; exact absurd h h6
    · intro _; exact h5
    · intro h; omega
    · omega
    · omega

theorem onSignal_calm (env : Env) (cmd : Cmd) (s : State) (r : Request) (signal : Signal)
    (hcb : r.callback.ownedBy cmd = true) (hk : ∀ i ∈ s.msgQueue cmd, i.msg.cmd = cmd)
    (ht : DispatchedInTurn cmd s.history) (ha : Awaited s cmd) :
    Calm (onSignal env s r signal) cmd := by
  have h0 : Calm s cmd := ⟨hk, ht, ha.isSettled⟩
  have hm : ∀ res, Calm (msgCallback s r res) cmd :=
    fun res => msgCallback_calm cmd s r res hcb hk ht ha
  have he : Calm (errorHandler env s r) cmd := errorHandler_calm env cmd s r hcb hk ht ha
  unfold onSignal
  split
  · split
    · split
      · exact h0
      · exact hm none
    · exact h0
  · split
    · split
      · split
        · exact h0
        · rename_i status response _
          cases status with
          | none => simpa using he
          | some n =>
            by_cases h200 : n = 200
            · simpa [h200] using hm response
            · simpa [h200] using h0
      · exact h0
    · split
      · exact hm _
      · exact he
      · exact he
      · exact he
      · exact h0

theorem keeps_via (cmd : Cmd) {s t : State} (cb : UserCb) (g : Bool) (res : Response)
    (hq : t.msgQueue = s.msgQueue) (hi : t.inflight = s.inflight) (hs : t.stack = s.stack)
    (hh : t.history = s.history) : Keeps cmd s (runUserCb t cb g res) :=
  (keeps_same cmd hq hi hs hh).followed (keeps_runUserCb cmd t cb g res)

theorem keeps_syncServiceMsg (env : Env) (cmd : Cmd) (s : State) (msg : Msg) (cb : UserCb) :
    Keeps cmd s (syncServiceMsg env s msg cb) :=
  (keeps_same cmd (s := s) (t := { s with useAsyncXhr := false }) rfl rfl rfl rfl).followed
    (keeps_asyncServiceMsg env _ msg _ cmd rfl)

theorem replayFrames_advancing (cmd : Cmd) (batch : Nat) (l : List Msg) (i : Nat) :
    (replayFrames batch i l).countP (Action.isAdvance cmd) = 0 := by
  induction l generalizing i with
  | nil => rfl
  | cons m ms ih => simp [replayFrames, List.countP_cons, Action.isAdvance, ih]

theorem replayFrames_resuming (cmd : Cmd) (batch : Nat) (l : List Msg) (i : Nat) :
    (replayFrames batch i l).countP (Action.isSendNext cmd) = 0 := by
  induction l generalizing i with
  | nil => rfl
  | cons m ms ih => simp [replayFrames, List.countP_cons, Action.isSendNext, ih]

theorem keeps_batchUpdate (cmd : Cmd) (s : State) (cb : UserCb) :
    Keeps cmd s (batchUpdate s cb) := by
  unfold batchUpdate
  simp only []
  split
  · exact keeps_runUserCb cmd s cb false none
  · refine ⟨rfl, rfl, rfl, rfl, rfl, id, ?_, ?_⟩
    · simp [advancing, List.countP_append, List.countP_cons, replayFrames_advancing,
        Action.isAdvance]
    · simp [resuming, List.countP_append, List.countP_cons, replayFrames_resuming,
        Action.isSendNext]

theorem keeps_thenAll (cmd : Cmd) (s : State) (batch : Nat) : Keeps cmd s (thenAll s batch) :=
  keeps_same cmd (s := s) rfl rfl rfl rfl

theorem keeps_handler (env : Env) (cmd : Cmd) (s : State) (l : Listener) :
    Keeps cmd s (handler env s l) := by
  unfold handler
  split
  · exact Keeps.unchanged cmd s
  · exact keeps_via cmd _ _ _ rfl rfl rfl rfl

theorem keeps_runJob (cmd : Cmd) (s : State) (b : Batch) : Keeps cmd s (runJob s b) :=
  (keeps_append cmd (s := s) (o := Obs.reaction b.id)
    (t := { s with batches := s.batches.map fun x =>
                     if x.id = b.id then { x with fired := true } else x
                   history := s.history ++ [Obs.reaction b.id] }) rfl rfl rfl rfl rfl).followed
    (keeps_runUserCb cmd _ b.callback true none)

theorem keeps_waitForServiceMessagesCompleted (cmd : Cmd) (s : State) (cb : UserCb)
    (timeout : Nat) : Keeps cmd s (waitForServiceMessagesCompleted s cb timeout) := by
  unfold waitForServiceMessagesCompleted
  split
  · exact keeps_runUserCb cmd s cb false none
  · exact keeps_same cmd (s := s) rfl rfl rfl rfl

theorem keeps_timeoutFires (cmd : Cmd) (s : State) (w : Waiter) :
    Keeps cmd s (timeoutFires s w) :=
  keeps_via cmd _ _ _ rfl rfl rfl rfl

theorem keeps_intervalFires (cmd : Cmd) (s : State) (w : Waiter) (due : Nat) :
    Keeps cmd s (intervalFires s w due) := by
  unfold intervalFires
  split
  · exact keeps_via cmd _ _ _ rfl rfl rfl rfl
  · exact keeps_same cmd (s := s) rfl rfl rfl rfl

/-- A call of caller code keeps the queues of the other commands, and the
queue of its own command calm. -/
theorem perform_calm (env : Env) (s : State) (c : Call) (cmd : Cmd)
    (hall : ∀ x, Calm s x) : Calm (perform env s c) cmd := by
  cases c with
  | queuedAsyncServiceMsg msg cb =>
    by_cases h : msg.cmd = cmd
    · subst h
      exact queuedAsyncServiceMsg_calm env s msg _ (hall _)
    · exact (keeps_queuedAsyncServiceMsg env s msg _ cmd h (hall _).keyed).keepsCalm (hall cmd)
  | asyncServiceMsg msg cb =>
    exact (keeps_asyncServiceMsg env s msg (SendCb.user cb) cmd rfl).keepsCalm (hall cmd)
  | syncServiceMsg msg cb => exact (keeps_syncServiceMsg env cmd s msg cb).keepsCalm (hall cmd)
  | batchUpdate cb => exact (keeps_batchUpdate cmd s cb).keepsCalm (hall cmd)

section listeners
variable (env : Env) (s : State)

@[simp] theorem runUserCb_listeners (cb : UserCb) (g : Bool) (res : Response) :
    (runUserCb s cb g res).listeners = s.listeners := by
  cases cb with
  | absent => cases g <;> rfl
  | fn tag body => rfl
@[simp] theorem runItemCb_listeners (cb : ItemCb) (res : Response) :
    (runItemCb s cb res).listeners = s.listeners := by
  cases cb with
  | user u => exact runUserCb_listeners s u true res
  | resolve b i => rfl
@[simp] theorem runSendCb_listeners (cb : SendCb) (res : Response) :
    (runSendCb s cb res).listeners = s.listeners := by
  cases cb with
  | user u => exact runUserCb_listeners s u true res
  | sync stored u => exact runUserCb_listeners _ u false res
  | queued q item => exact runItemCb_listeners _ item res
@[simp] theorem msgCallback_listeners (r : Request) (res : Response) :
    (msgCallback s r res).listeners = s.listeners :=
  runSendCb_listeners _ r.callback res
@[simp] theorem errorHandler_listeners (r : Request) :
    (errorHandler env s r).listeners = s.listeners := by
  unfold errorHandler
  split
  · exact msgCallback_listeners _ r none
  · rfl
@[simp] theorem onSignal_listeners (r : Request) (signal : Signal) :
    (onSignal env s r signal).listeners = s.listeners := by
  unfold onSignal
  split
  · split
    · split <;> simp
    · rfl
  · split
    · split
      · split
        · rfl
        · rename_i status response _
          cases status with
          | none => simp
          | some n => by_cases h200 : n = 200 <;> simp [h200]
      · rfl
    · split <;> simp
@[simp] theorem sendNextQueuedMsg_listeners (queueId : Cmd) :
    (sendNextQueuedMsg env s queueId).listeners = s.listeners := by
  unfold sendNextQueuedMsg
  split <;> rfl
@[simp] theorem queuedAsyncServiceMsg_listeners (msg : Msg) (cb : ItemCb) :
    (queuedAsyncServiceMsg env s msg cb).listeners = s.listeners := by
  unfold queuedAsyncServiceMsg
  simp only []
  split
  · exact sendNextQueuedMsg_listeners env _ _
  · rfl
@[simp] theorem batchUpdate_listeners (cb : UserCb) :
    (batchUpdate s cb).listeners = s.listeners := by
  unfold batchUpdate
  simp only []
  split
  · simp
  · rfl
@[simp] theorem perform_listeners (c : Call) : (perform env s c).listeners = s.listeners := by
  cases c with
  | queuedAsyncServiceMsg msg cb => exact queuedAsyncServiceMsg_listeners env s msg _
  | asyncServiceMsg msg cb => rfl
  | syncServiceMsg msg cb => rfl
  | batchUpdate cb => exact batchUpdate_listeners s cb
@[simp] theorem sendNextIfAny_listeners (queueId : Cmd) :
    (sendNextIfAny env s queueId).listeners = s.listeners := by
  unfold sendNextIfAny
  split
  · rfl
  · simp
theorem handler_listeners (l : Listener) (h : s.listeners = []) :
    (handler env s l).listeners = [] := by
  unfold handler
  split
  · exact h
  · simp [h]
@[simp] theorem waitForServiceMessagesCompleted_listeners (cb : UserCb) (timeout : Nat) :
    (waitForServiceMessagesCompleted s cb timeout).listeners = s.listeners := by
  unfold waitForServiceMessagesCompleted
  split
  · simp
  · rfl
@[simp] theorem timeoutFires_listeners (w : Waiter) :
    (timeoutFires s w).listeners = s.listeners :=
  runUserCb_listeners _ _ _ _
@[simp] theorem intervalFires_listeners (w : Waiter) (due : Nat) :
    (intervalFires s w due).listeners = s.listeners := by
  unfold intervalFires
  split
  · exact runUserCb_listeners _ _ _ _
  · rfl
@[simp] theorem runJob_listeners (b : Batch) : (runJob s b).listeners = s.listeners :=
  runUserCb_listeners _ _ _ _

end listeners

theorem QInv.of_calm {t : State} (hl : t.listeners = []) (h : ∀ cmd, Calm t cmd) : QInv t :=
  ⟨hl, fun cmd => (h cmd).keyed, fun cmd => (h cmd).inTurn, fun cmd => Or.inl (h cmd).settled⟩

theorem QInv.allCalm {s : State} (h : QInv s)
    (hd : ∀ cmd frames, s.stack ≠ Action.sendNextIfAny cmd :: frames) (cmd : Cmd) :
    Calm s cmd := by
  refine ⟨h.keyed cmd, h.inTurn cmd, ?_⟩
  rcases h.phase cmd with h1 | ⟨⟨frames, hf, _⟩, _⟩
  · exact h1
  · exact absurd hf (hd cmd frames)

theorem keeps_pop (cmd : Cmd) (s : State) (a : Action) (frames : List Action)
    (hs : s.stack = a :: frames) : Keeps cmd s { s with stack := frames } := by
  refine ⟨rfl, rfl, rfl, rfl, rfl, id, ?_, ?_⟩
  · simp only [advancing, hs, List.countP_cons]; omega
  · simp only [resuming, hs, List.countP_cons]; omega

theorem qinv_init (store : Option (List Msg)) : QInv (init store) := by
  apply QInv.of_calm rfl
  intro cmd
  refine ⟨by simp [init], ?_, ?_⟩
  · intro h1 m h2 h
    simp [init] at h
  · simp [Settled, init, resuming, owners, advancing, dispatchedOf, enqueuedOf, completedOf,
      msgsOf]

theorem qinv_sendNextIfAny (env : Env) (s : State) (queueId : Cmd) (frames : List Action)
    (h : QInv s) (hs : s.stack = Action.sendNextIfAny queueId :: frames) :
    QInv (sendNextIfAny env { s with stack := frames } queueId) := by
  apply QInv.of_calm (by simp [h.listeners])
  intro cmd
  by_cases hc : queueId = cmd
  · subst hc
    rcases h.phase queueId with h1 | ⟨⟨frames1, hf, hcount⟩, hr1, hr2, hr3, hr4⟩
    · have := h1.1
      simp [resuming, hs, List.countP_cons, Action.isSendNext] at this
    · rw [hs] at hf
      simp at hf
      subst hf
      have hr : Ready { s with stack := frames } queueId := by
        refine ⟨hr1, ?_, hr3, hr4⟩
        simpa [advancing, hs, List.countP_cons, Action.isAdvance] using hr2
      have hres : resuming queueId { s with stack := frames } = 0 := hcount
      unfold sendNextIfAny
      split
      next hq =>
        have hq1 : s.msgQueue queueId = [] := by simpa using hq
        obtain ⟨g1, g2, g3, g4⟩ := hr
        refine ⟨h.keyed queueId, h.inTurn queueId, hres, ?_, ?_, ?_, ?_, ?_, ?_, ?_⟩
        · simp only [hq1, msgsOf, List.tail_nil, List.map_nil, List.append_nil]
          simpa [hq1, msgsOf] using g3
        · omega
        · intro _; exact ⟨by omega, g4⟩
        · intro h; omega
        · intro _; exact g4
        · exact le_of_eq g4.symm
        · omega
      next hq =>
        have hq1 : s.msgQueue queueId ≠ [] := by simpa using hq
        exact sendNextQueuedMsg_calm env _ queueId (h.keyed queueId) (h.inTurn queueId) hr hres hq1
  · have hcalm : Calm s cmd := by
      refine ⟨h.keyed cmd, h.inTurn cmd, ?_⟩
      rcases h.phase cmd with h1 | ⟨⟨frames1, hf, _⟩, _⟩
      · exact h1
      · rw [hs] at hf
        simp at hf
        exact absurd hf.1 hc
    have k1 := keeps_pop cmd s _ frames hs
    have k2 : Keeps cmd { s with stack := frames }
        (sendNextIfAny env { s with stack := frames } queueId) := by
      unfold sendNextIfAny
      split
      · exact Keeps.unchanged cmd _
      · exact keeps_sendNextQueuedMsg env _ queueId cmd hc (h.keyed queueId)
    exact (k1.followed k2).keepsCalm hcalm

theorem qinv_advance (s : State) (queueId : Cmd) (frames : List Action)
    (h : QInv s) (hs : s.stack = Action.advance queueId :: frames) :
    QInv (advance { s with stack := frames } queueId) := by
  have hcalm : ∀ cmd, Calm s cmd := h.allCalm (by intro cmd fr; rw [hs]; simp)
  refine ⟨h.listeners, ?_, h.inTurn, ?_⟩
  · intro cmd i hi
    simp only [advance] at hi
    split at hi
    next hc => subst hc; exact h.keyed cmd i (List.mem_of_mem_tail hi)
    next hc => exact h.keyed cmd i hi
  · intro cmd
    obtain ⟨_, _, h1, h2, h3, h4, h5, h6, h7, h8⟩ := hcalm cmd
    by_cases hc : cmd = queueId
    · subst hc
      right
      have hadv : advancing cmd s = 1 + frames.countP (Action.isAdvance cmd) := by
        simp [advancing, hs, List.countP_cons, Action.isAdvance]; omega
      have hres : frames.countP (Action.isSendNext cmd) = 0 := by
        simpa [resuming, hs, List.countP_cons, Action.isSendNext] using h1
      refine ⟨⟨frames, by simp [advance, h.listeners], hres⟩, ?_, ?_, ?_, ?_⟩
      · show owners cmd s = 0
        omega
      · have hz : frames.countP (Action.isAdvance cmd) = 0 := by omega
        simpa [advancing, advance, h.listeners, List.countP_cons, Action.isAdvance] using hz
      · simpa [advance] using h2
      · apply h6
        omega
    · left
      have hne : ¬ queueId = cmd := fun h => hc h.symm
      refine ⟨?_, ?_, ?_, ?_, h5, ?_, h7, h8⟩
      · simpa [resuming, advance, h.listeners, hs, List.countP_cons, Action.isSendNext, hne]
          using h1
      · simpa [advance, hc] using h2
      · have : advancing cmd (advance { s with stack := frames } queueId) = advancing cmd s := by
          simp [advancing, advance, h.listeners, hs, List.countP_cons, Action.isSendNext,
            Action.isAdvance, hne]
        rw [this]
        exact h3
      · intro hq
        have hq1 : s.msgQueue cmd = [] := by simpa [advance, hc] using hq
        have : advancing cmd (advance { s with stack := frames } queueId) = advancing cmd s := by
          simp [advancing, advance, h.listeners, hs, List.countP_cons, Action.isSendNext,
            Action.isAdvance, hne]
        rw [this]
        exact h4 hq1
      · intro ha
        apply h6
        simpa [advancing, advance, h.listeners, hs, List.countP_cons, Action.isSendNext,
            Action.isAdvance, hne] using ha

theorem qinv_onSignal (env : Env) (s : State) (r : Request) (rest : List Request)
    (frames : List Action) (signal : Signal) (id : Nat) (h : QInv s)
    (hcalm : ∀ cmd, Calm s cmd)
    (ht : takeRequest id s.inflight = some (r, rest))
    (hf : ∀ cmd, frames.countP (Action.isAdvance cmd) ≤ s.stack.countP (Action.isAdvance cmd))
    (hg : ∀ cmd, frames.countP (Action.isSendNext cmd) ≤ s.stack.countP (Action.isSendNext cmd)) :
    QInv (onSignal env { s with inflight := rest, stack := frames } r signal) := by
  apply QInv.of_calm (by simp [h.listeners])
  intro cmd
  have hcount := takeRequest_countP (Request.ownedBy cmd) id s.inflight r rest ht
  have hc := hcalm cmd
  obtain ⟨hk, hturn, h1, h2, h3, h4, h5, h6, h7, h8⟩ := hc
  have hfa := hf cmd
  have hga := hg cmd
  cases hown : r.callback.ownedBy cmd with
  | false =>
    have hro : r.ownedBy cmd = false := by rw [Request.ownedBy_eq]; exact hown
    have k : Keeps cmd s { s with inflight := rest, stack := frames } := by
      refine ⟨rfl, ?_, rfl, rfl, rfl, fun x => x, hfa, hga⟩
      simp only [owners]
      rw [hcount, hro]
      simp
    exact ((k.followed (keeps_onSignal env cmd _ r signal hown)).keepsCalm (hcalm cmd))
  | true =>
    have hro : r.ownedBy cmd = true := by rw [Request.ownedBy_eq]; exact hown
    have ho : owners cmd s = 1 + rest.countP (Request.ownedBy cmd) := by
      simp only [owners]
      rw [hcount, hro]
      simp
    have ha : Awaited { s with inflight := rest, stack := frames } cmd := by
      refine ⟨?_, ?_, ?_, h2, ?_, ?_⟩
      · simp only [resuming] at h1 ⊢
        omega
      · simp only [owners] at ho ⊢
        simp only [owners] at h3
        omega
      · simp only [advancing] at h3 ⊢
        omega
      · apply h5
        omega
      · intro hq
        have := (h4 hq).1
        omega
    exact onSignal_calm env cmd _ r signal hown hk hturn ha

/-- A step that is not a call of `waitCookieMsg` preserves the invariant. -/
theorem step_qinv (env : Env) (s t : State) (e : Event) (h : QInv s)
    (he : e.isWaitCookieMsg = false) (hstep : step env s e = some t) : QInv t := by
  cases e with
  | waitCookieMsg cb => simp [Event.isWaitCookieMsg] at he
  | run =>
    simp only [step] at hstep
    cases hs : s.stack with
    | nil => simp [hs] at hstep
    | cons a frames =>
      simp only [hs] at hstep
      cases a with
      | sendNextIfAny queueId =>
        simp only [runFrame, Option.some.injEq] at hstep
        subst hstep
        exact qinv_sendNextIfAny env s queueId frames h hs
      | advance queueId =>
        simp only [runFrame, Option.some.injEq] at hstep
        subst hstep
        exact qinv_advance s queueId frames h hs
      | awaitSync j => simp [runFrame] at hstep
      | call c =>
        simp only [runFrame, Option.some.injEq] at hstep
        subst hstep
        have hcalm : ∀ cmd, Calm s cmd := h.allCalm (by intro cmd fr; rw [hs]; simp)
        apply QInv.of_calm (by simp [h.listeners])
        intro cmd
        exact perform_calm env _ c cmd fun x => (keeps_pop x s _ frames hs).keepsCalm (hcalm x)
      | replay msg batch index =>
        simp only [runFrame, Option.some.injEq] at hstep
        subst hstep
        have hcalm : ∀ cmd, Calm s cmd := h.allCalm (by intro cmd fr; rw [hs]; simp)
        have hcalm0 : ∀ cmd, Calm { s with stack := frames } cmd :=
          fun x => (keeps_pop x s _ frames hs).keepsCalm (hcalm x)
        apply QInv.of_calm (by simp [h.listeners])
        intro cmd
        by_cases hc : msg.cmd = cmd
        · subst hc
          exact queuedAsyncServiceMsg_calm env _ msg _ (hcalm0 _)
        · exact (keeps_queuedAsyncServiceMsg env _ msg _ cmd hc (hcalm0 _).keyed).keepsCalm (hcalm0 cmd)
      | thenAll batch =>
        simp only [runFrame, Option.some.injEq] at hstep
        subst hstep
        have hcalm : ∀ cmd, Calm s cmd := h.allCalm (by intro cmd fr; rw [hs]; simp)
        apply QInv.of_calm (by exact h.listeners)
        intro cmd
        exact ((keeps_pop cmd s _ frames hs).followed (keeps_thenAll cmd _ batch)).keepsCalm (hcalm cmd)
      | handler l =>
        simp only [runFrame, Option.some.injEq] at hstep
        subst hstep
        have hcalm : ∀ cmd, Calm s cmd := h.allCalm (by intro cmd fr; rw [hs]; simp)
        apply QInv.of_calm (by exact handler_listeners env _ l h.listeners)
        intro cmd
        exact ((keeps_pop cmd s _ frames hs).followed (keeps_handler env cmd _ l)).keepsCalm (hcalm cmd)
  | xhr id signal =>
    simp only [step, xhr] at hstep
    cases ht : takeRequest id s.inflight with
    | none => simp [ht] at hstep
    | some p =>
      obtain ⟨r, rest⟩ := p
      simp only [ht] at hstep
      cases hasync : r.async with
      | true =>
        simp only [hasync, if_true] at hstep
        cases hs : s.stack with
        | cons a frames => simp [hs] at hstep
        | nil =>
          simp only [hs] at hstep
          have hcalm : ∀ cmd, Calm s cmd := h.allCalm (by intro cmd fr; rw [hs]; simp)
          cases hcomp : completes env r signal with
          | false =>
            simp only [hcomp, onSignal_of_not_completes env s r signal hcomp] at hstep
            simp at hstep
            subst hstep
            exact h
          | true =>
            simp only [hcomp, if_true, Option.some.injEq] at hstep
            subst hstep
            have := qinv_onSignal env s r rest [] signal id h hcalm ht (by simp) (by simp)
            simpa [hs] using this
      | false =>
        simp only [hasync, Bool.false_eq_true, if_false] at hstep
        cases hs : s.stack with
        | nil => simp [hs] at hstep
        | cons a frames =>
          cases a with
          | awaitSync j =>
            simp only [hs] at hstep
            by_cases hj : j = id
            · simp only [hj, if_true] at hstep
              have hcalm : ∀ cmd, Calm s cmd := h.allCalm (by intro cmd fr; rw [hs]; simp)
              cases hcomp : completes env r signal with
              | false =>
                simp only [hcomp, onSignal_of_not_completes env s r signal hcomp] at hstep
                simp at hstep
                subst hstep
                exact h
              | true =>
                simp only [hcomp, if_true, Option.some.injEq] at hstep
                subst hstep
                exact qinv_onSignal env s r rest frames signal id h hcalm ht
                  (by intro cmd; rw [hs]; simp [List.countP_cons])
                  (by intro cmd; rw [hs]; simp [List.countP_cons])
            · simp [hj] at hstep
          | call c => simp [hs] at hstep
          | replay m b i => simp [hs] at hstep
          | thenAll b => simp [hs] at hstep
          | advance q => simp [hs] at hstep
          | handler l => simp [hs] at hstep
          | sendNextIfAny q => simp [hs] at hstep
  | call c =>
    simp only [step] at hstep
    cases hs : s.stack with
    | cons a frames => simp [hs] at hstep
    | nil =>
      simp [hs] at hstep
      subst hstep
      have hcalm : ∀ cmd, Calm s cmd := h.allCalm (by intro cmd fr; rw [hs]; simp)
      apply QInv.of_calm (by simp [h.listeners])
      intro cmd
      exact perform_calm env s c cmd hcalm
  | waitForServiceMessagesCompleted cb timeout =>
    simp only [step] at hstep
    cases hs : s.stack with
    | cons a frames => simp [hs] at hstep
    | nil =>
      simp [hs] at hstep
      subst hstep
      have hcalm : ∀ cmd, Calm s cmd := h.allCalm (by intro cmd fr; rw [hs]; simp)
      apply QInv.of_calm (by simp [h.listeners])
      intro cmd
      exact (keeps_waitForServiceMessagesCompleted cmd s cb timeout).keepsCalm (hcalm cmd)
  | job batch =>
    simp only [step] at hstep
    cases hs : s.stack with
    | cons a frames => simp [hs] at hstep
    | nil =>
      have hcalm : ∀ cmd, Calm s cmd := h.allCalm (by intro cmd fr; rw [hs]; simp)
      simp only [hs, List.isEmpty_nil, if_true] at hstep
      cases hb : findBatch batch s.batches with
      | none => simp [hb] at hstep
      | some b =>
        simp only [hb] at hstep
        split at hstep
        · simp only [Option.some.injEq] at hstep
          subst hstep
          apply QInv.of_calm (by simp [h.listeners])
          intro cmd
          exact (keeps_runJob cmd s b).keepsCalm (hcalm cmd)
        · simp at hstep
  | elapse dt =>
    simp only [step] at hstep
    cases hs : s.stack with
    | cons a frames => simp [hs] at hstep
    | nil =>
      simp [hs] at hstep
      subst hstep
      have hcalm : ∀ cmd, Calm s cmd := h.allCalm (by intro cmd fr; rw [hs]; simp)
      apply QInv.of_calm (by exact h.listeners)
      intro cmd
      exact Keeps.keepsCalm (keeps_same cmd (by rfl) (by rfl) (by simp [hs]) (by rfl)) (hcalm cmd)
  | timeout waiter =>
    simp only [step] at hstep
    cases hs : s.stack with
    | cons a frames => simp [hs] at hstep
    | nil =>
      have hcalm : ∀ cmd, Calm s cmd := h.allCalm (by intro cmd fr; rw [hs]; simp)
      simp only [hs, List.isEmpty_nil, if_true] at hstep
      cases hw : findWaiter waiter s.waiters with
      | none => simp [hw] at hstep
      | some w =>
        simp only [hw] at hstep
        cases hdue : w.timeoutDue with
        | none => simp [hdue] at hstep
        | some due =>
          simp only [hdue] at hstep
          split at hstep
          · simp only [Option.some.injEq] at hstep
            subst hstep
            apply QInv.of_calm (by simp [h.listeners])
            intro cmd
            exact (keeps_timeoutFires cmd s w).keepsCalm (hcalm cmd)
          · simp at hstep
  | interval waiter =>
    simp only [step] at hstep
    cases hs : s.stack with
    | cons a frames => simp [hs] at hstep
    | nil =>
      have hcalm : ∀ cmd, Calm s cmd := h.allCalm (by intro cmd fr; rw [hs]; simp)
      simp only [hs, List.isEmpty_nil, if_true] at hstep
      cases hw : findWaiter waiter s.waiters with
      | none => simp [hw] at hstep
      | some w =>
        simp only [hw] at hstep
        cases hdue : w.intervalDue with
        | none => simp [hdue] at hstep
        | some due =>
          simp only [hdue] at hstep
          split at hstep
          · simp only [Option.some.injEq] at hstep
            subst hstep
            apply QInv.of_calm (by simp [h.listeners])
            intro cmd
            exact (keeps_intervalFires cmd s w due).keepsCalm (hcalm cmd)
          · simp at hstep
  | beforeunload =>
    simp only [step] at hstep
    cases hs : s.stack with
    | cons a frames => simp [hs] at hstep
    | nil =>
      simp [hs] at hstep
      subst hstep
      have hcalm : ∀ cmd, Calm s cmd := h.allCalm (by intro cmd fr; rw [hs]; simp)
      apply QInv.of_calm (by exact h.listeners)
      intro cmd
      exact Keeps.keepsCalm (keeps_same cmd (by rfl) (by rfl) (by simp [hs]) (by rfl)) (hcalm cmd)
  | switchBack =>
    simp only [step] at hstep
    cases hs : s.stack with
    | cons a frames => simp [hs] at hstep
    | nil =>
      have hcalm : ∀ cmd, Calm s cmd := h.allCalm (by intro cmd fr; rw [hs]; simp)
      simp only [hs, List.isEmpty_nil, if_true] at hstep
      cases hsb : s.switchBack with
      | nil => simp [hsb] at hstep
      | cons due rest =>
        simp only [hsb] at hstep
        split at hstep
        · simp only [Option.some.injEq] at hstep
          subst hstep
          apply QInv.of_calm (by exact h.listeners)
          intro cmd
          exact Keeps.keepsCalm (keeps_same cmd (by rfl) (by rfl) (by simp [hs]) (by rfl)) (hcalm cmd)
        · simp at hstep

theorem run_qinv (env : Env) (events : List Event) :
    ∀ (s t : State), QInv s → (∀ e ∈ events, e.isWaitCookieMsg = false) →
      run env s events = some t → QInv t := by
  induction events with
  | nil =>
    intro s t h _ hrun
    simp [run] at hrun
    subst hrun
    exact h
  | cons e es ih =>
    intro s t h he hrun
    simp only [run] at hrun
    cases hstep : step env s e with
    | none => simp [hstep] at hrun
    | some s1 =>
      simp only [hstep] at hrun
      exact ih s1 t (step_qinv env s s1 e h (he e (by simp)) hstep)
        (fun x hx => he x (by simp [hx])) hrun

/-- In every run of the transport without a call of `waitCookieMsg`, the
messages of one `cmd` that `sendNextQueuedMsg` passes to `asyncServiceMsg`
are an initial segment of the messages passed to `queuedAsyncServiceMsg` with
that `cmd`, in call order; and at every dispatch recorded in the history,
every message of the `cmd` dispatched before has completed and the dispatched
message is the next one in call order, whatever the other commands, timers
and callers do in between. -/
theorem dispatch_in_call_order_without_waitCookieMsg (env : Env) (store : Option (List Msg))
    (events : List Event) (s : State) (cmd : Cmd)
    (hq : ∀ e ∈ events, e.isWaitCookieMsg = false)
    (hrun : run env (init store) events = some s) :
    dispatchedOf cmd s.history <+: enqueuedOf cmd s.history ∧
    completedOf cmd s.history ≤ (dispatchedOf cmd s.history).length ∧
    (dispatchedOf cmd s.history).length ≤ completedOf cmd s.history + 1 ∧
    ∀ h1 m h2, s.history = h1 ++ Obs.dispatched m :: h2 → m.cmd = cmd →
      completedOf cmd h1 = (dispatchedOf cmd h1).length ∧
      dispatchedOf cmd h1 ++ [m] <+: enqueuedOf cmd h1 := by
  have h := run_qinv env events (init store) s (qinv_init store) hq hrun
  refine ⟨?_, ?_, ?_, h.inTurn cmd⟩
  · rcases h.phase cmd with h1 | ⟨_, _, _, h3, _⟩
    · exact ⟨_, h1.2.1⟩
    · exact ⟨_, h3⟩
  · rcases h.phase cmd with h1 | ⟨_, _, _, _, h4⟩
    · exact h1.2.2.2.2.2.2.1
    · omega
  · rcases h.phase cmd with h1 | ⟨_, _, _, _, h4⟩
    · exact h1.2.2.2.2.2.2.2
    · omega

/-- Three queued messages, two of them of command 1, with the completions
interleaved and no call of `waitCookieMsg`: the messages of command 1 are
dispatched in call order. -/
theorem dispatch_in_call_order_sample :
    (∀ e ∈ orderedEvents, e.isWaitCookieMsg = false) ∧
    run sampleEnv (init none) orderedEvents = some orderedState ∧
    dispatchedOf 1 orderedState.history = [sampleMsg 1 10, sampleMsg 1 11] ∧
    dispatchedOf 1 orderedState.history <+: enqueuedOf 1 orderedState.history :=
  ⟨by decide, rfl, by decide,
   (dispatch_in_call_order_without_waitCookieMsg sampleEnv none orderedEvents orderedState 1
      (by decide) rfl).1⟩

/-- C1, evaluated at the failing input: a `waitCookieMsg` callback queues
message 11 from inside the completion signal of message 10, and message 11 is
dispatched twice (C2).  The messages 12 and 13 are queued behind it.  The
completion of the first request of message 11 shifts it off the queue and
dispatches message 12; the completion of the second request shifts message
12, whose request is in flight, off the queue and dispatches message 13.
Message 13 is dispatched while the request of message 12 is in flight and the
callback of message 12 has not been called. -/
theorem listener_reentry_dispatches_out_of_turn :
    (run sampleEnv (init none) overtakeEvents).map
      (fun s => (s.stack.length, s.inflight.map (fun r => r.msg.payload),
        (msgsOf (s.msgQueue 1)).map (fun m => m.payload),
        (enqueuedOf 1 s.history).map (fun m => m.payload),
        (dispatchedOf 1 s.history).map (fun m => m.payload),
        completedOf 1 s.history, callbacksOf 12 s.history)) =
    some (0, [12, 13], [13], [10, 11, 12, 13], [10, 11, 11, 12, 13], 3, 0) :=
  rfl

/-- C2, evaluated at the failing input: the `MSG_RECEIVED` handler of
`waitCookieMsg` runs between the `shift` and the length test of the
completion callback; its message finds the queue empty and is dispatched,
and the length test dispatches it again.  Two requests for the head of
`msgQueue[1]` are in flight and the message queued once is dispatched twice. -/
theorem listener_reentry_dispatches_twice :
    (run sampleEnv (init none) reentryEvents).map
      (fun s => (owners 1 s, s.inflight.map (fun r => r.msg.payload), s.stack.length,
        msgsOf (s.msgQueue 1), enqueuedOf 1 s.history, dispatchedOf 1 s.history)) =
    some (2, [11, 11], 0, [sampleMsg 1 11],
      [sampleMsg 1 10, sampleMsg 1 11],
      [sampleMsg 1 10, sampleMsg 1 11, sampleMsg 1 11]) :=
  rfl

/-! ### At most two requests for a message -/

theorem Silent.still (s : State) : Silent s s := ⟨rfl, rfl, rfl, rfl⟩

theorem Silent.next {s t u : State} (h1 : Silent s t) (h2 : Silent t u) : Silent s u :=
  ⟨h2.inflight.trans h1.inflight, h2.nextCall.trans h1.nextCall, h2.issued.trans h1.issued,
   h2.store.trans h1.store⟩

theorem Traffic.after {s t u : State} (h1 : Silent s t) (h2 : Traffic t u) : Traffic s u := by
  cases h2 with
  | silent h => exact Traffic.silent (h1.next h)
  | cleared hi hc hr hst =>
    exact Traffic.cleared (by rw [hi, h1.inflight]) (by rw [hc, h1.nextCall])
      (by rw [hr, h1.issued]) hst
  | fresh r hi hcall hf hc hr hst =>
    exact Traffic.fresh r (by rw [hi, h1.inflight]) (by rw [hcall, h1.nextCall]) hf
      (by rw [hc, h1.nextCall]) (by rw [hr, h1.issued])
      (by rw [hst]; simp only [_getStoredMessages, h1.store])

theorem Traffic.andThen {s t u : State} (h1 : Traffic s t) (h2 : Silent t u) : Traffic s u := by
  cases h1 with
  | silent h => exact Traffic.silent (h.next h2)
  | cleared hi hc hr hst =>
    exact Traffic.cleared (by rw [h2.inflight, hi]) (by rw [h2.nextCall, hc])
      (by rw [h2.issued, hr]) (by rw [h2.store, hst])
  | fresh r hi hcall hf hc hr hst =>
    exact Traffic.fresh r (by rw [h2.inflight, hi]) hcall hf (by rw [h2.nextCall, hc])
      (by rw [h2.issued, hr]) (by rw [h2.store, hst])

theorem silent_same {s t : State} (hi : t.inflight = s.inflight)
    (hc : t.nextCall = s.nextCall) (hh : t.history = s.history)
    (hst : t.store = s.store) : Silent s t :=
  ⟨hi, hc, by rw [hh], hst⟩

theorem silent_append {s t : State} {o : Obs} (hi : t.inflight = s.inflight)
    (hc : t.nextCall = s.nextCall) (hh : t.history = s.history ++ [o])
    (ho : o.requestOf = none) (hst : t.store = s.store) : Silent s t :=
  ⟨hi, hc, by simp [hh, requestsIssued, List.filterMap_append, ho], hst⟩

theorem silent_runUserCb (s : State) (cb : UserCb) (g : Bool) (res : Response) :
    Silent s (runUserCb s cb g res) := by
  cases cb with
  | absent => cases g <;> exact ⟨rfl, rfl, rfl, rfl⟩
  | fn tag body => exact silent_append (o := Obs.callback tag res) rfl rfl rfl rfl rfl

theorem silent_resolveTask (s : State) (batch index : Nat) :
    Silent s (resolveTask s batch index) :=
  silent_append (o := Obs.resolved batch index) rfl rfl rfl rfl rfl

theorem silent_runItemCb (s : State) (cb : ItemCb) (res : Response) :
    Silent s (runItemCb s cb res) := by
  cases cb with
  | user u => exact silent_runUserCb s u true res
  | resolve batch index => exact silent_resolveTask s batch index

theorem silent_runSendCb (s : State) (cb : SendCb) (res : Response) :
    Silent s (runSendCb s cb res) := by
  cases cb with
  | user u => exact silent_runUserCb s u true res
  | sync stored u =>
    exact (silent_same (s := s) (t := { s with useAsyncXhr := stored }) rfl rfl rfl rfl).next
      (silent_runUserCb _ u false res)
  | queued queueId item =>
    exact (silent_append (s := s) (o := Obs.completed queueId)
      (t := { s with history := s.history ++ [Obs.completed queueId]
                     stack := Action.advance queueId :: s.stack }) rfl rfl rfl rfl rfl).next
      (silent_runItemCb _ item res)

theorem silent_msgCallback (s : State) (r : Request) (res : Response) :
    Silent s (msgCallback s r res) :=
  (silent_append (s := s) (o := Obs.msgCallback r.call res)
    (t := { s with activeServiceMessagesCounter := s.activeServiceMessagesCounter - 1
                   history := s.history ++ [Obs.msgCallback r.call res] }) rfl rfl rfl rfl rfl).next
    (silent_runSendCb _ r.callback res)

theorem kinv_storeMessage (s : State) (msg : Msg) (k : KInv s) : KInv (_storeMessage s msg) :=
  ⟨k.inflight, k.issued, k.forcedSync, k.once, k.first⟩

theorem traffic_asyncServiceMsg (env : Env) (s : State) (msg : Msg) (cb : SendCb) :
    Traffic s (asyncServiceMsg env s msg cb) :=
  Traffic.fresh
    { id := s.nextId, call := s.nextCall, msg := stamp env msg, forced := false
      async := s.useAsyncXhr, callback := cb }
    rfl rfl rfl rfl
    (by simp [asyncServiceMsg, sendMsg, _removeMessageFromStore, requestsIssued,
      List.filterMap_append, Obs.requestOf])
    (by simp [asyncServiceMsg, sendMsg, _removeMessageFromStore, stamp])

theorem traffic_sendNextQueuedMsg (env : Env) (s : State) (queueId : Cmd) :
    Traffic s (sendNextQueuedMsg env s queueId) := by
  unfold sendNextQueuedMsg
  split
  · exact Traffic.silent ⟨rfl, rfl, rfl, rfl⟩
  · exact Traffic.after (silent_append (o := Obs.dispatched _) (by rfl) (by rfl) (by rfl) (by rfl) (by rfl))
      (traffic_asyncServiceMsg env _ _ _)

theorem traffic_queuedAsyncServiceMsg (env : Env) (s : State) (msg : Msg) (cb : ItemCb) :
    Traffic s (queuedAsyncServiceMsg env s msg cb) := by
  unfold queuedAsyncServiceMsg
  simp only []
  split
  · exact Traffic.after (silent_append (o := Obs.enqueued msg) (by rfl) (by rfl) (by rfl) (by rfl) (by rfl))
      (traffic_sendNextQueuedMsg env _ _)
  · exact Traffic.silent (silent_append (o := Obs.enqueued msg) (by rfl) (by rfl) (by rfl) (by rfl) (by rfl))

theorem traffic_syncServiceMsg (env : Env) (s : State) (msg : Msg) (cb : UserCb) :
    Traffic s (syncServiceMsg env s msg cb) :=
  Traffic.after (silent_same (s := s) (t := { s with useAsyncXhr := false }) rfl rfl rfl rfl)
    (traffic_asyncServiceMsg env _ msg _)

theorem traffic_batchUpdate (s : State) (cb : UserCb) : Traffic s (batchUpdate s cb) := by
  unfold batchUpdate
  simp only []
  split
  · exact Traffic.silent (silent_runUserCb s cb false none)
  · exact Traffic.cleared rfl rfl rfl rfl

theorem traffic_perform (env : Env) (s : State) (c : Call) : Traffic s (perform env s c) := by
  cases c with
  | queuedAsyncServiceMsg msg cb => exact traffic_queuedAsyncServiceMsg env s msg _
  | asyncServiceMsg msg cb => exact traffic_asyncServiceMsg env s msg _
  | syncServiceMsg msg cb => exact traffic_syncServiceMsg env s msg cb
  | batchUpdate cb => exact traffic_batchUpdate s cb

theorem silent_handler (env : Env) (s : State) (l : Listener) : Silent s (handler env s l) := by
  unfold handler
  split
  · exact Silent.still s
  · exact (silent_same (s := s) (t := { s with listeners := s.listeners.filter (·.id ≠ l.id) })
      rfl rfl rfl rfl).next (silent_runUserCb _ l.callback false none)

theorem traffic_sendNextIfAny (env : Env) (s : State) (queueId : Cmd) :
    Traffic s (sendNextIfAny env s queueId) := by
  unfold sendNextIfAny
  split
  · exact Traffic.silent (Silent.still s)
  · exact traffic_sendNextQueuedMsg env s queueId

theorem traffic_runFrame (env : Env) (s t : State) (a : Action)
    (h : runFrame env s a = some t) : Traffic s t := by
  cases a with
  | call c =>
    simp only [runFrame, Option.some.injEq] at h
    subst h
    exact traffic_perform env s c
  | replay msg batch index =>
    simp only [runFrame, Option.some.injEq] at h
    subst h
    exact traffic_queuedAsyncServiceMsg env s msg _
  | thenAll batch =>
    simp only [runFrame, Option.some.injEq] at h
    subst h
    exact Traffic.silent ⟨rfl, rfl, rfl, rfl⟩
  | advance queueId =>
    simp only [runFrame, Option.some.injEq] at h
    subst h
    exact Traffic.silent ⟨rfl, rfl, rfl, rfl⟩
  | handler l =>
    simp only [runFrame, Option.some.injEq] at h
    subst h
    exact Traffic.silent (silent_handler env s l)
  | sendNextIfAny queueId =>
    simp only [runFrame, Option.some.injEq] at h
    subst h
    exact traffic_sendNextIfAny env s queueId
  | awaitSync j => simp [runFrame] at h

theorem silent_waitCookieMsg (env : Env) (s : State) (cb : UserCb) :
    Silent s (waitCookieMsg env s cb) := by
  unfold waitCookieMsg
  split
  · exact ⟨rfl, rfl, rfl, rfl⟩
  · exact silent_runUserCb s cb false none

theorem silent_waitForServiceMessagesCompleted (s : State) (cb : UserCb) (timeout : Nat) :
    Silent s (waitForServiceMessagesCompleted s cb timeout) := by
  unfold waitForServiceMessagesCompleted
  split
  · exact silent_runUserCb s cb false none
  · exact ⟨rfl, rfl, rfl, rfl⟩

theorem silent_timeoutFires (s : State) (w : Waiter) : Silent s (timeoutFires s w) :=
  (silent_same (s := s)
    (t := { s with waiters := s.waiters.map fun x =>
                     if x.id = w.id then { x with timeoutDue := none, intervalDue := none }
                     else x }) rfl rfl rfl rfl).next
    (silent_runUserCb _ w.callback false none)

theorem silent_intervalFires (s : State) (w : Waiter) (due : Nat) :
    Silent s (intervalFires s w due) := by
  unfold intervalFires
  split
  · exact silent_timeoutFires s w
  · exact ⟨rfl, rfl, rfl, rfl⟩

theorem silent_runJob (s : State) (b : Batch) : Silent s (runJob s b) :=
  (silent_append (s := s) (o := Obs.reaction b.id)
    (t := { s with batches := s.batches.map fun x =>
                     if x.id = b.id then { x with fired := true } else x
                   history := s.history ++ [Obs.reaction b.id] }) rfl rfl rfl rfl rfl).next
    (silent_runUserCb _ b.callback true none)

theorem countP_eq_zero_of_lt {α : Type} (l : List α) (f : α → Nat) (q : α → Bool) (n : Nat)
    (h : ∀ x ∈ l, f x < n) : l.countP (fun x => f x = n && q x) = 0 := by
  rw [List.countP_eq_zero]
  intro x hx
  have := h x hx
  simp
  omega

theorem kinv_init (store : Option (List Msg)) : KInv (init store) :=
  ⟨by simp [init], by simp [init, requestsIssued], by simp [init, requestsIssued],
   by simp [init, firstAttempts, forcedIssued, requestsIssued],
   by simp [init, firstIssued, requestsIssued]⟩

theorem Silent.keepsKInv {s t : State} (h : Silent s t) (k : KInv s) : KInv t := by
  refine ⟨?_, ?_, ?_, ?_, ?_⟩
  · rw [h.inflight, h.nextCall]; exact k.inflight
  · rw [h.issued, h.nextCall]; exact k.issued
  · rw [h.issued]; exact k.forcedSync
  · intro call
    simp only [firstAttempts, forcedIssued, h.inflight, h.issued]
    exact k.once call
  · intro call
    simp only [firstIssued, h.issued]
    exact k.first call

theorem Traffic.preservesKInv {s t : State} (h : Traffic s t) (k : KInv s) : KInv t := by
  cases h with
  | silent h => exact h.keepsKInv k
  | cleared hi hc hr hst =>
    refine ⟨?_, ?_, ?_, ?_, ?_⟩
    · rw [hi, hc]; exact k.inflight
    · rw [hr, hc]; exact k.issued
    · rw [hr]; exact k.forcedSync
    · intro call
      simp only [firstAttempts, forcedIssued, hi, hr]
      exact k.once call
    · intro call
      simp only [firstIssued, hr]
      exact k.first call
  | fresh r hi hcall hf hc hr hst =>
    have hz1 : ∀ q : Request → Bool,
        s.inflight.countP (fun x => x.call = s.nextCall && q x) = 0 :=
      fun q => countP_eq_zero_of_lt _ _ q _ k.inflight
    have hz2 : ∀ q : Nat × Bool × Bool → Bool,
        (requestsIssued s.history).countP (fun x => x.1 = s.nextCall && q x) = 0 :=
      fun q => countP_eq_zero_of_lt _ _ q _ k.issued
    refine ⟨?_, ?_, ?_, ?_, ?_⟩
    · intro x hx
      rw [hi] at hx
      rw [hc]
      rcases List.mem_append.1 hx with h1 | h1
      · have := k.inflight x h1; omega
      · simp at h1; subst h1; omega
    · intro x hx
      rw [hr] at hx
      rw [hc]
      rcases List.mem_append.1 hx with h1 | h1
      · have := k.issued x h1; omega
      · simp at h1; subst h1; simp; omega
    · intro x hx hforced
      rw [hr] at hx
      rcases List.mem_append.1 hx with h1 | h1
      · exact k.forcedSync x h1 hforced
      · simp at h1; subst h1; simp [hf] at hforced
    · intro call
      have h0 := k.once call
      simp only [firstAttempts, forcedIssued] at h0 ⊢
      rw [hi, hr]
      simp only [List.countP_append, List.countP_cons, List.countP_nil, hf, hcall]
      by_cases hcl : s.nextCall = call
      · subst hcl
        have e1 := hz1 (fun x => !x.forced)
        have e2 := hz2 (fun x => x.2.1)
        simp only [e1, e2]
        simp
      · simp [hcl]
        exact h0
    · intro call
      have h0 := k.first call
      simp only [firstIssued] at h0 ⊢
      rw [hr]
      simp only [List.countP_append, List.countP_cons, List.countP_nil, hf, hcall]
      by_cases hcl : s.nextCall = call
      · subst hcl
        have e2 := hz2 (fun x => !x.2.1)
        simp only [e2]
        simp
      · simp [hcl]
        exact h0

theorem takeRequest_mem (id : Nat) :
    ∀ (l : List Request) (r : Request) (rest : List Request),
      takeRequest id l = some (r, rest) → r ∈ l ∧ r.id = id ∧ ∀ x ∈ rest, x ∈ l := by
  intro l
  induction l with
  | nil => intro r rest h; simp [takeRequest] at h
  | cons x xs ih =>
    intro r rest h
    unfold takeRequest at h
    split at h
    next hx =>
      simp at h
      obtain ⟨h1, h2⟩ := h
      subst h1 h2
      exact ⟨by simp, hx, fun y hy => by simp [hy]⟩
    next hx =>
      cases ht : takeRequest id xs with
      | none => simp [ht] at h
      | some p1 =>
        obtain ⟨y, rest1⟩ := p1
        simp [ht] at h
        obtain ⟨h1, h2⟩ := h
        subst h1 h2
        obtain ⟨g1, g2, g3⟩ := ih y rest1 ht
        refine ⟨by simp [g1], g2, ?_⟩
        intro z hz
        simp at hz
        rcases hz with hz | hz
        · simp [hz]
        · simp [g3 z hz]

theorem kinv_remove (s : State) (id : Nat) (r : Request) (rest : List Request)
    (frames : List Action) (k : KInv s) (ht : takeRequest id s.inflight = some (r, rest)) :
    KInv { s with inflight := rest, stack := frames } := by
  obtain ⟨_, _, hsub⟩ := takeRequest_mem id _ _ _ ht
  refine ⟨fun x hx => k.inflight x (hsub x hx), k.issued, k.forcedSync, ?_, k.first⟩
  intro call
  have h0 := k.once call
  have hc := takeRequest_countP (fun r => r.call = call && !r.forced) id _ _ _ ht
  simp only [firstAttempts] at h0 ⊢
  omega

theorem kinv_resend (s : State) (id : Nat) (r : Request) (rest : List Request)
    (frames : List Action) (k : KInv s) (ht : takeRequest id s.inflight = some (r, rest))
    (hf : r.forced = false) :
    KInv (sendMsg { s with inflight := rest, stack := frames } r.call r.msg r.callback true) := by
  obtain ⟨hmem, _, hsub⟩ := takeRequest_mem id _ _ _ ht
  have hr : requestsIssued
      (sendMsg { s with inflight := rest, stack := frames } r.call r.msg r.callback true).history =
      requestsIssued s.history ++ [(r.call, true, false)] := by
    simp [sendMsg, requestsIssued, List.filterMap_append, Obs.requestOf]
  refine ⟨?_, ?_, ?_, ?_, ?_⟩
  · intro x hx
    simp only [sendMsg] at hx
    rcases List.mem_append.1 hx with h1 | h1
    · exact k.inflight x (hsub x h1)
    · simp at h1; subst h1; exact k.inflight r hmem
  · intro x hx
    rw [hr] at hx
    rcases List.mem_append.1 hx with h1 | h1
    · exact k.issued x h1
    · simp at h1; subst h1; exact k.inflight r hmem
  · intro x hx hforced
    rw [hr] at hx
    rcases List.mem_append.1 hx with h1 | h1
    · exact k.forcedSync x h1 hforced
    · simp at h1; subst h1; rfl
  · intro call
    have h0 := k.once call
    have hc := takeRequest_countP (fun r => r.call = call && !r.forced) id _ _ _ ht
    simp only [firstAttempts, forcedIssued] at h0 ⊢
    rw [hr]
    simp only [sendMsg, List.countP_append, List.countP_cons, List.countP_nil]
    simp only [hf] at hc
    by_cases hcl : r.call = call
    · simp [hcl] at hc ⊢
      omega
    · simp [hcl] at hc ⊢
      omega
  · intro call
    have h0 := k.first call
    simp only [firstIssued] at h0 ⊢
    rw [hr]
    simpa [List.countP_append, List.countP_cons] using h0

/-- What the listeners of a request do with a signal: nothing, `msgCallback`,
or, for a first attempt, `errorHandler`. -/
theorem onSignal_cases (env : Env) (s : State) (r : Request) (signal : Signal) :
    onSignal env s r signal = s ∨ (∃ res, onSignal env s r signal = msgCallback s r res) ∨
      (r.forced = false ∧ onSignal env s r signal = errorHandler env s r) := by
  unfold onSignal
  cases hf : r.forced with
  | true =>
    simp only [if_true]
    split
    · split
      · exact Or.inl rfl
      · exact Or.inr (Or.inl ⟨none, rfl⟩)
    · exact Or.inl rfl
  | false =>
    simp only [Bool.false_eq_true, if_false]
    split
    · split
      · split
        · exact Or.inl rfl
        · rename_i status response _
          cases status with
          | none => exact Or.inr (Or.inr ⟨trivial, by simp⟩)
          | some n =>
            by_cases h200 : n = 200
            · exact Or.inr (Or.inl ⟨response, by simp [h200]⟩)
            · exact Or.inl (by simp [h200])
      · exact Or.inl rfl
    · split
      · exact Or.inr (Or.inl ⟨_, rfl⟩)
      · exact Or.inr (Or.inr ⟨trivial, rfl⟩)
      · exact Or.inr (Or.inr ⟨trivial, rfl⟩)
      · exact Or.inr (Or.inr ⟨trivial, rfl⟩)
      · exact Or.inl rfl

theorem kinv_onSignal (env : Env) (s : State) (id : Nat) (r : Request) (rest : List Request)
    (frames : List Action) (signal : Signal) (k : KInv s)
    (ht : takeRequest id s.inflight = some (r, rest)) :
    KInv (onSignal env { s with inflight := rest, stack := frames } r signal) := by
  have k0 := kinv_remove s id r rest frames k ht
  rcases onSignal_cases env { s with inflight := rest, stack := frames } r signal with
    h | ⟨res, h⟩ | ⟨hf, h⟩
  · rw [h]; exact k0
  · rw [h]; exact (silent_msgCallback _ r res).keepsKInv k0
  · rw [h]
    unfold errorHandler
    split
    · exact (silent_msgCallback _ r none).keepsKInv (kinv_storeMessage _ r.msg k0)
    · exact kinv_resend s id r rest frames k ht hf

theorem step_kinv (env : Env) (s t : State) (e : Event) (k : KInv s)
    (hstep : step env s e = some t) : KInv t := by
  have hf := step_fired env s t e hstep
  cases hf with
  | frame a frames t hs h =>
    exact (Traffic.after (silent_same (s := s) (t := { s with stack := frames }) rfl rfl rfl rfl)
      (traffic_runFrame env _ t a h)).preservesKInv k
  | ignored id signal r rest ht hc => exact k
  | signal id signal r rest frames ht hc hs => exact kinv_onSignal env s id r rest frames signal k ht
  | call c hs => exact (traffic_perform env s c).preservesKInv k
  | waitCookieMsg cb hs => exact (silent_waitCookieMsg env s cb).keepsKInv k
  | waitForServiceMessagesCompleted cb timeout hs =>
    exact (silent_waitForServiceMessagesCompleted s cb timeout).keepsKInv k
  | job batch b hs hb hd => exact (silent_runJob s b).keepsKInv k
  | elapse dt hs => exact Silent.keepsKInv (silent_same (by rfl) (by rfl) (by rfl) (by rfl)) k
  | timeout waiter w due hs hw hdue hle => exact (silent_timeoutFires s w).keepsKInv k
  | interval waiter w due hs hw hdue hle => exact (silent_intervalFires s w due).keepsKInv k
  | beforeunload hs => exact Silent.keepsKInv (silent_same (by rfl) (by rfl) (by rfl) (by rfl)) k
  | switchBack due rest hs hsb hle => exact Silent.keepsKInv (silent_same (by rfl) (by rfl) (by rfl) (by rfl)) k

theorem run_kinv (env : Env) (events : List Event) :
    ∀ (s t : State), KInv s → run env s events = some t → KInv t := by
  induction events with
  | nil =>
    intro s t k hrun
    simp [run] at hrun
    subst hrun
    exact k
  | cons e es ih =>
    intro s t k hrun
    simp only [run] at hrun
    cases hstep : step env s e with
    | none => simp [hstep] at hrun
    | some s1 =>
      simp only [hstep] at hrun
      exact ih s1 t (step_kinv env s s1 e k hstep) hrun

theorem requestsOf_length (call : Nat) (h : List Obs) :
    (requestsOf call h).length = firstIssued call h + forcedIssued call h := by
  simp only [requestsOf, firstIssued, forcedIssued]
  induction requestsIssued h with
  | nil => rfl
  | cons x xs ih =>
    obtain ⟨c, f, a⟩ := x
    by_cases hc : c = call <;> cases f <;>
      simp [List.filter_cons, List.countP_cons, hc, ih] <;> omega

theorem onSignal_fails (env : Env) (s : State) (r : Request) (signal : Signal)
    (hf : r.forced = false) (hfail : signal.fails env = true) :
    onSignal env s r signal = errorHandler env s r ∧ completes env r signal = true := by
  unfold onSignal
  cases signal with
  | load res => simp [Signal.fails] at hfail
  | abort =>
    have : env.isIE9 = false := by simpa [Signal.fails] using hfail
    simp [hf, this, completes]
  | error =>
    have : env.isIE9 = false := by simpa [Signal.fails] using hfail
    simp [hf, this, completes]
  | timeout =>
    have : env.isIE9 = false := by simpa [Signal.fails] using hfail
    simp [hf, this, completes]
  | readystatechange readyState status res =>
    simp only [Signal.fails, Bool.and_eq_true, decide_eq_true_eq] at hfail
    obtain ⟨⟨h1, h2⟩, h3⟩ := hfail
    cases status with
    | some n => simp at h3
    | none => simp [hf, h1, h2, completes]

theorem silent_onSignal_forced (env : Env) (s : State) (r : Request) (signal : Signal)
    (hf : r.forced = true) : Silent s (onSignal env s r signal) := by
  rcases onSignal_cases env s r signal with h | ⟨res, h⟩ | ⟨hf1, _⟩
  · rw [h]; exact Silent.still s
  · rw [h]; exact silent_msgCallback s r res
  · rw [hf] at hf1; exact absurd hf1 (by simp)

/-- C9: in every reachable state, an invocation of `asyncServiceMsg` has
issued at most two requests, at most one of them a first attempt and at most
one forced, and every forced request is synchronous whatever the mode flag;
on a non-WebKit engine the failure of a first attempt (abort, error or
timeout) issues exactly one further request, forced and synchronous, for the
same message and callback; and the signals of a forced request issue no
request. -/
theorem failed_first_attempt_is_retried_once (env : Env) (store : Option (List Msg))
    (events : List Event) (s : State) (hrun : run env (init store) events = some s) :
    (∀ call, (requestsOf call s.history).length ≤ 2 ∧ firstIssued call s.history ≤ 1 ∧
      forcedIssued call s.history ≤ 1) ∧
    (∀ x ∈ requestsIssued s.history, x.2.1 = true → x.2.2 = false) ∧
    (env.isWebKit = false → ∀ id signal r rest t,
      takeRequest id s.inflight = some (r, rest) → r.forced = false →
      signal.fails env = true → step env s (Event.xhr id signal) = some t →
      t.history = s.history ++ [Obs.request r.call s.nextId true false] ∧
      t.inflight = rest ++ [{ id := s.nextId, call := r.call, msg := r.msg, forced := true
                              async := false, callback := r.callback }]) ∧
    (∀ id signal r rest t, takeRequest id s.inflight = some (r, rest) → r.forced = true →
      step env s (Event.xhr id signal) = some t →
      requestsIssued t.history = requestsIssued s.history) := by
  have k := run_kinv env events (init store) s (kinv_init store) hrun
  refine ⟨?_, k.forcedSync, ?_, ?_⟩
  · intro call
    have h1 := k.first call
    have h2 := k.once call
    have h3 := requestsOf_length call s.history
    refine ⟨by omega, h1, by omega⟩
  · intro hw id signal r rest t ht hf hfail hstep
    have hfired := step_fired env s t _ hstep
    cases hfired with
    | ignored id signal r1 rest1 ht1 hc =>
      rw [ht] at ht1
      simp only [Option.some.injEq, Prod.mk.injEq] at ht1
      obtain ⟨e1, e2⟩ := ht1
      subst e1 e2
      rw [(onSignal_fails env s r signal hf hfail).2] at hc
      exact absurd hc (by simp)
    | signal id signal r1 rest1 frames ht1 hc hs =>
      rw [ht] at ht1
      simp only [Option.some.injEq, Prod.mk.injEq] at ht1
      obtain ⟨e1, e2⟩ := ht1
      subst e1 e2
      rw [(onSignal_fails env _ r signal hf hfail).1]
      simp [errorHandler, hw, sendMsg]
  · intro id signal r rest t ht hf hstep
    have hfired := step_fired env s t _ hstep
    cases hfired with
    | ignored id signal r1 rest1 ht1 hc => rfl
    | signal id signal r1 rest1 frames ht1 hc hs =>
      rw [ht] at ht1
      simp only [Option.some.injEq, Prod.mk.injEq] at ht1
      obtain ⟨e1, e2⟩ := ht1
      subst e1 e2
      exact (silent_onSignal_forced env _ r signal hf).issued

/-- Witness of C9: a message whose first attempt fails on a non-WebKit
engine: two requests, the second forced and synchronous. -/
theorem failed_first_attempt_is_retried_once_witness :
    run sampleEnv (init none) retryEvents = some retryState ∧
    requestsOf 0 retryState.history = [(0, false, true), (0, true, false)] ∧
    (∀ call, (requestsOf call retryState.history).length ≤ 2 ∧
      firstIssued call retryState.history ≤ 1 ∧ forcedIssued call retryState.history ≤ 1) :=
  ⟨rfl, by decide,
   (failed_first_attempt_is_retried_once sampleEnv none retryEvents retryState rfl).1⟩

/-! ### The persistent store -/

theorem spliceFirst_countP (cmd x : Cmd) (l : List Msg) :
    (spliceFirst cmd l).countP (fun m => m.cmd = x) =
      if x = cmd then l.countP (fun m => m.cmd = x) - 1 else l.countP (fun m => m.cmd = x) := by
  induction l with
  | nil => simp [spliceFirst]
  | cons m ms ih =>
    simp only [spliceFirst]
    by_cases hm : m.cmd = cmd
    · by_cases hx : x = cmd
      · subst hx
        simp [hm, List.countP_cons]
      · have : ¬ m.cmd = x := by rw [hm]; exact fun h => hx h.symm
        have hx1 : ¬ cmd = x := fun h => hx h.symm
        simp [hm, hx, hx1, List.countP_cons]
    · by_cases hx : x = cmd
      · subst hx
        simp only [hm, if_false, List.countP_cons, ih, if_true]
        simp [hm]
      · simp only [hm, if_false, List.countP_cons, ih, hx]

theorem Silent.keepsLoad {s t : State} (h : Silent s t) (cmd : Cmd) :
    storedFor cmd t + inflightFor cmd t = storedFor cmd s + inflightFor cmd s := by
  simp only [storedFor, inflightFor, _getStoredMessages, h.store, h.inflight]

theorem Traffic.boundsLoad {s t : State} (h : Traffic s t)
    (hload : ∀ cmd, storedFor cmd s + inflightFor cmd s ≤ 1)
    (hone : ∀ cmd, inflightFor cmd t ≤ 1) (cmd : Cmd) :
    storedFor cmd t + inflightFor cmd t ≤ 1 := by
  cases h with
  | silent h => rw [h.keepsLoad]; exact hload cmd
  | cleared hi hc hr hst =>
    have h0 := hload cmd
    simp only [storedFor, inflightFor, _getStoredMessages, hst, hi] at h0 ⊢
    simp
    omega
  | fresh r hi hcall hf hc hr hst =>
    have h0 := hload cmd
    have h1 := hone cmd
    have e1 : storedFor cmd t =
        if cmd = r.msg.cmd then storedFor cmd s - 1 else storedFor cmd s := by
      simp only [storedFor]
      rw [show _getStoredMessages t = spliceFirst r.msg.cmd (_getStoredMessages s) by
        simp only [_getStoredMessages, hst]]
      exact spliceFirst_countP r.msg.cmd cmd (_getStoredMessages s)
    have e2 : inflightFor cmd t = inflightFor cmd s + if r.msg.cmd = cmd then 1 else 0 := by
      simp [inflightFor, hi, List.countP_append, List.countP_cons]
    by_cases hc1 : cmd = r.msg.cmd
    · have hc2 : r.msg.cmd = cmd := hc1.symm
      simp only [hc1, if_true] at e1 e2
      rw [hc1] at h0 h1 ⊢
      omega
    · have hc2 : ¬ r.msg.cmd = cmd := fun h => hc1 h.symm
      simp only [hc1, hc2, if_false] at e1 e2
      omega

theorem onSignal_keepsLoad (env : Env) (s : State) (id : Nat) (r : Request)
    (rest : List Request) (frames : List Action) (signal : Signal)
    (ht : takeRequest id s.inflight = some (r, rest)) (cmd : Cmd) :
    storedFor cmd (onSignal env { s with inflight := rest, stack := frames } r signal) +
      inflightFor cmd (onSignal env { s with inflight := rest, stack := frames } r signal) ≤
    storedFor cmd s + inflightFor cmd s := by
  have hc : inflightFor cmd s =
      (if r.msg.cmd = cmd then 1 else 0) + rest.countP (fun r => r.msg.cmd = cmd) := by
    have := takeRequest_countP (fun r => r.msg.cmd = cmd) id _ _ _ ht
    simpa [inflightFor] using this
  have hs0 : storedFor cmd { s with inflight := rest, stack := frames } = storedFor cmd s := rfl
  have hi0 : inflightFor cmd { s with inflight := rest, stack := frames } =
      rest.countP (fun r => r.msg.cmd = cmd) := rfl
  rcases onSignal_cases env { s with inflight := rest, stack := frames } r signal with
    h | ⟨res, h⟩ | ⟨hf, h⟩
  · rw [h]; omega
  · rw [h, (silent_msgCallback _ r res).keepsLoad]; omega
  · rw [h]
    unfold errorHandler
    split
    · rw [(silent_msgCallback _ r none).keepsLoad]
      have e1 : storedFor cmd (_storeMessage { s with inflight := rest, stack := frames } r.msg) =
          storedFor cmd s + if r.msg.cmd = cmd then 1 else 0 := by
        simp [storedFor, _storeMessage, _getStoredMessages, List.countP_append,
          List.countP_cons]
      have e2 : inflightFor cmd (_storeMessage { s with inflight := rest, stack := frames } r.msg) =
          rest.countP (fun r => r.msg.cmd = cmd) := rfl
      omega
    · have e1 : storedFor cmd
          (sendMsg { s with inflight := rest, stack := frames } r.call r.msg r.callback true) =
          storedFor cmd s := rfl
      have e2 : inflightFor cmd
          (sendMsg { s with inflight := rest, stack := frames } r.call r.msg r.callback true) =
          rest.countP (fun r => r.msg.cmd = cmd) + if r.msg.cmd = cmd then 1 else 0 := by
        simp [inflightFor, sendMsg, List.countP_append, List.countP_cons]
      omega

theorem step_keepsLoad (env : Env) (s t : State) (e : Event)
    (hload : ∀ cmd, storedFor cmd s + inflightFor cmd s ≤ 1)
    (hstep : step env s e = some t) (hone : ∀ cmd, inflightFor cmd t ≤ 1) (cmd : Cmd) :
    storedFor cmd t + inflightFor cmd t ≤ 1 := by
  have hf := step_fired env s t e hstep
  cases hf with
  | frame a frames t hs h =>
    exact (Traffic.after (silent_same (s := s) (t := { s with stack := frames }) rfl rfl rfl rfl)
      (traffic_runFrame env _ t a h)).boundsLoad hload hone cmd
  | ignored id signal r rest ht hc => exact hload cmd
  | signal id signal r rest frames ht hc hs =>
    exact le_trans (onSignal_keepsLoad env s id r rest frames signal ht cmd) (hload cmd)
  | call c hs => exact (traffic_perform env s c).boundsLoad hload hone cmd
  | waitCookieMsg cb hs => rw [(silent_waitCookieMsg env s cb).keepsLoad]; exact hload cmd
  | waitForServiceMessagesCompleted cb timeout hs =>
    rw [(silent_waitForServiceMessagesCompleted s cb timeout).keepsLoad]; exact hload cmd
  | job batch b hs hb hd => rw [(silent_runJob s b).keepsLoad]; exact hload cmd
  | elapse dt hs => exact hload cmd
  | timeout waiter w due hs hw hdue hle =>
    rw [(silent_timeoutFires s w).keepsLoad]; exact hload cmd
  | interval waiter w due hs hw hdue hle =>
    rw [(silent_intervalFires s w due).keepsLoad]; exact hload cmd
  | beforeunload hs => exact hload cmd
  | switchBack due rest hs hsb hle => exact hload cmd

/-- C7, counterexample: on WebKit two messages of command 1 sent through
`asyncServiceMsg` are in flight together and both fail; the store, which held
no record, ends with two records of command 1. -/
theorem store_holds_two_records_of_one_cmd :
    storedFor 1 (init none) = 0 ∧
    (run webKitEnv (init none) concurrentEvents).map
      (fun s => (storedFor 1 s, (_getStoredMessages s).map (fun m => (m.cmd, m.payload)))) =
    some (2, [(1, 10), (1, 11)]) :=
  ⟨rfl, rfl⟩

/-- C7, amended: when for each `cmd` the stored records and the requests in
flight number at most one together, a step of the transport that leaves at
most one request per `cmd` in flight keeps it so, and the store holds at most
one record per `cmd`.  `asyncServiceMsg` takes one record with the `cmd` of
its message out of the store when the send starts, and `_storeMessage` appends
its message to the stored list without removing any. -/
theorem store_keeps_one_record_per_cmd (env : Env) (s t : State) (e : Event)
    (hload : ∀ cmd, storedFor cmd s + inflightFor cmd s ≤ 1)
    (hstep : step env s e = some t) (hone : ∀ cmd, inflightFor cmd t ≤ 1) :
    (∀ cmd, storedFor cmd t + inflightFor cmd t ≤ 1) ∧ (∀ cmd, storedFor cmd t ≤ 1) ∧
    (∀ (msg : Msg) (cb : SendCb) (cmd : Cmd),
      storedFor cmd (asyncServiceMsg env s msg cb) =
        if cmd = msg.cmd then storedFor cmd s - 1 else storedFor cmd s) ∧
    (∀ msg : Msg, _getStoredMessages (_storeMessage s msg) = _getStoredMessages s ++ [msg]) := by
  have h := step_keepsLoad env s t e hload hstep hone
  refine ⟨h, fun cmd => by have := h cmd; omega, ?_, fun msg => rfl⟩
  intro msg cb cmd
  have hsp := spliceFirst_countP msg.cmd cmd (_getStoredMessages s)
  have e : _getStoredMessages (asyncServiceMsg env s msg cb) =
      spliceFirst msg.cmd (_getStoredMessages s) := by
    simp [asyncServiceMsg, sendMsg, _removeMessageFromStore, _getStoredMessages]
  simp only [storedFor, e]
  exact hsp

/-- Witness of the amended C7: on WebKit the request of the one message in
flight fails, and the message is the one record of its command. -/
theorem store_keeps_one_record_per_cmd_witness :
    (∀ cmd, storedFor cmd oneInFlight + inflightFor cmd oneInFlight ≤ 1) ∧
    (∃ t, step webKitEnv oneInFlight (Event.xhr 0 Signal.error) = some t ∧
      (∀ cmd, inflightFor cmd t ≤ 1) ∧ (∀ cmd, storedFor cmd t ≤ 1) ∧ storedFor 1 t = 1) := by
  have hload : ∀ cmd, storedFor cmd oneInFlight + inflightFor cmd oneInFlight ≤ 1 := by
    intro cmd
    simp [storedFor, inflightFor, oneInFlight, asyncServiceMsg, sendMsg,
      _removeMessageFromStore, _getStoredMessages, spliceFirst, init, stamp, webKitEnv,
      sampleEnv, sampleMsg, List.countP_cons]
    split <;> simp
  refine ⟨hload, (step webKitEnv oneInFlight (Event.xhr 0 Signal.error)).getD oneInFlight,
    rfl, ?_, ?_, rfl⟩
  · intro cmd
    simp [inflightFor, oneInFlight, step, xhr, takeRequest, asyncServiceMsg, sendMsg, init,
      completes, onSignal, errorHandler, webKitEnv, sampleEnv, msgCallback, runSendCb,
      runUserCb, _storeMessage, _removeMessageFromStore]
  · exact (store_keeps_one_record_per_cmd webKitEnv oneInFlight _ (Event.xhr 0 Signal.error)
      hload rfl (by
        intro cmd
        simp [inflightFor, oneInFlight, step, xhr, takeRequest, asyncServiceMsg, sendMsg, init,
          completes, onSignal, errorHandler, webKitEnv, sampleEnv, msgCallback, runSendCb,
          runUserCb, _storeMessage, _removeMessageFromStore])).2.1

/-! ### The promises resolved belong to batches created -/

theorem itemCb_olderThan_mono {n m : Nat} {cb : ItemCb} (h : cb.olderThan n) (hnm : n ≤ m) :
    cb.olderThan m := by
  cases cb with
  | user u => trivial
  | resolve batch index => exact lt_of_lt_of_le h hnm

theorem sendCb_olderThan_mono {n m : Nat} {cb : SendCb} (h : cb.olderThan n) (hnm : n ≤ m) :
    cb.olderThan m := by
  cases cb with
  | user u => trivial
  | sync stored u => trivial
  | queued queueId item => exact @itemCb_olderThan_mono _ _ item h hnm

theorem action_olderThan_mono {n m : Nat} {a : Action} (h : a.olderThan n) (hnm : n ≤ m) :
    a.olderThan m := by
  cases a <;> first | trivial | exact lt_of_lt_of_le h hnm

theorem obs_olderThan_mono {n m : Nat} {o : Obs} (h : o.olderThan n) (hnm : n ≤ m) :
    o.olderThan m := by
  cases o <;> first | trivial | exact lt_of_lt_of_le h hnm

theorem winv_of {s t : State} (h : WInv s) (hn : s.nextId ≤ t.nextId)
    (hst : ∀ a ∈ t.stack, a ∈ s.stack ∨ a.olderThan t.nextId)
    (hq : ∀ cmd, ∀ it ∈ t.msgQueue cmd, it ∈ s.msgQueue cmd ∨ it.callback.olderThan t.nextId)
    (hi : ∀ r ∈ t.inflight, r ∈ s.inflight ∨ r.callback.olderThan t.nextId)
    (hh : ∀ o ∈ t.history, o ∈ s.history ∨ o.olderThan t.nextId) : WInv t := by
  refine ⟨?_, ?_, ?_, ?_⟩
  · intro a ha
    rcases hst a ha with h1 | h1
    · exact action_olderThan_mono (h.stack a h1) hn
    · exact h1
  · intro cmd it hit
    rcases hq cmd it hit with h1 | h1
    · exact itemCb_olderThan_mono (h.queue cmd it h1) hn
    · exact h1
  · intro r hr
    rcases hi r hr with h1 | h1
    · exact sendCb_olderThan_mono (h.inflight r h1) hn
    · exact h1
  · intro o ho
    rcases hh o ho with h1 | h1
    · exact obs_olderThan_mono (h.history o h1) hn
    · exact h1

theorem winv_init (store : Option (List Msg)) : WInv (init store) :=
  ⟨by simp [init], by simp [init], by simp [init], by simp [init]⟩

theorem winv_pop {s : State} (frames : List Action) (h : WInv s)
    (hsub : ∀ a ∈ frames, a ∈ s.stack) : WInv { s with stack := frames } :=
  winv_of h (by exact le_rfl) (fun a ha => Or.inl (hsub a ha)) (fun _ _ hit => Or.inl hit)
    (fun _ hr => Or.inl hr) (fun _ ho => Or.inl ho)

theorem winv_runUserCb (s : State) (cb : UserCb) (g : Bool) (res : Response) (h : WInv s) :
    WInv (runUserCb s cb g res) := by
  cases cb with
  | absent =>
    cases g
    · exact winv_pop [] h (by simp)
    · exact h
  | fn tag body =>
    refine winv_of h (by exact le_rfl) ?_ (fun _ _ hit => Or.inl hit) (fun _ hr => Or.inl hr) ?_
    · intro a ha
      simp only [runUserCb, List.mem_append, List.mem_map] at ha
      rcases ha with ⟨c, _, rfl⟩ | ha
      · exact Or.inr trivial
      · exact Or.inl ha
    · intro o ho
      simp only [runUserCb, List.mem_append, List.mem_singleton] at ho
      rcases ho with ho | rfl
      · exact Or.inl ho
      · exact Or.inr trivial

theorem winv_resolveTask (s : State) (batch index : Nat) (h : WInv s)
    (hb : batch < s.nextId) : WInv (resolveTask s batch index) := by
  refine winv_of h (by exact le_rfl) (fun _ ha => Or.inl ha) (fun _ _ hit => Or.inl hit)
    (fun _ hr => Or.inl hr) ?_
  intro o ho
  simp only [resolveTask, List.mem_append, List.mem_singleton] at ho
  rcases ho with ho | rfl
  · exact Or.inl ho
  · exact Or.inr hb

theorem winv_runItemCb (s : State) (cb : ItemCb) (res : Response) (h : WInv s)
    (hcb : cb.olderThan s.nextId) : WInv (runItemCb s cb res) := by
  cases cb with
  | user u => exact winv_runUserCb s u true res h
  | resolve batch index => exact winv_resolveTask s batch index h hcb

theorem winv_runSendCb (s : State) (cb : SendCb) (res : Response) (h : WInv s)
    (hcb : cb.olderThan s.nextId) : WInv (runSendCb s cb res) := by
  cases cb with
  | user u => exact winv_runUserCb s u true res h
  | sync stored u =>
    exact winv_runUserCb _ u false res
      (winv_of h (by exact le_rfl) (fun _ ha => Or.inl ha) (fun _ _ hit => Or.inl hit)
        (fun _ hr => Or.inl hr) (fun _ ho => Or.inl ho))
  | queued queueId item =>
    refine winv_runItemCb _ item res ?_ hcb
    refine winv_of h (by exact le_rfl) ?_ (fun _ _ hit => Or.inl hit) (fun _ hr => Or.inl hr) ?_
    · intro a ha
      simp only [observe, List.mem_cons] at ha
      rcases ha with rfl | ha
      · exact Or.inr trivial
      · exact Or.inl ha
    · intro o ho
      simp only [observe, List.mem_append, List.mem_singleton] at ho
      rcases ho with ho | rfl
      · exact Or.inl ho
      · exact Or.inr trivial

theorem winv_msgCallback (s : State) (r : Request) (res : Response) (h : WInv s)
    (hcb : r.callback.olderThan s.nextId) : WInv (msgCallback s r res) := by
  refine winv_runSendCb _ r.callback res ?_ hcb
  refine winv_of h (by exact le_rfl) (fun _ ha => Or.inl ha) (fun _ _ hit => Or.inl hit)
    (fun _ hr => Or.inl hr) ?_
  intro o ho
  simp only [List.mem_append, List.mem_singleton] at ho
  rcases ho with ho | rfl
  · exact Or.inl ho
  · exact Or.inr trivial

theorem winv_sendMsg (s : State) (call : Nat) (msg : Msg) (cb : SendCb) (forced : Bool)
    (h : WInv s) (hcb : cb.olderThan s.nextId) : WInv (sendMsg s call msg cb forced) := by
  refine winv_of h (Nat.le_succ _) ?_ (fun _ _ hit => Or.inl hit) ?_ ?_
  · intro a ha
    have h1 : a ∈ s.stack ∨ a = Action.awaitSync s.nextId := by
      cases forced <;> cases hu : s.useAsyncXhr <;> simp [sendMsg, hu] at ha <;> tauto
    rcases h1 with h1 | rfl
    · exact Or.inl h1
    · exact Or.inr trivial
  · intro r hr
    simp only [sendMsg, List.mem_append, List.mem_singleton] at hr
    rcases hr with hr | rfl
    · exact Or.inl hr
    · exact Or.inr (sendCb_olderThan_mono hcb (Nat.le_succ _))
  · intro o ho
    simp only [sendMsg, List.mem_append, List.mem_singleton] at ho
    rcases ho with ho | rfl
    · exact Or.inl ho
    · exact Or.inr trivial

theorem winv_errorHandler (env : Env) (s : State) (r : Request) (h : WInv s)
    (hcb : r.callback.olderThan s.nextId) : WInv (errorHandler env s r) := by
  unfold errorHandler
  split
  · exact winv_msgCallback _ r none
      (winv_of h (by exact le_rfl) (fun _ ha => Or.inl ha) (fun _ _ hit => Or.inl hit)
        (fun _ hr => Or.inl hr) (fun _ ho => Or.inl ho)) hcb
  · exact winv_sendMsg s _ _ _ _ h hcb

theorem winv_onSignal (env : Env) (s : State) (r : Request) (signal : Signal) (h : WInv s)
    (hcb : r.callback.olderThan s.nextId) : WInv (onSignal env s r signal) := by
  rcases onSignal_cases env s r signal with h1 | ⟨res, h1⟩ | ⟨_, h1⟩
  · rw [h1]; exact h
  · rw [h1]; exact winv_msgCallback s r res h hcb
  · rw [h1]; exact winv_errorHandler env s r h hcb

theorem winv_asyncServiceMsg (env : Env) (s : State) (msg : Msg) (cb : SendCb) (h : WInv s)
    (hcb : cb.olderThan s.nextId) : WInv (asyncServiceMsg env s msg cb) := by
  refine winv_sendMsg _ _ _ _ _ ?_ hcb
  refine winv_of h (by exact le_rfl) (fun _ ha => Or.inl ha) (fun _ _ hit => Or.inl hit)
    (fun _ hr => Or.inl hr) ?_
  intro o ho
  simp only [_removeMessageFromStore, List.mem_append, List.mem_singleton] at ho
  rcases ho with ho | rfl
  · exact Or.inl ho
  · exact Or.inr trivial

theorem winv_sendNextQueuedMsg (env : Env) (s : State) (queueId : Cmd) (h : WInv s) :
    WInv (sendNextQueuedMsg env s queueId) := by
  unfold sendNextQueuedMsg
  split
  · exact winv_pop [] h (by simp)
  · rename_i queueItem rest hq
    refine winv_asyncServiceMsg env _ _ _ ?_ ?_
    · refine winv_of h (by exact le_rfl) (fun _ ha => Or.inl ha) (fun _ _ hit => Or.inl hit)
        (fun _ hr => Or.inl hr) ?_
      intro o ho
      simp only [observe, List.mem_append, List.mem_singleton] at ho
      rcases ho with ho | rfl
      · exact Or.inl ho
      · exact Or.inr trivial
    · exact h.queue queueId queueItem (by rw [hq]; exact List.mem_cons_self _ _)

theorem winv_queuedAsyncServiceMsg (env : Env) (s : State) (msg : Msg) (cb : ItemCb)
    (h : WInv s) (hcb : cb.olderThan s.nextId) :
    WInv (queuedAsyncServiceMsg env s msg cb) := by
  have h1 : WInv
      { s with msgQueue := fun c => if c = msg.cmd then
                 s.msgQueue msg.cmd ++ [{ msg := msg, callback := cb }] else s.msgQueue c
               history := s.history ++ [Obs.enqueued msg] } := by
    refine winv_of h (by exact le_rfl) (fun _ ha => Or.inl ha) ?_ (fun _ hr => Or.inl hr) ?_
    · intro cmd it hit
      simp only at hit
      split at hit
      · rename_i hc
        simp only [List.mem_append, List.mem_singleton] at hit
        rcases hit with hit | rfl
        · exact Or.inl (by rw [hc]; exact hit)
        · exact Or.inr hcb
      · exact Or.inl hit
    · intro o ho
      simp only [List.mem_append, List.mem_singleton] at ho
      rcases ho with ho | rfl
      · exact Or.inl ho
      · exact Or.inr trivial
  unfold queuedAsyncServiceMsg
  simp only []
  split
  · exact winv_sendNextQueuedMsg env _ _ h1
  · exact h1

theorem winv_syncServiceMsg (env : Env) (s : State) (msg : Msg) (cb : UserCb) (h : WInv s) :
    WInv (syncServiceMsg env s msg cb) :=
  winv_asyncServiceMsg env _ msg _
    (winv_of h (by exact le_rfl) (fun _ ha => Or.inl ha) (fun _ _ hit => Or.inl hit)
      (fun _ hr => Or.inl hr) (fun _ ho => Or.inl ho)) trivial

theorem replayFrames_olderThan (batch n : Nat) (hb : batch < n) :
    ∀ (L : List Msg) (i : Nat), ∀ a ∈ replayFrames batch i L, a.olderThan n := by
  intro L
  induction L with
  | nil => intro i a ha; simp [replayFrames] at ha
  | cons m ms ih =>
    intro i a ha
    simp only [replayFrames, List.mem_cons] at ha
    rcases ha with rfl | ha
    · exact hb
    · exact ih (i + 1) a ha

theorem winv_batchUpdate (s : State) (cb : UserCb) (h : WInv s) : WInv (batchUpdate s cb) := by
  unfold batchUpdate
  simp only []
  split
  · exact winv_runUserCb s cb false none h
  · refine winv_of h (Nat.le_succ _) ?_ (fun _ _ hit => Or.inl hit) (fun _ hr => Or.inl hr)
      (fun _ ho => Or.inl ho)
    intro a ha
    simp only [List.mem_append, List.mem_cons] at ha
    rcases ha with ha | rfl | ha
    · exact Or.inr (replayFrames_olderThan s.nextId (s.nextId + 1) (Nat.lt_succ_self _) _ 0 a ha)
    · exact Or.inr trivial
    · exact Or.inl ha

theorem winv_perform (env : Env) (s : State) (c : Call) (h : WInv s) :
    WInv (perform env s c) := by
  cases c with
  | queuedAsyncServiceMsg msg cb => exact winv_queuedAsyncServiceMsg env s msg _ h trivial
  | asyncServiceMsg msg cb => exact winv_asyncServiceMsg env s msg _ h trivial
  | syncServiceMsg msg cb => exact winv_syncServiceMsg env s msg cb h
  | batchUpdate cb => exact winv_batchUpdate s cb h

theorem winv_handler (env : Env) (s : State) (l : Listener) (h : WInv s) :
    WInv (handler env s l) := by
  unfold handler
  split
  · exact h
  · exact winv_runUserCb _ l.callback false none
      (winv_of h (by exact le_rfl) (fun _ ha => Or.inl ha) (fun _ _ hit => Or.inl hit)
        (fun _ hr => Or.inl hr) (fun _ ho => Or.inl ho))

theorem winv_sendNextIfAny (env : Env) (s : State) (queueId : Cmd) (h : WInv s) :
    WInv (sendNextIfAny env s queueId) := by
  unfold sendNextIfAny
  split
  · exact h
  · exact winv_sendNextQueuedMsg env s queueId h

theorem winv_advance (s : State) (queueId : Cmd) (h : WInv s) : WInv (advance s queueId) := by
  refine winv_of h (by exact le_rfl) ?_ ?_ (fun _ hr => Or.inl hr) (fun _ ho => Or.inl ho)
  · intro a ha
    simp only [advance, List.mem_append, List.mem_map, List.mem_cons] at ha
    rcases ha with ⟨l, _, rfl⟩ | rfl | ha
    · exact Or.inr trivial
    · exact Or.inr trivial
    · exact Or.inl ha
  · intro cmd it hit
    simp only [advance] at hit
    split at hit
    · exact Or.inl (List.mem_of_mem_tail hit)
    · exact Or.inl hit

theorem winv_thenAll (s : State) (batch : Nat) (h : WInv s) : WInv (thenAll s batch) :=
  winv_of h (by exact le_rfl) (fun _ ha => Or.inl ha) (fun _ _ hit => Or.inl hit)
    (fun _ hr => Or.inl hr) (fun _ ho => Or.inl ho)

theorem winv_runFrame (env : Env) (s t : State) (a : Action) (h : WInv s)
    (ha : a.olderThan s.nextId) (hrun : runFrame env s a = some t) : WInv t := by
  cases a with
  | call c =>
    simp only [runFrame, Option.some.injEq] at hrun
    subst hrun
    exact winv_perform env s c h
  | replay msg batch index =>
    simp only [runFrame, Option.some.injEq] at hrun
    subst hrun
    exact winv_queuedAsyncServiceMsg env s msg _ h ha
  | thenAll batch =>
    simp only [runFrame, Option.some.injEq] at hrun
    subst hrun
    exact winv_thenAll s batch h
  | advance queueId =>
    simp only [runFrame, Option.some.injEq] at hrun
    subst hrun
    exact winv_advance s queueId h
  | handler l =>
    simp only [runFrame, Option.some.injEq] at hrun
    subst hrun
    exact winv_handler env s l h
  | sendNextIfAny queueId =>
    simp only [runFrame, Option.some.injEq] at hrun
    subst hrun
    exact winv_sendNextIfAny env s queueId h
  | awaitSync j => simp [runFrame] at hrun

theorem winv_runJob (s : State) (b : Batch) (h : WInv s) : WInv (runJob s b) := by
  refine winv_runUserCb _ b.callback true none ?_
  refine winv_of h (by exact le_rfl) (fun _ ha => Or.inl ha) (fun _ _ hit => Or.inl hit)
    (fun _ hr => Or.inl hr) ?_
  intro o ho
  simp only [List.mem_append, List.mem_singleton] at ho
  rcases ho with ho | rfl
  · exact Or.inl ho
  · exact Or.inr trivial

theorem winv_waitCookieMsg (env : Env) (s : State) (cb : UserCb) (h : WInv s) :
    WInv (waitCookieMsg env s cb) := by
  unfold waitCookieMsg
  split
  · exact winv_of h (Nat.le_succ _) (fun _ ha => Or.inl ha) (fun _ _ hit => Or.inl hit)
      (fun _ hr => Or.inl hr) (fun _ ho => Or.inl ho)
  · exact winv_runUserCb s cb false none h

theorem winv_waitForServiceMessagesCompleted (s : State) (cb : UserCb) (timeout : Nat)
    (h : WInv s) : WInv (waitForServiceMessagesCompleted s cb timeout) := by
  unfold waitForServiceMessagesCompleted
  split
  · exact winv_runUserCb s cb false none h
  · exact winv_of h (Nat.le_succ _) (fun _ ha => Or.inl ha) (fun _ _ hit => Or.inl hit)
      (fun _ hr => Or.inl hr) (fun _ ho => Or.inl ho)

theorem winv_timeoutFires (s : State) (w : Waiter) (h : WInv s) : WInv (timeoutFires s w) :=
  winv_runUserCb _ w.callback false none
    (winv_of h (by exact le_rfl) (fun _ ha => Or.inl ha) (fun _ _ hit => Or.inl hit)
      (fun _ hr => Or.inl hr) (fun _ ho => Or.inl ho))

theorem winv_intervalFires (s : State) (w : Waiter) (due : Nat) (h : WInv s) :
    WInv (intervalFires s w due) := by
  unfold intervalFires
  split
  · exact winv_timeoutFires s w h
  · exact winv_of h (by exact le_rfl) (fun _ ha => Or.inl ha) (fun _ _ hit => Or.inl hit)
      (fun _ hr => Or.inl hr) (fun _ ho => Or.inl ho)

theorem step_winv (env : Env) (s t : State) (e : Event) (h : WInv s)
    (hstep : step env s e = some t) : WInv t := by
  have hf := step_fired env s t e hstep
  cases hf with
  | frame a frames t hs hrun =>
    exact winv_runFrame env _ t a
      (winv_pop frames h (fun x hx => by rw [hs]; exact List.mem_cons_of_mem _ hx))
      (h.stack a (by rw [hs]; exact List.mem_cons_self _ _)) hrun
  | ignored id signal r rest ht hc => exact h
  | signal id signal r rest frames ht hc hs =>
    have hr := takeRequest_mem id _ _ _ ht
    refine winv_onSignal env _ r signal ?_ (h.inflight r hr.1)
    refine winv_of h (by exact le_rfl) ?_ (fun _ _ hit => Or.inl hit)
      (fun x hx => Or.inl (hr.2.2 x hx)) (fun _ ho => Or.inl ho)
    intro a ha
    rcases hs with ⟨_, _, hfr⟩ | ⟨_, hst⟩
    · subst hfr
      simp at ha
    · exact Or.inl (by rw [hst]; exact List.mem_cons_of_mem _ ha)
  | call c hs => exact winv_perform env s c h
  | waitCookieMsg cb hs => exact winv_waitCookieMsg env s cb h
  | waitForServiceMessagesCompleted cb timeout hs =>
    exact winv_waitForServiceMessagesCompleted s cb timeout h
  | job batch b hs hb hd => exact winv_runJob s b h
  | elapse dt hs =>
    exact winv_of h (by exact le_rfl) (fun _ ha => Or.inl ha) (fun _ _ hit => Or.inl hit)
      (fun _ hr => Or.inl hr) (fun _ ho => Or.inl ho)
  | timeout waiter w due hs hw hdue hle => exact winv_timeoutFires s w h
  | interval waiter w due hs hw hdue hle => exact winv_intervalFires s w due h
  | beforeunload hs =>
    exact winv_of h (by exact le_rfl) (fun _ ha => Or.inl ha) (fun _ _ hit => Or.inl hit)
      (fun _ hr => Or.inl hr) (fun _ ho => Or.inl ho)
  | switchBack due rest hs hsb hle =>
    exact winv_of h (by exact le_rfl) (fun _ ha => Or.inl ha) (fun _ _ hit => Or.inl hit)
      (fun _ hr => Or.inl hr) (fun _ ho => Or.inl ho)

/-! ### Batches -/

theorem reactionAfterAll_append {batch tasks : Nat} {h : List Obs} {o : Obs}
    (hd : ReactionAfterAll batch tasks h) (ho : Obs.reactionOf batch o = false) :
    ReactionAfterAll batch tasks (h ++ [o]) := by
  intro h1 h2 heq i hi
  rcases List.eq_nil_or_concat h2 with rfl | ⟨l, b, rfl⟩
  · have h3 : h ++ [o] = h1 ++ [Obs.reaction batch] := by simpa using heq
    have h4 := List.append_inj_right' h3 rfl
    simp at h4
    subst h4
    simp [Obs.reactionOf] at ho
  · have h3 : h ++ [o] = (h1 ++ Obs.reaction batch :: l) ++ [b] := by simpa using heq
    have h4 := List.append_inj_left' h3 rfl
    exact hd h1 l h4 i hi

theorem reactionAfterAll_reaction {batch tasks : Nat} {h : List Obs}
    (hd : ReactionAfterAll batch tasks h) (hall : ∀ i, i < tasks → Obs.resolved batch i ∈ h) :
    ReactionAfterAll batch tasks (h ++ [Obs.reaction batch]) := by
  intro h1 h2 heq i hi
  rcases List.eq_nil_or_concat h2 with rfl | ⟨l, b, rfl⟩
  · have h3 : h ++ [Obs.reaction batch] = h1 ++ [Obs.reaction batch] := by simpa using heq
    have h5 := List.append_inj_left' h3 rfl
    subst h5
    exact hall i hi
  · have h3 : h ++ [Obs.reaction batch] = (h1 ++ Obs.reaction batch :: l) ++ [b] := by
      simpa using heq
    have h4 := List.append_inj_left' h3 rfl
    exact hd h1 l h4 i hi

theorem reactionAfterAll_extend {batch tasks : Nat} {h : List Obs} (hs : List Obs)
    (hd : ReactionAfterAll batch tasks h) (hfree : ∀ o ∈ hs, o.batchFree = true) :
    ReactionAfterAll batch tasks (h ++ hs) := by
  induction hs using List.reverseRecOn with
  | nil => simpa using hd
  | append_singleton l o ih =>
    rw [← List.append_assoc]
    apply reactionAfterAll_append
    · exact ih (fun x hx => hfree x (by simp [hx]))
    · have := hfree o (by simp)
      cases o <;> simp_all [Obs.batchFree, Obs.reactionOf]

theorem binv_init (store : Option (List Msg)) : BInv (init store) :=
  ⟨by simp [init], by simp [init], by simp [init, reactionsOf], by simp [init],
   by simp [init], by simp [init], by simp [init]⟩

/-- A step that leaves the batches as they are and records nothing about
them preserves the invariant. -/
theorem binv_steady {s t : State} (h : BInv s) (hb : t.batches = s.batches)
    (hn : s.nextId ≤ t.nextId) (hs : List Obs) (hh : t.history = s.history ++ hs)
    (hfree : ∀ o ∈ hs, o.batchFree = true) : BInv t := by
  have hcount : ∀ id, reactionsOf id t.history = reactionsOf id s.history := by
    intro id
    simp only [reactionsOf, hh, List.countP_append]
    have : hs.countP (Obs.reactionOf id) = 0 := by
      rw [List.countP_eq_zero]
      intro o ho
      have := hfree o ho
      cases o <;> simp_all [Obs.batchFree, Obs.reactionOf]
    omega
  have hord : ∀ batch tasks, ReactionAfterAll batch tasks s.history →
      ReactionAfterAll batch tasks (s.history ++ hs) :=
    fun batch tasks hr => reactionAfterAll_extend hs hr hfree
  refine ⟨?_, ?_, ?_, ?_, ?_, ?_, ?_⟩
  · intro b hb1
    rw [hb] at hb1
    exact lt_of_lt_of_le (h.fresh b hb1) hn
  · rw [hb]; exact h.nodup
  · intro id hid
    rw [hcount] at hid
    rw [hb]
    exact h.known id hid
  · intro b hb1
    rw [hb] at hb1
    rw [hcount]
    exact h.once b hb1
  · intro b hb1 i hi
    rw [hb] at hb1
    rcases h.tracked b hb1 i hi with h1 | h1
    · exact Or.inl h1
    · exact Or.inr (by rw [hh]; simp [h1])
  · intro b hb1
    rw [hb] at hb1
    rw [hh]
    exact hord _ _ (h.ordered b hb1)
  · intro b hb1 i hi
    rw [hb] at hb1
    refine ⟨(h.pending b hb1 i hi).1, ?_⟩
    rw [hh, List.mem_append]
    rintro (h1 | h1)
    · exact (h.pending b hb1 i hi).2 h1
    · simpa [Obs.batchFree] using hfree _ h1

theorem findBatch_mem {id : Nat} {bs : List Batch} {b : Batch}
    (h : findBatch id bs = some b) : b ∈ bs ∧ b.id = id := by
  unfold findBatch at h
  exact ⟨List.mem_of_find?_eq_some h, by simpa using List.find?_some h⟩

theorem reactionsOf_append (id : Nat) (h : List Obs) (o : Obs) :
    reactionsOf id (h ++ [o]) = reactionsOf id h + if Obs.reactionOf id o then 1 else 0 := by
  simp [reactionsOf, List.countP_append, List.countP_cons]

theorem binv_resolveTask (s : State) (batch index : Nat) (h : BInv s) :
    BInv (resolveTask s batch index) := by
  have hcount : ∀ id, reactionsOf id (resolveTask s batch index).history =
      reactionsOf id s.history := by
    intro id
    simp [resolveTask, reactionsOf_append, Obs.reactionOf]
  refine ⟨?_, ?_, ?_, ?_, ?_, ?_, ?_⟩
  · intro b hb
    simp only [resolveTask, List.mem_map] at hb
    obtain ⟨x, hx, rfl⟩ := hb
    have := h.fresh x hx
    split <;> exact this
  · have : ((resolveTask s batch index).batches.map fun b => b.id) =
        s.batches.map fun b => b.id := by
      simp only [resolveTask, List.map_map]
      apply List.map_congr_left
      intro x _
      simp only [Function.comp]
      split <;> rfl
    rw [this]
    exact h.nodup
  · intro id hid
    rw [hcount] at hid
    obtain ⟨b, hb, hbid⟩ := h.known id hid
    refine ⟨_, List.mem_map_of_mem _ hb, ?_⟩
    split <;> exact hbid
  · intro b hb
    simp only [resolveTask, List.mem_map] at hb
    obtain ⟨x, hx, rfl⟩ := hb
    have := h.once x hx
    rw [hcount]
    split <;> exact this
  · intro b hb i hi
    simp only [resolveTask, List.mem_map] at hb
    obtain ⟨x, hx, rfl⟩ := hb
    by_cases hxb : x.id = batch
    · simp only [hxb, if_true] at hi ⊢
      by_cases hidx : i = index
      · right
        subst hidx
        simp [resolveTask]
      · rcases h.tracked x hx i hi with h1 | h1
        · left
          simp [List.mem_filter, h1, hidx]
        · right
          simp only [resolveTask]
          rw [← hxb]
          simp [h1]
    · simp only [hxb, if_false] at hi ⊢
      rcases h.tracked x hx i hi with h1 | h1
      · exact Or.inl h1
      · right
        simp [resolveTask, h1]
  · intro b hb
    simp only [resolveTask, List.mem_map] at hb
    obtain ⟨x, hx, rfl⟩ := hb
    have h1 : ReactionAfterAll x.id x.tasks (resolveTask s batch index).history :=
      reactionAfterAll_append (h.ordered x hx) rfl
    split <;> exact h1
  · intro b hb i hi
    simp only [resolveTask, List.mem_map] at hb
    obtain ⟨x, hx, rfl⟩ := hb
    by_cases hxb : x.id = batch
    · simp only [hxb, if_true, List.mem_filter, decide_eq_true_eq] at hi ⊢
      have h1 := h.pending x hx i hi.1
      refine ⟨h1.1, ?_⟩
      simp only [resolveTask, List.mem_append, List.mem_singleton]
      rintro (h2 | h2)
      · rw [← hxb] at h2
        exact h1.2 h2
      · exact hi.2 (by injection h2)
    · simp only [hxb, if_false] at hi ⊢
      have h1 := h.pending x hx i hi
      refine ⟨h1.1, ?_⟩
      simp only [resolveTask, List.mem_append, List.mem_singleton]
      rintro (h2 | h2)
      · exact h1.2 h2
      · exact hxb (by injection h2)

theorem binv_thenAll (s : State) (batch : Nat) (h : BInv s) : BInv (thenAll s batch) := by
  refine ⟨?_, ?_, ?_, ?_, ?_, ?_, ?_⟩
  · intro b hb
    simp only [thenAll, List.mem_map] at hb
    obtain ⟨x, hx, rfl⟩ := hb
    have := h.fresh x hx
    split <;> exact this
  · have : ((thenAll s batch).batches.map fun b => b.id) = s.batches.map fun b => b.id := by
      simp only [thenAll, List.map_map]
      apply List.map_congr_left
      intro x _
      simp only [Function.comp]
      split <;> rfl
    rw [this]
    exact h.nodup
  · intro id hid
    obtain ⟨b, hb, hbid⟩ := h.known id hid
    refine ⟨_, List.mem_map_of_mem _ hb, ?_⟩
    split <;> exact hbid
  · intro b hb
    simp only [thenAll, List.mem_map] at hb
    obtain ⟨x, hx, rfl⟩ := hb
    have := h.once x hx
    split <;> exact this
  · intro b hb i hi
    simp only [thenAll, List.mem_map] at hb
    obtain ⟨x, hx, rfl⟩ := hb
    have h1 := h.tracked x hx i
    split at hi <;> split <;> exact h1 hi
  · intro b hb
    simp only [thenAll, List.mem_map] at hb
    obtain ⟨x, hx, rfl⟩ := hb
    have h1 := h.ordered x hx
    split <;> exact h1
  · intro b hb i hi
    simp only [thenAll, List.mem_map] at hb
    obtain ⟨x, hx, rfl⟩ := hb
    have h1 := h.pending x hx i
    split at hi <;> split <;> exact h1 hi

theorem binv_runUserCb (s : State) (cb : UserCb) (g : Bool) (res : Response) (h : BInv s) :
    BInv (runUserCb s cb g res) := by
  cases cb with
  | absent => cases g <;> exact binv_steady h (by rfl) (by exact le_rfl) [] (by simp [runUserCb, raise]) (by simp)
  | fn tag body =>
    exact binv_steady h (by rfl) (by exact le_rfl) [Obs.callback tag res] (by rfl) (by simp [Obs.batchFree])

theorem binv_runItemCb (s : State) (cb : ItemCb) (res : Response) (h : BInv s) :
    BInv (runItemCb s cb res) := by
  cases cb with
  | user u => exact binv_runUserCb s u true res h
  | resolve batch index => exact binv_resolveTask s batch index h

theorem binv_runSendCb (s : State) (cb : SendCb) (res : Response) (h : BInv s) :
    BInv (runSendCb s cb res) := by
  cases cb with
  | user u => exact binv_runUserCb s u true res h
  | sync stored u =>
    exact binv_runUserCb _ u false res
      (binv_steady h (by rfl) (by exact le_rfl) [] (by simp) (by simp))
  | queued queueId item =>
    exact binv_runItemCb _ item res
      (binv_steady h (by rfl) (by exact le_rfl) [Obs.completed queueId] (by rfl) (by simp [Obs.batchFree]))

theorem binv_msgCallback (s : State) (r : Request) (res : Response) (h : BInv s) :
    BInv (msgCallback s r res) :=
  binv_runSendCb _ r.callback res
    (binv_steady h (by rfl) (by exact le_rfl) [Obs.msgCallback r.call res] (by rfl) (by simp [Obs.batchFree]))

theorem binv_sendMsg (s : State) (call : Nat) (msg : Msg) (cb : SendCb) (forced : Bool)
    (h : BInv s) : BInv (sendMsg s call msg cb forced) :=
  binv_steady h (by rfl) (Nat.le_succ _) [Obs.request call s.nextId forced
    (if forced then false else s.useAsyncXhr)] (by rfl) (by simp [Obs.batchFree])

theorem binv_errorHandler (env : Env) (s : State) (r : Request) (h : BInv s) :
    BInv (errorHandler env s r) := by
  unfold errorHandler
  split
  · exact binv_msgCallback _ r none
      (binv_steady h (by rfl) (by exact le_rfl) [] (by simp [_storeMessage])
        (by simp))
  · exact binv_sendMsg s _ _ _ _ h

theorem binv_onSignal (env : Env) (s : State) (r : Request) (signal : Signal) (h : BInv s) :
    BInv (onSignal env s r signal) := by
  rcases onSignal_cases env s r signal with h1 | ⟨res, h1⟩ | ⟨_, h1⟩
  · rw [h1]; exact h
  · rw [h1]; exact binv_msgCallback s r res h
  · rw [h1]; exact binv_errorHandler env s r h

theorem binv_asyncServiceMsg (env : Env) (s : State) (msg : Msg) (cb : SendCb) (h : BInv s) :
    BInv (asyncServiceMsg env s msg cb) :=
  binv_sendMsg _ _ _ _ _
    (binv_steady h (by rfl) (by exact le_rfl) [Obs.sendStarted s.nextCall (stamp env msg)] (by rfl) (by simp [Obs.batchFree]))

theorem binv_sendNextQueuedMsg (env : Env) (s : State) (queueId : Cmd) (h : BInv s) :
    BInv (sendNextQueuedMsg env s queueId) := by
  unfold sendNextQueuedMsg
  split
  · exact binv_steady h (by rfl) (by exact le_rfl) [] (by simp [raise]) (by simp)
  · exact binv_asyncServiceMsg env _ _ _
      (binv_steady h (by rfl) (by exact le_rfl) [Obs.dispatched _] (by rfl) (by simp [Obs.batchFree]))

theorem binv_queuedAsyncServiceMsg (env : Env) (s : State) (msg : Msg) (cb : ItemCb)
    (h : BInv s) : BInv (queuedAsyncServiceMsg env s msg cb) := by
  have h1 : BInv
      { s with msgQueue := fun c => if c = msg.cmd then
                 s.msgQueue msg.cmd ++ [{ msg := msg, callback := cb }] else s.msgQueue c
               history := s.history ++ [Obs.enqueued msg] } :=
    binv_steady h (by rfl) (by exact le_rfl) [Obs.enqueued msg] (by rfl) (by simp [Obs.batchFree])
  unfold queuedAsyncServiceMsg
  simp only []
  split
  · exact binv_sendNextQueuedMsg env _ _ h1
  · exact h1

theorem binv_syncServiceMsg (env : Env) (s : State) (msg : Msg) (cb : UserCb) (h : BInv s) :
    BInv (syncServiceMsg env s msg cb) :=
  binv_asyncServiceMsg env _ msg _
    (binv_steady h (by rfl) (by exact le_rfl) [] (by simp) (by simp))

theorem binv_batchUpdate (s : State) (cb : UserCb) (h : BInv s) (hw : WInv s) :
    BInv (batchUpdate s cb) := by
  unfold batchUpdate
  simp only []
  split
  · exact binv_runUserCb s cb false none h
  · have hzero : reactionsOf s.nextId s.history = 0 := by
      by_contra hne
      obtain ⟨b, hb, hbid⟩ := h.known _ hne
      have := h.fresh b hb
      omega
    refine ⟨?_, ?_, ?_, ?_, ?_, ?_, ?_⟩
    · intro b hb
      simp only [List.mem_append, List.mem_singleton] at hb
      rcases hb with hb | hb
      · have := h.fresh b hb
        simp only
        omega
      · subst hb
        simp
    · simp only [List.map_append, List.map_cons, List.map_nil]
      apply List.Nodup.append h.nodup (by simp)
      intro x hx1 hx2
      simp only [List.mem_singleton] at hx2
      simp only [List.mem_map] at hx1
      obtain ⟨b, hb, hbid⟩ := hx1
      have := h.fresh b hb
      omega
    · intro id hid
      obtain ⟨b, hb, hbid⟩ := h.known id hid
      exact ⟨b, by simp [hb], hbid⟩
    · intro b hb
      simp only [List.mem_append, List.mem_singleton] at hb
      rcases hb with hb | hb
      · exact h.once b hb
      · subst hb
        simpa using hzero
    · intro b hb i hi
      simp only [List.mem_append, List.mem_singleton] at hb
      rcases hb with hb | hb
      · exact h.tracked b hb i hi
      · subst hb
        left
        simpa using hi
    · intro b hb
      simp only [List.mem_append, List.mem_singleton] at hb
      rcases hb with hb | hb
      · exact h.ordered b hb
      · subst hb
        intro h1 h2 heq
        exfalso
        have : reactionsOf s.nextId s.history ≠ 0 := by
          simp only at heq
          rw [heq]
          simp [reactionsOf, List.countP_append, List.countP_cons, Obs.reactionOf]
        exact this hzero
    · intro b hb i hi
      simp only [List.mem_append, List.mem_singleton] at hb
      rcases hb with hb | hb
      · exact h.pending b hb i hi
      · subst hb
        refine ⟨by simpa using hi, ?_⟩
        intro h1
        exact absurd (hw.history _ h1) (lt_irrefl _)

theorem binv_runJob (s : State) (b : Batch) (h : BInv s) (hb : b ∈ s.batches)
    (hd : b.due = true) : BInv (runJob s b) := by
  apply binv_runUserCb
  have hdue : b.unresolved = [] ∧ b.fired = false := by
    simp only [Batch.due, Bool.and_eq_true, Bool.not_eq_true', List.isEmpty_iff] at hd
    exact ⟨hd.1.1, hd.2⟩
  have heq : ∀ x ∈ s.batches, x.id = b.id → x = b :=
    fun x hx hid => List.inj_on_of_nodup_map h.nodup hx hb hid
  refine ⟨?_, ?_, ?_, ?_, ?_, ?_, ?_⟩
  · intro x hx
    simp only [List.mem_map] at hx
    obtain ⟨y, hy, rfl⟩ := hx
    have := h.fresh y hy
    split <;> exact this
  · have : ((s.batches.map fun x => if x.id = b.id then { x with fired := true } else x).map
        fun b => b.id) = s.batches.map fun b => b.id := by
      simp only [List.map_map]
      apply List.map_congr_left
      intro x _
      simp only [Function.comp]
      split <;> rfl
    simp only
    rw [this]
    exact h.nodup
  · intro id hid
    simp only [reactionsOf_append] at hid
    by_cases hidb : b.id = id
    · exact ⟨_, List.mem_map_of_mem _ hb, by simpa using hidb⟩
    · have : reactionsOf id s.history ≠ 0 := by
        simpa [Obs.reactionOf, hidb] using hid
      obtain ⟨y, hy, hyid⟩ := h.known id this
      refine ⟨_, List.mem_map_of_mem _ hy, ?_⟩
      split <;> exact hyid
  · intro x hx
    simp only [List.mem_map] at hx
    obtain ⟨y, hy, rfl⟩ := hx
    have hy1 := h.once y hy
    by_cases hyb : y.id = b.id
    · have := heq y hy hyb
      subst this
      simp only [if_true, reactionsOf_append, Obs.reactionOf, hy1, hdue.2]
      simp
    · have hne : ¬ b.id = y.id := fun h => hyb h.symm
      simp only [hyb, if_false, reactionsOf_append, Obs.reactionOf, hy1]
      simp [hne]
  · intro x hx i hi
    simp only [List.mem_map] at hx
    obtain ⟨y, hy, rfl⟩ := hx
    have h1 : i < y.tasks := by
      split at hi <;> exact hi
    rcases h.tracked y hy i h1 with h2 | h2
    · left
      split <;> exact h2
    · right
      have : Obs.resolved y.id i ∈ s.history ++ [Obs.reaction b.id] := by simp [h2]
      split <;> exact this
  · intro x hx
    simp only [List.mem_map] at hx
    obtain ⟨y, hy, rfl⟩ := hx
    have h1 : ReactionAfterAll y.id y.tasks (s.history ++ [Obs.reaction b.id]) := by
      by_cases hyb : y.id = b.id
      · have := heq y hy hyb
        subst this
        apply reactionAfterAll_reaction (h.ordered y hy)
        intro i hi
        rcases h.tracked y hy i hi with h2 | h2
        · rw [hdue.1] at h2
          simp at h2
        · exact h2
      · apply reactionAfterAll_append (h.ordered y hy)
        have hne : ¬ b.id = y.id := fun h => hyb h.symm
        simp [Obs.reactionOf, hne]
    split <;> exact h1
  · intro x hx i hi
    simp only [List.mem_map] at hx
    obtain ⟨y, hy, rfl⟩ := hx
    have h1 : i < y.tasks ∧ Obs.resolved y.id i ∉ s.history ++ [Obs.reaction b.id] := by
      have h2 : i ∈ y.unresolved := by
        split at hi <;> exact hi
      have h3 := h.pending y hy i h2
      exact ⟨h3.1, by simp [h3.2]⟩
    split <;> exact h1

theorem binv_handler (env : Env) (s : State) (l : Listener) (h : BInv s) :
    BInv (handler env s l) := by
  unfold handler
  split
  · exact h
  · exact binv_runUserCb _ l.callback false none
      (binv_steady h (by rfl) (by exact le_rfl) [] (by simp) (by simp))

theorem binv_sendNextIfAny (env : Env) (s : State) (queueId : Cmd) (h : BInv s) :
    BInv (sendNextIfAny env s queueId) := by
  unfold sendNextIfAny
  split
  · exact h
  · exact binv_sendNextQueuedMsg env s queueId h

theorem binv_perform (env : Env) (s : State) (c : Call) (h : BInv s) (hw : WInv s) :
    BInv (perform env s c) := by
  cases c with
  | queuedAsyncServiceMsg msg cb => exact binv_queuedAsyncServiceMsg env s msg _ h
  | asyncServiceMsg msg cb => exact binv_asyncServiceMsg env s msg _ h
  | syncServiceMsg msg cb => exact binv_syncServiceMsg env s msg cb h
  | batchUpdate cb => exact binv_batchUpdate s cb h hw

theorem binv_runFrame (env : Env) (s t : State) (a : Action) (h : BInv s) (hw : WInv s)
    (hrun : runFrame env s a = some t) : BInv t := by
  cases a with
  | call c =>
    simp only [runFrame, Option.some.injEq] at hrun
    subst hrun
    exact binv_perform env s c h hw
  | replay msg batch index =>
    simp only [runFrame, Option.some.injEq] at hrun
    subst hrun
    exact binv_queuedAsyncServiceMsg env s msg _ h
  | thenAll batch =>
    simp only [runFrame, Option.some.injEq] at hrun
    subst hrun
    exact binv_thenAll s batch h
  | advance queueId =>
    simp only [runFrame, Option.some.injEq] at hrun
    subst hrun
    exact binv_steady h (by rfl) (by exact le_rfl) [] (by simp [advance]) (by simp)
  | handler l =>
    simp only [runFrame, Option.some.injEq] at hrun
    subst hrun
    exact binv_handler env s l h
  | sendNextIfAny queueId =>
    simp only [runFrame, Option.some.injEq] at hrun
    subst hrun
    exact binv_sendNextIfAny env s queueId h
  | awaitSync j => simp [runFrame] at hrun

theorem binv_waitCookieMsg (env : Env) (s : State) (cb : UserCb) (h : BInv s) :
    BInv (waitCookieMsg env s cb) := by
  unfold waitCookieMsg
  split
  · exact binv_steady h (by rfl) (Nat.le_succ _) [] (by simp) (by simp)
  · exact binv_runUserCb s cb false none h

theorem binv_waitForServiceMessagesCompleted (s : State) (cb : UserCb) (timeout : Nat)
    (h : BInv s) : BInv (waitForServiceMessagesCompleted s cb timeout) := by
  unfold waitForServiceMessagesCompleted
  split
  · exact binv_runUserCb s cb false none h
  · exact binv_steady h (by rfl) (Nat.le_succ _) [] (by simp) (by simp)

theorem binv_timeoutFires (s : State) (w : Waiter) (h : BInv s) : BInv (timeoutFires s w) :=
  binv_runUserCb _ w.callback false none
    (binv_steady h (by rfl) (by exact le_rfl) [] (by simp) (by simp))

theorem binv_intervalFires (s : State) (w : Waiter) (due : Nat) (h : BInv s) :
    BInv (intervalFires s w due) := by
  unfold intervalFires
  split
  · exact binv_timeoutFires s w h
  · exact binv_steady h (by rfl) (by exact le_rfl) [] (by simp) (by simp)

theorem step_binv (env : Env) (s t : State) (e : Event) (h : BInv s) (hw : WInv s)
    (hstep : step env s e = some t) : BInv t := by
  have hf := step_fired env s t e hstep
  cases hf with
  | frame a frames t hs hrun =>
    exact binv_runFrame env _ t a
      (binv_steady h (by rfl) (by exact le_rfl) [] (by simp) (by simp))
      (winv_pop frames hw (fun x hx => by rw [hs]; exact List.mem_cons_of_mem _ hx)) hrun
  | ignored id signal r rest ht hc => exact h
  | signal id signal r rest frames ht hc hs =>
    exact binv_onSignal env _ r signal
      (binv_steady h (by rfl) (by exact le_rfl) [] (by simp) (by simp))
  | call c hs => exact binv_perform env s c h hw
  | waitCookieMsg cb hs => exact binv_waitCookieMsg env s cb h
  | waitForServiceMessagesCompleted cb timeout hs =>
    exact binv_waitForServiceMessagesCompleted s cb timeout h
  | job batch b hs hb hd => exact binv_runJob s b h (findBatch_mem hb).1 hd
  | elapse dt hs => exact binv_steady h (by rfl) (by exact le_rfl) [] (by simp) (by simp)
  | timeout waiter w due hs hw hdue hle => exact binv_timeoutFires s w h
  | interval waiter w due hs hw hdue hle => exact binv_intervalFires s w due h
  | beforeunload hs => exact binv_steady h (by rfl) (by exact le_rfl) [] (by simp) (by simp)
  | switchBack due rest hs hsb hle =>
    exact binv_steady h (by rfl) (by exact le_rfl) [] (by simp) (by simp)

theorem run_binv (env : Env) (events : List Event) :
    ∀ (s t : State), BInv s → WInv s → run env s events = some t → BInv t ∧ WInv t := by
  induction events with
  | nil =>
    intro s t k w hrun
    simp [run] at hrun
    subst hrun
    exact ⟨k, w⟩
  | cons e es ih =>
    intro s t k w hrun
    simp only [run] at hrun
    cases hstep : step env s e with
    | none => simp [hstep] at hrun
    | some s1 =>
      simp only [hstep] at hrun
      exact ih s1 t (step_binv env s s1 e k w hstep) (step_winv env s s1 e w hstep) hrun

/-! ### Batches persist -/

theorem KeepsBatches.ofEq {s t : State} (hb : t.batches = s.batches) : KeepsBatches s t :=
  fun b h => ⟨b, by rw [hb]; exact h, rfl, fun ha => ha⟩

theorem KeepsBatches.ofMap {s t : State} (f : Batch → Batch)
    (hb : t.batches = s.batches.map f)
    (hf : ∀ x, (f x).key = x.key ∧ (x.armed = true → (f x).armed = true)) :
    KeepsBatches s t :=
  fun b h => ⟨f b, by rw [hb]; exact List.mem_map_of_mem f h, (hf b).1, (hf b).2⟩

theorem KeepsBatches.andLater {s t u : State} (h1 : KeepsBatches s t) (h2 : KeepsBatches t u) :
    KeepsBatches s u := by
  intro b hb
  obtain ⟨x, hx, hk, ha⟩ := h1 b hb
  obtain ⟨y, hy, hk2, ha2⟩ := h2 x hx
  exact ⟨y, hy, by rw [hk2, hk], fun h => ha2 (ha h)⟩

theorem keepsBatches_runUserCb (s : State) (cb : UserCb) (g : Bool) (res : Response) :
    KeepsBatches s (runUserCb s cb g res) :=
  KeepsBatches.ofEq (by cases cb <;> cases g <;> rfl)

theorem keepsBatches_resolveTask (s : State) (batch index : Nat) :
    KeepsBatches s (resolveTask s batch index) :=
  KeepsBatches.ofMap (s := s) (t := resolveTask s batch index)
    (fun b => if b.id = batch then { b with unresolved := b.unresolved.filter (· ≠ index) }
      else b) (by rfl) (fun x => by dsimp only; split <;> exact ⟨rfl, fun h => h⟩)

theorem keepsBatches_runItemCb (s : State) (cb : ItemCb) (res : Response) :
    KeepsBatches s (runItemCb s cb res) := by
  cases cb with
  | user u => exact keepsBatches_runUserCb s u true res
  | resolve batch index => exact keepsBatches_resolveTask s batch index

theorem keepsBatches_runSendCb (s : State) (cb : SendCb) (res : Response) :
    KeepsBatches s (runSendCb s cb res) := by
  cases cb with
  | user u => exact keepsBatches_runUserCb s u true res
  | sync stored u =>
    exact (KeepsBatches.ofEq (by rfl)).andLater (keepsBatches_runUserCb _ u false res)
  | queued queueId item =>
    exact (KeepsBatches.ofEq (by rfl)).andLater (keepsBatches_runItemCb _ item res)

theorem keepsBatches_msgCallback (s : State) (r : Request) (res : Response) :
    KeepsBatches s (msgCallback s r res) :=
  (KeepsBatches.ofEq (by rfl)).andLater (keepsBatches_runSendCb _ r.callback res)

theorem keepsBatches_errorHandler (env : Env) (s : State) (r : Request) :
    KeepsBatches s (errorHandler env s r) := by
  unfold errorHandler
  split
  · exact (KeepsBatches.ofEq (by rfl)).andLater (keepsBatches_msgCallback _ r none)
  · exact KeepsBatches.ofEq (by rfl)

theorem keepsBatches_onSignal (env : Env) (s : State) (r : Request) (signal : Signal) :
    KeepsBatches s (onSignal env s r signal) := by
  rcases onSignal_cases env s r signal with h1 | ⟨res, h1⟩ | ⟨_, h1⟩
  · rw [h1]; exact KeepsBatches.ofEq rfl
  · rw [h1]; exact keepsBatches_msgCallback s r res
  · rw [h1]; exact keepsBatches_errorHandler env s r

theorem keepsBatches_sendNextQueuedMsg (env : Env) (s : State) (queueId : Cmd) :
    KeepsBatches s (sendNextQueuedMsg env s queueId) := by
  unfold sendNextQueuedMsg
  split <;> exact KeepsBatches.ofEq (by rfl)

theorem keepsBatches_queuedAsyncServiceMsg (env : Env) (s : State) (msg : Msg)
    (cb : ItemCb) : KeepsBatches s (queuedAsyncServiceMsg env s msg cb) := by
  unfold queuedAsyncServiceMsg
  simp only []
  split
  · exact (KeepsBatches.ofEq (by rfl)).andLater (keepsBatches_sendNextQueuedMsg env _ _)
  · exact KeepsBatches.ofEq (by rfl)

theorem keepsBatches_batchUpdate (s : State) (cb : UserCb) :
    KeepsBatches s (batchUpdate s cb) := by
  unfold batchUpdate
  simp only []
  split
  · exact keepsBatches_runUserCb s cb false none
  · intro b hb
    exact ⟨b, by simp [hb], rfl, fun h => h⟩

theorem keepsBatches_perform (env : Env) (s : State) (c : Call) :
    KeepsBatches s (perform env s c) := by
  cases c with
  | queuedAsyncServiceMsg msg cb => exact keepsBatches_queuedAsyncServiceMsg env s msg _
  | asyncServiceMsg msg cb => exact KeepsBatches.ofEq (by rfl)
  | syncServiceMsg msg cb => exact KeepsBatches.ofEq (by rfl)
  | batchUpdate cb => exact keepsBatches_batchUpdate s cb

theorem keepsBatches_handler (env : Env) (s : State) (l : Listener) :
    KeepsBatches s (handler env s l) := by
  unfold handler
  split
  · exact KeepsBatches.ofEq rfl
  · exact (KeepsBatches.ofEq (by rfl)).andLater (keepsBatches_runUserCb _ l.callback false none)

theorem keepsBatches_sendNextIfAny (env : Env) (s : State) (queueId : Cmd) :
    KeepsBatches s (sendNextIfAny env s queueId) := by
  unfold sendNextIfAny
  split
  · exact KeepsBatches.ofEq rfl
  · exact keepsBatches_sendNextQueuedMsg env s queueId

theorem keepsBatches_thenAll (s : State) (batch : Nat) : KeepsBatches s (thenAll s batch) :=
  KeepsBatches.ofMap (s := s) (t := thenAll s batch)
    (fun b => if b.id = batch then { b with armed := true } else b) (by rfl)
    (fun x => by dsimp only; split <;> exact ⟨rfl, fun h => by first | rfl | exact h⟩)

theorem keepsBatches_runFrame (env : Env) (s t : State) (a : Action)
    (hrun : runFrame env s a = some t) : KeepsBatches s t := by
  cases a with
  | call c =>
    simp only [runFrame, Option.some.injEq] at hrun
    subst hrun
    exact keepsBatches_perform env s c
  | replay msg batch index =>
    simp only [runFrame, Option.some.injEq] at hrun
    subst hrun
    exact keepsBatches_queuedAsyncServiceMsg env s msg _
  | thenAll batch =>
    simp only [runFrame, Option.some.injEq] at hrun
    subst hrun
    exact keepsBatches_thenAll s batch
  | advance queueId =>
    simp only [runFrame, Option.some.injEq] at hrun
    subst hrun
    exact KeepsBatches.ofEq (by rfl)
  | handler l =>
    simp only [runFrame, Option.some.injEq] at hrun
    subst hrun
    exact keepsBatches_handler env s l
  | sendNextIfAny queueId =>
    simp only [runFrame, Option.some.injEq] at hrun
    subst hrun
    exact keepsBatches_sendNextIfAny env s queueId
  | awaitSync j => simp [runFrame] at hrun

theorem keepsBatches_runJob (s : State) (b : Batch) : KeepsBatches s (runJob s b) := by
  unfold runJob
  simp only []
  refine KeepsBatches.andLater ?_ (keepsBatches_runUserCb _ b.callback true none)
  exact KeepsBatches.ofMap (s := s)
    (fun x => if x.id = b.id then { x with fired := true } else x) (by rfl)
    (fun x => by dsimp only; split <;> exact ⟨rfl, fun h => h⟩)

theorem keepsBatches_waitCookieMsg (env : Env) (s : State) (cb : UserCb) :
    KeepsBatches s (waitCookieMsg env s cb) := by
  unfold waitCookieMsg
  split
  · exact KeepsBatches.ofEq (by rfl)
  · exact keepsBatches_runUserCb s cb false none

theorem keepsBatches_waitForServiceMessagesCompleted (s : State) (cb : UserCb)
    (timeout : Nat) : KeepsBatches s (waitForServiceMessagesCompleted s cb timeout) := by
  unfold waitForServiceMessagesCompleted
  split
  · exact keepsBatches_runUserCb s cb false none
  · exact KeepsBatches.ofEq (by rfl)

theorem keepsBatches_timeoutFires (s : State) (w : Waiter) :
    KeepsBatches s (timeoutFires s w) :=
  (KeepsBatches.ofEq (by rfl)).andLater (keepsBatches_runUserCb _ w.callback false none)

theorem keepsBatches_intervalFires (s : State) (w : Waiter) (due : Nat) :
    KeepsBatches s (intervalFires s w due) := by
  unfold intervalFires
  split
  · exact keepsBatches_timeoutFires s w
  · exact KeepsBatches.ofEq (by rfl)

theorem step_keepsBatches (env : Env) (s t : State) (e : Event)
    (hstep : step env s e = some t) : KeepsBatches s t := by
  have hf := step_fired env s t e hstep
  cases hf with
  | frame a frames t hs hrun =>
    exact (KeepsBatches.ofEq (by rfl)).andLater
      (keepsBatches_runFrame env { s with stack := frames } t a hrun)
  | ignored id signal r rest ht hc => exact KeepsBatches.ofEq rfl
  | signal id signal r rest frames ht hc hs =>
    exact (KeepsBatches.ofEq (by rfl)).andLater (keepsBatches_onSignal env _ r signal)
  | call c hs => exact keepsBatches_perform env s c
  | waitCookieMsg cb hs => exact keepsBatches_waitCookieMsg env s cb
  | waitForServiceMessagesCompleted cb timeout hs =>
    exact keepsBatches_waitForServiceMessagesCompleted s cb timeout
  | job batch b hs hb hd => exact keepsBatches_runJob s b
  | elapse dt hs => exact KeepsBatches.ofEq (by rfl)
  | timeout waiter w due hs hw hdue hle => exact keepsBatches_timeoutFires s w
  | interval waiter w due hs hw hdue hle => exact keepsBatches_intervalFires s w due
  | beforeunload hs => exact KeepsBatches.ofEq (by rfl)
  | switchBack due rest hs hsb hle => exact KeepsBatches.ofEq (by rfl)

theorem run_keepsBatches (env : Env) (events : List Event) :
    ∀ (s t : State), run env s events = some t → KeepsBatches s t := by
  induction events with
  | nil =>
    intro s t hrun
    simp [run] at hrun
    subst hrun
    exact KeepsBatches.ofEq rfl
  | cons e es ih =>
    intro s t hrun
    simp only [run] at hrun
    cases hstep : step env s e with
    | none => simp [hstep] at hrun
    | some s1 =>
      simp only [hstep] at hrun
      exact (step_keepsBatches env s s1 e hstep).andLater (ih s1 t hrun)

/-! ### The store stays empty -/

theorem Traffic.keepsEmpty {s t : State} (h : Traffic s t)
    (he : _getStoredMessages s = []) : _getStoredMessages t = [] := by
  cases h with
  | silent h => simpa only [_getStoredMessages, h.store] using he
  | cleared hi hc hr hst => simp [_getStoredMessages, hst]
  | fresh r hi hcall hf hc hr hst =>
    have h0 : t.store = some [] := by rw [hst, he]; rfl
    simp [_getStoredMessages, h0]

theorem onSignal_succeeds (env : Env) (s : State) (r : Request) (signal : Signal)
    (hfail : signal.fails env = false) :
    onSignal env s r signal = s ∨ ∃ res, onSignal env s r signal = msgCallback s r res := by
  unfold onSignal
  cases hf : r.forced with
  | true =>
    cases signal with
    | readystatechange readyState status res =>
      by_cases h4 : readyState = 4
      · exact Or.inr ⟨none, by simp [h4]⟩
      · exact Or.inl (by simp [h4])
    | load res => exact Or.inl (by simp)
    | abort => exact Or.inl (by simp)
    | error => exact Or.inl (by simp)
    | timeout => exact Or.inl (by simp)
  | false =>
    cases h9 : env.isIE9 with
    | true =>
      cases signal with
      | readystatechange readyState status res =>
        by_cases h4 : readyState = 4
        · cases status with
          | none => simp [Signal.fails, h9, h4] at hfail
          | some n =>
            by_cases h200 : n = 200
            · exact Or.inr ⟨res, by simp [h4, h200]⟩
            · exact Or.inl (by simp [h4, h200])
        · exact Or.inl (by simp [h4])
      | load res => exact Or.inl (by simp)
      | abort => exact Or.inl (by simp)
      | error => exact Or.inl (by simp)
      | timeout => exact Or.inl (by simp)
    | false =>
      cases signal with
      | load res => exact Or.inr ⟨res, by simp⟩
      | abort => simp [Signal.fails, h9] at hfail
      | error => simp [Signal.fails, h9] at hfail
      | timeout => simp [Signal.fails, h9] at hfail
      | readystatechange readyState status res => exact Or.inl (by simp)

theorem step_keepsEmpty (env : Env) (s t : State) (e : Event)
    (hstep : step env s e = some t) (hsafe : e.stores env = false)
    (he : _getStoredMessages s = []) : _getStoredMessages t = [] := by
  have hf := step_fired env s t e hstep
  cases hf with
  | frame a frames t hs h =>
    exact (Traffic.after (silent_same (s := s) (t := { s with stack := frames }) rfl rfl rfl rfl)
      (traffic_runFrame env _ t a h)).keepsEmpty he
  | ignored id signal r rest ht hc => exact he
  | signal id signal r rest frames ht hc hs =>
    have he1 : _getStoredMessages { s with inflight := rest, stack := frames } = [] := he
    rcases onSignal_cases env { s with inflight := rest, stack := frames } r signal with
      h | ⟨res, h⟩ | ⟨hf, h⟩
    · rw [h]; exact he1
    · rw [h]; exact (Traffic.silent (silent_msgCallback _ r res)).keepsEmpty he1
    · simp only [Event.stores, Event.failure, Bool.and_eq_false_iff] at hsafe
      rcases hsafe with hw | hfail
      · rw [h]
        simp only [errorHandler, hw]
        exact he1
      · rcases onSignal_succeeds env { s with inflight := rest, stack := frames } r signal hfail
          with h2 | ⟨res, h2⟩
        · rw [h2]; exact he1
        · rw [h2]; exact (Traffic.silent (silent_msgCallback _ r res)).keepsEmpty he1
  | call c hs => exact (traffic_perform env s c).keepsEmpty he
  | waitCookieMsg cb hs => exact (Traffic.silent (silent_waitCookieMsg env s cb)).keepsEmpty he
  | waitForServiceMessagesCompleted cb timeout hs =>
    exact (Traffic.silent (silent_waitForServiceMessagesCompleted s cb timeout)).keepsEmpty he
  | job batch b hs hb hd => exact (Traffic.silent (silent_runJob s b)).keepsEmpty he
  | elapse dt hs => exact he
  | timeout waiter w due hs hw hdue hle =>
    exact (Traffic.silent (silent_timeoutFires s w)).keepsEmpty he
  | interval waiter w due hs hw hdue hle =>
    exact (Traffic.silent (silent_intervalFires s w due)).keepsEmpty he
  | beforeunload hs => exact he
  | switchBack due rest hs hsb hle => exact he

theorem run_keepsEmpty (env : Env) (events : List Event) :
    ∀ (s t : State), run env s events = some t → (∀ e ∈ events, e.stores env = false) →
      _getStoredMessages s = [] → _getStoredMessages t = [] := by
  induction events with
  | nil =>
    intro s t hrun _ he
    simp [run] at hrun
    subst hrun
    exact he
  | cons e es ih =>
    intro s t hrun hsafe he
    simp only [run] at hrun
    cases hstep : step env s e with
    | none => simp [hstep] at hrun
    | some s1 =>
      simp only [hstep] at hrun
      exact ih s1 t hrun (fun x hx => hsafe x (List.mem_cons_of_mem _ hx))
        (step_keepsEmpty env s s1 e hstep (hsafe e (List.mem_cons_self _ _)) he)

/-! ### Replaying -/

theorem run_append (env : Env) (es1 es2 : List Event) :
    ∀ (s t : State), run env s es1 = some t → run env s (es1 ++ es2) = run env t es2 := by
  induction es1 with
  | nil =>
    intro s t h
    simp [run] at h
    subst h
    rfl
  | cons e es ih =>
    intro s t h
    simp only [run, List.cons_append] at h ⊢
    cases hstep : step env s e with
    | none => simp [hstep] at h
    | some s1 =>
      simp only [hstep] at h ⊢
      exact ih s1 t h

theorem queuedAsyncServiceMsg_async (env : Env) (s : State) (msg : Msg) (cb : ItemCb)
    (ha : s.useAsyncXhr = true) :
    (queuedAsyncServiceMsg env s msg cb).stack = s.stack ∧
    (queuedAsyncServiceMsg env s msg cb).useAsyncXhr = true ∧
    allEnqueued (queuedAsyncServiceMsg env s msg cb).history = allEnqueued s.history ++ [msg] ∧
    ∀ cmd, (queuedAsyncServiceMsg env s msg cb).msgQueue cmd =
      s.msgQueue cmd ++ if msg.cmd = cmd then [{ msg := msg, callback := cb }] else [] := by
  unfold queuedAsyncServiceMsg
  cases hq : s.msgQueue msg.cmd with
  | nil =>
    simp only [List.nil_append, List.length_singleton, if_true, sendNextQueuedMsg,
      asyncServiceMsg, sendMsg, observe, _removeMessageFromStore, ha]
    refine ⟨rfl, trivial, ?_, ?_⟩
    · simp [allEnqueued, List.filterMap_append]
    · intro cmd
      by_cases hc : msg.cmd = cmd
      · subst hc
        simp [hq]
      · have hc1 : ¬ cmd = msg.cmd := fun h => hc h.symm
        simp [hc, hc1]
  | cons q qs =>
    simp only [List.cons_append, List.length_cons, List.length_append, List.length_singleton]
    rw [if_neg (by omega)]
    refine ⟨rfl, ha, ?_, ?_⟩
    · simp [allEnqueued, List.filterMap_append]
    · intro cmd
      by_cases hc : msg.cmd = cmd
      · subst hc
        simp [hq]
      · have hc1 : ¬ cmd = msg.cmd := fun h => hc h.symm
        simp [hc, hc1]

theorem run_replayFrames (env : Env) (batch : Nat) (rest : List Action) :
    ∀ (L : List Msg) (i : Nat) (s : State), s.useAsyncXhr = true →
      s.stack = replayFrames batch i L ++ rest →
      ∃ t, run env s (List.replicate L.length Event.run) = some t ∧ t.stack = rest ∧
        t.useAsyncXhr = true ∧ allEnqueued t.history = allEnqueued s.history ++ L ∧
        ∀ cmd, t.msgQueue cmd = s.msgQueue cmd ++
          (replayItems batch i L).filter fun it => it.msg.cmd = cmd := by
  intro L
  induction L with
  | nil =>
    intro i s ha hs
    exact ⟨s, rfl, by simpa [replayFrames] using hs, ha, by simp, by simp [replayItems]⟩
  | cons m ms ih =>
    intro i s ha hs
    simp only [replayFrames, List.cons_append] at hs
    have h1 := queuedAsyncServiceMsg_async env
      { s with stack := replayFrames batch (i + 1) ms ++ rest } m (ItemCb.resolve batch i) ha
    obtain ⟨t, hrun, hst, hat, henq, hq⟩ := ih (i + 1)
      (queuedAsyncServiceMsg env { s with stack := replayFrames batch (i + 1) ms ++ rest } m
        (ItemCb.resolve batch i)) h1.2.1 h1.1
    refine ⟨t, ?_, hst, hat, ?_, ?_⟩
    · simp only [List.length_cons, List.replicate_succ, run, step, hs, runFrame]
      exact hrun
    · rw [henq, h1.2.2.1]
      simp
    · intro cmd
      rw [hq cmd, h1.2.2.2 cmd]
      by_cases hc : m.cmd = cmd
      · simp [replayItems, List.filter_cons, hc]
      · simp [replayItems, List.filter_cons, hc]

/-! ### C8: `batchUpdate` -/

theorem batchUpdate_replay (s : State) (cb : UserCb) (hs : s.stack = [])
    (hne : _getStoredMessages s ≠ []) :
    (batchUpdate s cb).stack =
      replayFrames s.nextId 0 (_getStoredMessages s) ++ [Action.thenAll s.nextId] ∧
    (batchUpdate s cb).useAsyncXhr = s.useAsyncXhr ∧
    (batchUpdate s cb).history = s.history ∧
    (batchUpdate s cb).msgQueue = s.msgQueue ∧
    (batchUpdate s cb).store = none ∧
    ∃ b ∈ (batchUpdate s cb).batches, b.key = (s.nextId, (_getStoredMessages s).length, cb) := by
  have he : (_getStoredMessages s).isEmpty = false := by
    cases h : _getStoredMessages s with
    | nil => exact absurd h hne
    | cons m ms => rfl
  unfold batchUpdate
  simp only [he, hs]
  refine ⟨by simp, rfl, rfl, rfl, rfl, ?_⟩
  exact ⟨_, List.mem_append_right _ (List.mem_singleton_self _), rfl⟩

theorem findBatch_of_mem {bs : List Batch} {b : Batch} (hb : b ∈ bs)
    (hnd : (bs.map fun b => b.id).Nodup) : findBatch b.id bs = some b := by
  induction bs with
  | nil => simp at hb
  | cons x xs ih =>
    simp only [List.map_cons, List.nodup_cons, List.mem_map, not_exists, not_and] at hnd
    simp only [findBatch, List.find?_cons]
    rcases List.mem_cons.mp hb with rfl | hmem
    · simp
    · have hne : ¬ x.id = b.id := fun h => hnd.1 b hmem h.symm
      simp only [hne, decide_False]
      exact ih hmem hnd.2

/-- Once `then` has been reached and every task is resolved, the reaction that
has not run yet is due: it runs `updateCallback`. -/
theorem reaction_due (env : Env) (u : State) (b : Batch) (hinv : BInv u)
    (hb : b ∈ u.batches) (harmed : b.armed = true) (hstack : u.stack = [])
    (hall : ∀ i, i < b.tasks → Obs.resolved b.id i ∈ u.history)
    (hzero : reactionsOf b.id u.history = 0) :
    step env u (Event.job b.id) = some (runJob u b) ∧
    reactionsOf b.id (runJob u b).history = 1 := by
  have hfired : b.fired = false := by
    have h1 := hinv.once b hb
    rw [hzero] at h1
    cases hf : b.fired with
    | false => rfl
    | true => simp [hf] at h1
  have hnone : b.unresolved = [] := by
    rw [List.eq_nil_iff_forall_not_mem]
    intro i hi
    have h1 := hinv.pending b hb i hi
    exact h1.2 (hall i h1.1)
  have hdue : b.due = true := by simp [Batch.due, hnone, harmed, hfired]
  refine ⟨?_, ?_⟩
  · simp [step, hstack, findBatch_of_mem hb hinv.nodup, hdue]
  · unfold reactionsOf at hzero
    cases hcb : b.callback <;>
      simp [runJob, runUserCb, hcb, reactionsOf, List.countP_append, List.countP_cons,
        Obs.reactionOf, hzero]

/-- C8, counterexample: on WebKit the store holds one record and
`batchUpdate` replays it; the request fails, the message is stored again and
its completion callback runs, so `updateCallback` is invoked (once) while the
store holds the record: the store is not empty afterward. -/
theorem replay_failure_leaves_record_in_store :
    (run webKitEnv (init (some [storedMsg 3 30])) failedReplayEvents).map
      (fun s => (reactionsOf 0 s.history, callbacksOf 4 s.history,
        (allEnqueued s.history).map (fun m => m.payload), s.inflight.length, s.stack.length,
        (_getStoredMessages s).map (fun m => (m.cmd, m.payload)))) =
    some (1, 1, [30], 0, 0, [(3, 30)]) :=
  rfl

/-- C8, amended: when the store holds no records, `batchUpdate` invokes
`updateCallback` at once and sends nothing.  When it holds the records `L`,
`batchUpdate` empties the store and is left to pass each record of `L` once,
in stored order, to `queuedAsyncServiceMsg`, each with the `resolve` function
of its own promise, and then to reach `then`.  From the call on
`updateCallback` of this call is invoked at most once, and only after the
completion callback of every one of the `L.length` replayed messages has run,
and the store is empty for as long as no request fails in a WebKit browser,
where a failed message, a replayed one included, is stored again.  While
requests are asynchronous the records are all appended to the queues of their
commands before the call returns; and once the completion callbacks of all of
them have run and the turn has ended, the reaction that invokes
`updateCallback` is due and runs it. -/
theorem batchUpdate_replays_each_record_once (env : Env) (s : State) (cb : UserCb)
    (hr : Reachable env s) (hs : s.stack = []) :
    (_getStoredMessages s = [] →
      step env s (Event.call (Call.batchUpdate cb)) = some (runUserCb s cb false none) ∧
      (runUserCb s cb false none).inflight = s.inflight ∧
      (runUserCb s cb false none).msgQueue = s.msgQueue) ∧
    (_getStoredMessages s ≠ [] →
      step env s (Event.call (Call.batchUpdate cb)) = some (batchUpdate s cb) ∧
      (batchUpdate s cb).stack =
        replayFrames s.nextId 0 (_getStoredMessages s) ++ [Action.thenAll s.nextId] ∧
      (batchUpdate s cb).inflight = s.inflight ∧
      _getStoredMessages (batchUpdate s cb) = [] ∧
      (∀ events u, run env (batchUpdate s cb) events = some u →
        reactionsOf s.nextId u.history ≤ 1 ∧
        ReactionAfterAll s.nextId (_getStoredMessages s).length u.history ∧
        ((∀ e ∈ events, e.stores env = false) → _getStoredMessages u = [])) ∧
      (s.useAsyncXhr = true →
        ∃ t, run env (batchUpdate s cb)
            (List.replicate ((_getStoredMessages s).length + 1) Event.run) = some t ∧
          t.stack = [] ∧
          allEnqueued t.history = allEnqueued s.history ++ _getStoredMessages s ∧
          (∀ cmd, t.msgQueue cmd = s.msgQueue cmd ++
            (replayItems s.nextId 0 (_getStoredMessages s)).filter
              fun it => it.msg.cmd = cmd) ∧
          ∀ events u, run env t events = some u → u.stack = [] →
            (∀ i, i < (_getStoredMessages s).length → Obs.resolved s.nextId i ∈ u.history) →
            reactionsOf s.nextId u.history = 0 →
            ∃ b ∈ u.batches, b.callback = cb ∧
              step env u (Event.job s.nextId) = some (runJob u b) ∧
              reactionsOf s.nextId (runJob u b).history = 1)) := by
  constructor
  · intro he
    refine ⟨?_, ?_, ?_⟩
    · simp [step, hs, perform, batchUpdate, he]
    · cases cb <;> rfl
    · cases cb <;> rfl
  · intro hne
    obtain ⟨hstack, hasync, hhist, hqueue, hstore, b0, hb0, hkey0⟩ :=
      batchUpdate_replay s cb hs hne
    have hstep : step env s (Event.call (Call.batchUpdate cb)) = some (batchUpdate s cb) := by
      simp [step, hs, perform]
    have hempty1 : _getStoredMessages (batchUpdate s cb) = [] := by
      simp [_getStoredMessages, hstore]
    have hinflight : (batchUpdate s cb).inflight = s.inflight := by
      have he : (_getStoredMessages s).isEmpty = false := by
        cases h : _getStoredMessages s with
        | nil => exact absurd h hne
        | cons m ms => rfl
      simp [batchUpdate, he]
    obtain ⟨store, events0, hreach⟩ := hr
    obtain ⟨hbs, hws⟩ := run_binv env events0 _ s (binv_init store) (winv_init store) hreach
    have hb1 : BInv (batchUpdate s cb) := step_binv env s _ _ hbs hws hstep
    have hw1 : WInv (batchUpdate s cb) := step_winv env s _ _ hws hstep
    refine ⟨hstep, hstack, hinflight, hempty1, ?_, ?_⟩
    · intro events u hu
      obtain ⟨hbu, _⟩ := run_binv env events _ u hb1 hw1 hu
      obtain ⟨b, hb, hbk, _⟩ := run_keepsBatches env events _ u hu b0 hb0
      rw [hkey0] at hbk
      have hid : b.id = s.nextId := congrArg Prod.fst hbk
      have htasks : b.tasks = (_getStoredMessages s).length :=
        congrArg (fun k => k.2.1) hbk
      refine ⟨?_, ?_, ?_⟩
      · have := hbu.once b hb
        rw [hid] at this
        rw [this]
        split <;> omega
      · have := hbu.ordered b hb
        rwa [hid, htasks] at this
      · intro hev
        exact run_keepsEmpty env events _ u hu hev hempty1
    · intro ha
      obtain ⟨t1, hrun1, hst1, _, henq1, hq1⟩ :=
        run_replayFrames env s.nextId [Action.thenAll s.nextId] (_getStoredMessages s) 0
          (batchUpdate s cb) (by rw [hasync, ha]) hstack
      have hrun2 : run env (batchUpdate s cb)
          (List.replicate ((_getStoredMessages s).length + 1) Event.run) =
          some (thenAll { t1 with stack := [] } s.nextId) := by
        rw [List.replicate_succ', run_append env _ _ _ t1 hrun1]
        simp [run, step, hst1, runFrame]
      obtain ⟨hbt, hwt⟩ := run_binv env _ _ _ hb1 hw1 hrun2
      obtain ⟨b1, hb1m, hkey1, _⟩ := run_keepsBatches env _ _ t1 hrun1 b0 hb0
      have hid1 : b1.id = s.nextId := by
        rw [hkey0] at hkey1
        exact congrArg Prod.fst hkey1
      have harmed : ∃ x ∈ (thenAll { t1 with stack := [] } s.nextId).batches,
          x.key = (s.nextId, (_getStoredMessages s).length, cb) ∧ x.armed = true := by
        refine ⟨{ b1 with armed := true }, ?_, ?_, rfl⟩
        · simp only [thenAll, List.mem_map]
          exact ⟨b1, hb1m, by simp [hid1]⟩
        · rw [← hkey0, ← hkey1]
          rfl
      obtain ⟨x, hx, hxkey, hxarmed⟩ := harmed
      refine ⟨_, hrun2, rfl, ?_, ?_, ?_⟩
      · show allEnqueued t1.history = _
        rw [henq1, hhist]
      · intro cmd
        show t1.msgQueue cmd = _
        rw [hq1 cmd, hqueue]
      · intro events u hu hstk hall hzero
        obtain ⟨hbu, _⟩ := run_binv env events _ u hbt hwt hu
        obtain ⟨b, hb, hbk, hbarmed⟩ := run_keepsBatches env events _ u hu x hx
        rw [hxkey] at hbk
        have hid : b.id = s.nextId := congrArg Prod.fst hbk
        have htasks : b.tasks = (_getStoredMessages s).length :=
          congrArg (fun k => k.2.1) hbk
        have hcb : b.callback = cb := congrArg (fun k => k.2.2) hbk
        have hdue := reaction_due env u b hbu hb (hbarmed hxarmed) hstk
          (by rw [hid, htasks]; exact hall) (by rw [hid]; exact hzero)
        rw [hid] at hdue
        exact ⟨b, hb, hcb, hdue⟩

/-- Witness of the amended C8: the three records of `replayStart`, two of
them of one command, are replayed and the requests load one after the other;
the reaction is then due, and after it `updateCallback` has been invoked once
with the store empty. -/
theorem batchUpdate_replays_each_record_once_witness :
    Reachable sampleEnv replayStart ∧ replayStart.stack = [] ∧
    replayStart.useAsyncXhr = true ∧ _getStoredMessages replayStart ≠ [] ∧
    run sampleEnv (batchUpdate replayStart (UserCb.fn 4 []))
      (List.replicate ((_getStoredMessages replayStart).length + 1) Event.run) =
      some replayedState ∧
    allEnqueued replayedState.history = [storedMsg 1 10, storedMsg 2 20, storedMsg 1 11] ∧
    run sampleEnv replayedState replayDoneEvents = some replayDoneState ∧
    reactionsOf 0 replayDoneState.history = 0 ∧
    ∃ b ∈ replayDoneState.batches, b.callback = UserCb.fn 4 [] ∧
      step sampleEnv replayDoneState (Event.job 0) = some (runJob replayDoneState b) ∧
      reactionsOf 0 (runJob replayDoneState b).history = 1 ∧
      ReactionAfterAll 0 3 (runJob replayDoneState b).history ∧
      _getStoredMessages (runJob replayDoneState b) = [] := by
  have hreach : Reachable sampleEnv replayStart := ⟨_, [], rfl⟩
  have hne : _getStoredMessages replayStart ≠ [] := by
    simp [replayStart, init, _getStoredMessages]
  obtain ⟨_, _, _, _, hsafe, hlive⟩ :=
    (batchUpdate_replays_each_record_once sampleEnv replayStart (UserCb.fn 4 []) hreach
      rfl).2 hne
  obtain ⟨t, hrun, _, henq, _, hlater⟩ := hlive rfl
  have hrun0 : run sampleEnv (batchUpdate replayStart (UserCb.fn 4 []))
      (List.replicate ((_getStoredMessages replayStart).length + 1) Event.run) =
      some replayedState := rfl
  have ht : t = replayedState := Option.some.inj (hrun.symm.trans hrun0)
  subst ht
  have hu1 : run sampleEnv replayedState replayDoneEvents = some replayDoneState := rfl
  have hall : ∀ i, i < (_getStoredMessages replayStart).length →
      Obs.resolved replayStart.nextId i ∈ replayDoneState.history := by
    intro i hi
    have hi3 : i < 3 := hi
    interval_cases i <;> decide
  obtain ⟨b, hb, hcb, hjob, hone⟩ := hlater replayDoneEvents replayDoneState hu1 rfl hall rfl
  have hfull : run sampleEnv (batchUpdate replayStart (UserCb.fn 4 []))
      ((List.replicate ((_getStoredMessages replayStart).length + 1) Event.run ++
        replayDoneEvents) ++ [Event.job 0]) = some (runJob replayDoneState b) := by
    rw [run_append sampleEnv _ _ _ replayDoneState
      (by rw [run_append sampleEnv _ _ _ replayedState hrun]; exact hu1)]
    have hjob0 : step sampleEnv replayDoneState (Event.job 0) =
        some (runJob replayDoneState b) := hjob
    simp only [run]
    rw [hjob0]
  obtain ⟨_, hord, hst⟩ := hsafe _ _ hfull
  refine ⟨hreach, rfl, rfl, hne, hrun0, rfl, hu1, rfl, b, hb, hcb, hjob, hone, hord, hst ?_⟩
  intro e he
  simp only [replayDoneEvents, List.mem_append, List.mem_replicate, List.mem_cons,
    List.mem_singleton, List.not_mem_nil, or_false] at he
  rcases he with (⟨_, rfl⟩ | rfl | rfl | rfl | rfl | rfl | rfl | rfl | rfl | rfl) | rfl <;> rfl

/-! ### C10: the counter of messages in flight -/

/-- C10, divergence: on a page that is not WebKit one message is sent through
`asyncServiceMsg`, its request fails and the forced synchronous request
completes.  The send of one message has started and its completion callback
has run (the caller's function was called once, no request is in flight), yet
`activeServiceMessagesCounter` is 1, not 0: `sendMsg` counted the message
again for the forced request and `msgCallback` ran once.  A later
`waitForServiceMessagesCompleted` does not call back at once but starts to
wait. -/
theorem forced_retry_leaves_counter_at_one :
    (init none).activeServiceMessagesCounter = 0 ∧
    (run sampleEnv (init none) retryEvents).map
      (fun s => (sendsStarted s.history, sendsCompleted s.history, callbacksOf 5 s.history,
        s.inflight.length, s.stack.length, s.activeServiceMessagesCounter)) =
      some (1, 1, 1, 0, 0, 1) ∧
    (step sampleEnv retryState
        (Event.waitForServiceMessagesCompleted (UserCb.fn 9 []) 100)).map
      (fun s => (callbacksOf 9 s.history, s.waiters.length)) = some (0, 1) :=
  ⟨rfl, rfl, rfl⟩

/-! ### C11: the response passed to the callback -/

/-- C11, divergence: a message is sent, its request fails and the forced
synchronous request completes with the response 8.  The listener of the
forced request calls `msgCallback()` without the request as `this`, so the
callback of the message is called with no response; the first attempt that
loads and the IE9 path, which call `msgCallback` with the request as `this`,
pass the response 8. -/
theorem forced_retry_passes_no_response :
    (run sampleEnv (init none) retryEvents).map
      (fun s => (requestsOf 0 s.history, s.history.filter (Obs.callbackOf 5))) =
      some ([(0, false, true), (0, true, false)], [Obs.callback 5 none]) ∧
    (run sampleEnv (init none) loadEvents).map
      (fun s => s.history.filter (Obs.callbackOf 5)) = some [Obs.callback 5 (some 8)] ∧
    (run ie9Env (init none) ie9Events).map
      (fun s => s.history.filter (Obs.callbackOf 5)) = some [Obs.callback 5 (some 8)] :=
  ⟨rfl, rfl, rfl⟩

/-! ### C12: failure on WebKit -/

theorem Traffic.keepsUnforced {s t : State} (h : Traffic s t)
    (hs : ∀ r ∈ s.inflight, r.forced = false) : ∀ r ∈ t.inflight, r.forced = false := by
  cases h with
  | silent h => rw [h.inflight]; exact hs
  | cleared hi hc hr hst => rw [hi]; exact hs
  | fresh x hi hcall hf hc hr hst =>
    rw [hi]
    intro r hr1
    rcases List.mem_append.mp hr1 with h1 | h1
    · exact hs r h1
    · rw [List.mem_singleton.mp h1]; exact hf

theorem step_unforced (env : Env) (s t : State) (e : Event) (hw : env.isWebKit = true)
    (hs : ∀ r ∈ s.inflight, r.forced = false) (hstep : step env s e = some t) :
    ∀ r ∈ t.inflight, r.forced = false := by
  have hf := step_fired env s t e hstep
  cases hf with
  | frame a frames t hs1 h =>
    exact (Traffic.after (silent_same (s := s) (t := { s with stack := frames }) rfl rfl rfl rfl)
      (traffic_runFrame env _ t a h)).keepsUnforced hs
  | ignored id signal r rest ht hc => exact hs
  | signal id signal r rest frames ht hc hs1 =>
    have hrest : ∀ x ∈ rest, x.forced = false :=
      fun x hx => hs x ((takeRequest_mem id _ _ _ ht).2.2 x hx)
    rcases onSignal_cases env { s with inflight := rest, stack := frames } r signal with
      h | ⟨res, h⟩ | ⟨_, h⟩
    · rw [h]; exact hrest
    · rw [h, (silent_msgCallback _ r res).inflight]; exact hrest
    · rw [h]
      simp only [errorHandler, hw, if_true]
      rw [(silent_msgCallback _ r none).inflight]
      exact hrest
  | call c hs1 => exact (traffic_perform env s c).keepsUnforced hs
  | waitCookieMsg cb hs1 => rw [(silent_waitCookieMsg env s cb).inflight]; exact hs
  | waitForServiceMessagesCompleted cb timeout hs1 =>
    rw [(silent_waitForServiceMessagesCompleted s cb timeout).inflight]; exact hs
  | job batch b hs1 hb hd => rw [(silent_runJob s b).inflight]; exact hs
  | elapse dt hs1 => exact hs
  | timeout waiter w due hs1 hw1 hdue hle => rw [(silent_timeoutFires s w).inflight]; exact hs
  | interval waiter w due hs1 hw1 hdue hle =>
    rw [(silent_intervalFires s w due).inflight]; exact hs
  | beforeunload hs1 => exact hs
  | switchBack due rest hs1 hsb hle => exact hs

theorem run_unforced (env : Env) (hw : env.isWebKit = true) (events : List Event) :
    ∀ (s t : State), (∀ r ∈ s.inflight, r.forced = false) → run env s events = some t →
      ∀ r ∈ t.inflight, r.forced = false := by
  induction events with
  | nil =>
    intro s t hs hrun
    simp [run] at hrun
    subst hrun
    exact hs
  | cons e es ih =>
    intro s t hs hrun
    simp only [run] at hrun
    cases hstep : step env s e with
    | none => simp [hstep] at hrun
    | some s1 =>
      simp only [hstep] at hrun
      exact ih s1 t (step_unforced env s s1 e hw hs hstep) hrun

theorem runSendCb_counter (s : State) (cb : SendCb) (res : Response) :
    (runSendCb s cb res).activeServiceMessagesCounter = s.activeServiceMessagesCounter ∧
    sendsCompleted (runSendCb s cb res).history = sendsCompleted s.history := by
  cases cb with
  | user u =>
    cases u with
    | absent => exact ⟨rfl, rfl⟩
    | fn tag body =>
      exact ⟨rfl, by simp [runSendCb, runUserCb, sendsCompleted, List.countP_append,
        Obs.isMsgCallback]⟩
  | sync stored u =>
    cases u with
    | absent => exact ⟨rfl, rfl⟩
    | fn tag body =>
      exact ⟨rfl, by simp [runSendCb, runUserCb, sendsCompleted, List.countP_append,
        Obs.isMsgCallback]⟩
  | queued queueId item =>
    cases item with
    | user u =>
      cases u with
      | absent =>
        exact ⟨rfl, by simp [runSendCb, runItemCb, runUserCb, observe, sendsCompleted,
          List.countP_append, Obs.isMsgCallback]⟩
      | fn tag body =>
        exact ⟨rfl, by simp [runSendCb, runItemCb, runUserCb, observe, sendsCompleted,
          List.countP_append, Obs.isMsgCallback]⟩
    | resolve batch index =>
      exact ⟨rfl, by simp [runSendCb, runItemCb, resolveTask, observe, sendsCompleted,
        List.countP_append, Obs.isMsgCallback]⟩

/-- C12: on a WebKit engine, when the request of a message sent through
`asyncServiceMsg` fails (abort, error or timeout), the message is appended to
the stored list as its last record, no request is issued, the request is no
longer in flight, `activeServiceMessagesCounter` is decremented, and
`msgCallback` runs once, with no response: the callback of the message is
called once, with no response and no error. -/
theorem webkit_failure_stores_message (env : Env) (store : Option (List Msg))
    (events : List Event) (s t : State) (id : Nat) (signal : Signal) (r : Request)
    (rest : List Request) (hw : env.isWebKit = true)
    (hrun : run env (init store) events = some s)
    (ht : takeRequest id s.inflight = some (r, rest))
    (hfail : signal.fails env = true)
    (hstep : step env s (Event.xhr id signal) = some t) :
    r.forced = false ∧
    _getStoredMessages t = _getStoredMessages s ++ [r.msg] ∧
    requestsIssued t.history = requestsIssued s.history ∧ t.inflight = rest ∧
    t.activeServiceMessagesCounter = s.activeServiceMessagesCounter - 1 ∧
    sendsCompleted t.history = sendsCompleted s.history + 1 ∧
    Obs.msgCallback r.call none ∈ t.history ∧
    ∀ tag body, r.callback = SendCb.user (UserCb.fn tag body) →
      t.history = s.history ++ [Obs.msgCallback r.call none, Obs.callback tag none] ∧
      callbacksOf tag t.history = callbacksOf tag s.history + 1 := by
  have hunf := run_unforced env hw events (init store) s (by simp [init]) hrun
  have hmem := takeRequest_mem id _ _ _ ht
  have hf : r.forced = false := hunf r hmem.1
  have hfired := step_fired env s t _ hstep
  have key : ∀ frames : List Action,
      t = onSignal env { s with inflight := rest, stack := frames } r signal →
      _getStoredMessages t = _getStoredMessages s ++ [r.msg] ∧
      requestsIssued t.history = requestsIssued s.history ∧ t.inflight = rest ∧
      t.activeServiceMessagesCounter = s.activeServiceMessagesCounter - 1 ∧
      sendsCompleted t.history = sendsCompleted s.history + 1 ∧
      Obs.msgCallback r.call none ∈ t.history ∧
      ∀ tag body, r.callback = SendCb.user (UserCb.fn tag body) →
        t.history = s.history ++ [Obs.msgCallback r.call none, Obs.callback tag none] ∧
        callbacksOf tag t.history = callbacksOf tag s.history + 1 := by
    intro frames htt
    rw [(onSignal_fails env _ r signal hf hfail).1] at htt
    simp only [errorHandler, hw, if_true, msgCallback] at htt
    subst htt
    refine ⟨?_, ?_, ?_, ?_, ?_, ?_, ?_⟩
    · simp only [_getStoredMessages, (silent_runSendCb _ r.callback none).store]
      rfl
    · rw [(silent_runSendCb _ r.callback none).issued]
      simp [_storeMessage, requestsIssued, List.filterMap_append, Obs.requestOf]
    · rw [(silent_runSendCb _ r.callback none).inflight]
      rfl
    · rw [(runSendCb_counter _ r.callback none).1]
      rfl
    · rw [(runSendCb_counter _ r.callback none).2]
      simp [_storeMessage, sendsCompleted, List.countP_append, Obs.isMsgCallback]
    · have h1 : ∀ (u : State) (cb : SendCb) (o : Obs), o ∈ u.history →
          o ∈ (runSendCb u cb none).history := by
        intro u cb o ho
        cases cb with
        | user c => cases c <;> simp [runSendCb, runUserCb, ho]
        | sync stored c => cases c <;> simp [runSendCb, runUserCb, raise, ho]
        | queued queueId item =>
          cases item with
          | user c => cases c <;> simp [runSendCb, runItemCb, runUserCb, observe, ho]
          | resolve batch index => simp [runSendCb, runItemCb, resolveTask, observe, ho]
      exact h1 _ _ _ (by simp [_storeMessage])
    · intro tag body hcb
      rw [hcb]
      refine ⟨by simp [runSendCb, runUserCb, _storeMessage], ?_⟩
      simp [runSendCb, runUserCb, _storeMessage, callbacksOf, List.countP_append,
        List.countP_cons, Obs.callbackOf]
  cases hfired with
  | ignored id signal r1 rest1 ht1 hc =>
    rw [ht] at ht1
    simp only [Option.some.injEq, Prod.mk.injEq] at ht1
    obtain ⟨e1, e2⟩ := ht1
    subst e1 e2
    rw [(onSignal_fails env s r signal hf hfail).2] at hc
    exact absurd hc (by simp)
  | signal id signal r1 rest1 frames ht1 hc hs =>
    rw [ht] at ht1
    simp only [Option.some.injEq, Prod.mk.injEq] at ht1
    obtain ⟨e1, e2⟩ := ht1
    subst e1 e2
    exact ⟨hf, key frames rfl⟩

/-- Witness of C12: on WebKit the request of the message in flight raises
`error`; the message is stored and its callback is called once. -/
theorem webkit_failure_stores_message_witness :
    run webKitEnv (init none)
      [Event.call (Call.asyncServiceMsg (sampleMsg 3 30) (UserCb.fn 5 []))] =
      some webKitSent ∧
    ∃ t, step webKitEnv webKitSent (Event.xhr 0 Signal.error) = some t ∧
      (_getStoredMessages t).map (fun m => (m.cmd, m.payload)) = [(3, 30)] ∧
      t.inflight = [] ∧ t.activeServiceMessagesCounter = 0 ∧
      callbacksOf 5 t.history = 1 ∧ (requestsIssued t.history).length = 1 := by
  have h := webkit_failure_stores_message webKitEnv none
    [Event.call (Call.asyncServiceMsg (sampleMsg 3 30) (UserCb.fn 5 []))] webKitSent
    ((step webKitEnv webKitSent (Event.xhr 0 Signal.error)).getD webKitSent) 0 Signal.error
    { id := 0, call := 0, msg := stamp webKitEnv (sampleMsg 3 30), forced := false
      async := true, callback := SendCb.user (UserCb.fn 5 []) } [] rfl rfl rfl rfl rfl
  exact ⟨rfl, (step webKitEnv webKitSent (Event.xhr 0 Signal.error)).getD webKitSent, rfl,
    rfl, h.2.2.2.1, rfl, rfl, rfl⟩

/-! ### Identifiers are not reused -/

theorem idinv_init (store : Option (List Msg)) : IdInv (init store) :=
  ⟨by simp [init], by simp [init], by simp [init], by simp [init], by simp [init]⟩

theorem idinv_of {s t : State} (h : IdInv s) (hn : s.nextId ≤ t.nextId)
    (hi : ∀ r ∈ t.inflight, r ∈ s.inflight ∨ r.id < t.nextId)
    (hw : (t.waiters.map fun w => w.id) = s.waiters.map fun w => w.id)
    (hl : (t.listeners.map fun l => l.id).Sublist (s.listeners.map fun l => l.id)) :
    IdInv t := by
  refine ⟨?_, ?_, ?_, ?_, ?_⟩
  · intro r hr
    rcases hi r hr with h1 | h1
    · exact lt_of_lt_of_le (h.inflight r h1) hn
    · exact h1
  · intro w hwm
    have h1 : w.id ∈ t.waiters.map fun w => w.id := List.mem_map_of_mem _ hwm
    rw [hw] at h1
    obtain ⟨x, hx, hxid⟩ := List.mem_map.mp h1
    have := h.waiters x hx
    omega
  · rw [hw]; exact h.waitersNodup
  · intro l hlm
    have h1 : l.id ∈ s.listeners.map fun l => l.id := hl.subset (List.mem_map_of_mem _ hlm)
    obtain ⟨x, hx, hxid⟩ := List.mem_map.mp h1
    have := h.listeners x hx
    omega
  · exact h.listenersNodup.sublist hl

theorem idinv_same {s t : State} (h : IdInv s) (hn : s.nextId ≤ t.nextId)
    (hi : t.inflight = s.inflight) (hw : t.waiters = s.waiters)
    (hl : t.listeners = s.listeners) : IdInv t :=
  idinv_of h hn (fun r hr => Or.inl (by rw [← hi]; exact hr)) (by rw [hw])
    (by rw [hl])

theorem idinv_runUserCb (s : State) (cb : UserCb) (g : Bool) (res : Response) (h : IdInv s) :
    IdInv (runUserCb s cb g res) := by
  cases cb with
  | absent => cases g <;> exact idinv_same h (by exact le_rfl) (by rfl) (by rfl) (by rfl)
  | fn tag body => exact idinv_same h (by exact le_rfl) (by rfl) (by rfl) (by rfl)

theorem idinv_resolveTask (s : State) (batch index : Nat) (h : IdInv s) :
    IdInv (resolveTask s batch index) :=
  idinv_same h (by exact le_rfl) (by rfl) (by rfl) (by rfl)

theorem idinv_runItemCb (s : State) (cb : ItemCb) (res : Response) (h : IdInv s) :
    IdInv (runItemCb s cb res) := by
  cases cb with
  | user u => exact idinv_runUserCb s u true res h
  | resolve batch index => exact idinv_resolveTask s batch index h

theorem idinv_runSendCb (s : State) (cb : SendCb) (res : Response) (h : IdInv s) :
    IdInv (runSendCb s cb res) := by
  cases cb with
  | user u => exact idinv_runUserCb s u true res h
  | sync stored u =>
    exact idinv_runUserCb _ u false res
      (idinv_same h (by exact le_rfl) (by rfl) (by rfl) (by rfl))
  | queued queueId item =>
    exact idinv_runItemCb _ item res
      (idinv_same h (by exact le_rfl) (by rfl) (by rfl) (by rfl))

theorem idinv_msgCallback (s : State) (r : Request) (res : Response) (h : IdInv s) :
    IdInv (msgCallback s r res) :=
  idinv_runSendCb _ r.callback res (idinv_same h (by exact le_rfl) (by rfl) (by rfl) (by rfl))

theorem idinv_sendMsg (s : State) (call : Nat) (msg : Msg) (cb : SendCb) (forced : Bool)
    (h : IdInv s) : IdInv (sendMsg s call msg cb forced) := by
  refine idinv_of h (Nat.le_succ _) ?_ (by rfl) (by exact List.Sublist.refl _)
  intro r hr
  simp only [sendMsg, List.mem_append, List.mem_singleton] at hr
  rcases hr with hr | rfl
  · exact Or.inl hr
  · exact Or.inr (Nat.lt_succ_self _)

theorem idinv_errorHandler (env : Env) (s : State) (r : Request) (h : IdInv s) :
    IdInv (errorHandler env s r) := by
  unfold errorHandler
  split
  · exact idinv_msgCallback _ r none
      (idinv_same h (by exact le_rfl) (by rfl) (by rfl) (by rfl))
  · exact idinv_sendMsg s _ _ _ _ h

theorem idinv_onSignal (env : Env) (s : State) (r : Request) (signal : Signal) (h : IdInv s) :
    IdInv (onSignal env s r signal) := by
  rcases onSignal_cases env s r signal with h1 | ⟨res, h1⟩ | ⟨_, h1⟩
  · rw [h1]; exact h
  · rw [h1]; exact idinv_msgCallback s r res h
  · rw [h1]; exact idinv_errorHandler env s r h

theorem idinv_asyncServiceMsg (env : Env) (s : State) (msg : Msg) (cb : SendCb) (h : IdInv s) :
    IdInv (asyncServiceMsg env s msg cb) :=
  idinv_sendMsg _ _ _ _ _ (idinv_same h (by exact le_rfl) (by rfl) (by rfl) (by rfl))

theorem idinv_sendNextQueuedMsg (env : Env) (s : State) (queueId : Cmd) (h : IdInv s) :
    IdInv (sendNextQueuedMsg env s queueId) := by
  unfold sendNextQueuedMsg
  split
  · exact idinv_same h (by exact le_rfl) (by rfl) (by rfl) (by rfl)
  · exact idinv_asyncServiceMsg env _ _ _
      (idinv_same h (by exact le_rfl) (by rfl) (by rfl) (by rfl))

theorem idinv_queuedAsyncServiceMsg (env : Env) (s : State) (msg : Msg) (cb : ItemCb)
    (h : IdInv s) : IdInv (queuedAsyncServiceMsg env s msg cb) := by
  have h1 : IdInv
      { s with msgQueue := fun c => if c = msg.cmd then
                 s.msgQueue msg.cmd ++ [{ msg := msg, callback := cb }] else s.msgQueue c
               history := s.history ++ [Obs.enqueued msg] } :=
    idinv_same h (by exact le_rfl) (by rfl) (by rfl) (by rfl)
  unfold queuedAsyncServiceMsg
  simp only []
  split
  · exact idinv_sendNextQueuedMsg env _ _ h1
  · exact h1

theorem idinv_syncServiceMsg (env : Env) (s : State) (msg : Msg) (cb : UserCb) (h : IdInv s) :
    IdInv (syncServiceMsg env s msg cb) :=
  idinv_asyncServiceMsg env _ msg _
    (idinv_same h (by exact le_rfl) (by rfl) (by rfl) (by rfl))

theorem idinv_batchUpdate (s : State) (cb : UserCb) (h : IdInv s) :
    IdInv (batchUpdate s cb) := by
  unfold batchUpdate
  simp only []
  split
  · exact idinv_runUserCb s cb false none h
  · exact idinv_same h (Nat.le_succ _) (by rfl) (by rfl) (by rfl)

theorem idinv_perform (env : Env) (s : State) (c : Call) (h : IdInv s) :
    IdInv (perform env s c) := by
  cases c with
  | queuedAsyncServiceMsg msg cb => exact idinv_queuedAsyncServiceMsg env s msg _ h
  | asyncServiceMsg msg cb => exact idinv_asyncServiceMsg env s msg _ h
  | syncServiceMsg msg cb => exact idinv_syncServiceMsg env s msg cb h
  | batchUpdate cb => exact idinv_batchUpdate s cb h

theorem idinv_handler (env : Env) (s : State) (l : Listener) (h : IdInv s) :
    IdInv (handler env s l) := by
  unfold handler
  split
  · exact h
  · refine idinv_runUserCb _ l.callback false none ?_
    exact idinv_of h (by exact le_rfl) (fun r hr => Or.inl hr) (by rfl)
      ((List.filter_sublist _).map _)

theorem idinv_sendNextIfAny (env : Env) (s : State) (queueId : Cmd) (h : IdInv s) :
    IdInv (sendNextIfAny env s queueId) := by
  unfold sendNextIfAny
  split
  · exact h
  · exact idinv_sendNextQueuedMsg env s queueId h

theorem idinv_runFrame (env : Env) (s t : State) (a : Action) (h : IdInv s)
    (hrun : runFrame env s a = some t) : IdInv t := by
  cases a with
  | call c =>
    simp only [runFrame, Option.some.injEq] at hrun
    subst hrun
    exact idinv_perform env s c h
  | replay msg batch index =>
    simp only [runFrame, Option.some.injEq] at hrun
    subst hrun
    exact idinv_queuedAsyncServiceMsg env s msg _ h
  | thenAll batch =>
    simp only [runFrame, Option.some.injEq] at hrun
    subst hrun
    exact idinv_same h (by exact le_rfl) (by rfl) (by rfl) (by rfl)
  | advance queueId =>
    simp only [runFrame, Option.some.injEq] at hrun
    subst hrun
    exact idinv_same h (by exact le_rfl) (by rfl) (by rfl) (by rfl)
  | handler l =>
    simp only [runFrame, Option.some.injEq] at hrun
    subst hrun
    exact idinv_handler env s l h
  | sendNextIfAny queueId =>
    simp only [runFrame, Option.some.injEq] at hrun
    subst hrun
    exact idinv_sendNextIfAny env s queueId h
  | awaitSync j => simp [runFrame] at hrun

theorem idinv_runJob (s : State) (b : Batch) (h : IdInv s) : IdInv (runJob s b) :=
  idinv_runUserCb _ b.callback true none
    (idinv_same h (by exact le_rfl) (by rfl) (by rfl) (by rfl))

theorem idinv_waitCookieMsg (env : Env) (s : State) (cb : UserCb) (h : IdInv s) :
    IdInv (waitCookieMsg env s cb) := by
  unfold waitCookieMsg
  split
  · refine ⟨?_, ?_, h.waitersNodup, ?_, ?_⟩
    · intro r hr
      exact Nat.lt_succ_of_lt (h.inflight r hr)
    · intro w hw
      exact Nat.lt_succ_of_lt (h.waiters w hw)
    · intro l hl
      simp only [List.mem_append, List.mem_singleton] at hl
      rcases hl with hl | rfl
      · exact Nat.lt_succ_of_lt (h.listeners l hl)
      · exact Nat.lt_succ_self _
    · simp only [List.map_append, List.map_cons, List.map_nil]
      apply List.Nodup.append h.listenersNodup (by simp)
      intro x hx1 hx2
      simp only [List.mem_singleton] at hx2
      obtain ⟨l, hl, hlid⟩ := List.mem_map.mp hx1
      have := h.listeners l hl
      omega
  · exact idinv_runUserCb s cb false none h

theorem idinv_waitForServiceMessagesCompleted (s : State) (cb : UserCb) (timeout : Nat)
    (h : IdInv s) : IdInv (waitForServiceMessagesCompleted s cb timeout) := by
  unfold waitForServiceMessagesCompleted
  split
  · exact idinv_runUserCb s cb false none h
  · refine ⟨?_, ?_, ?_, ?_, h.listenersNodup⟩
    · intro r hr
      exact Nat.lt_succ_of_lt (h.inflight r hr)
    · intro w hw
      simp only [List.mem_append, List.mem_singleton] at hw
      rcases hw with hw | rfl
      · exact Nat.lt_succ_of_lt (h.waiters w hw)
      · exact Nat.lt_succ_self _
    · simp only [List.map_append, List.map_cons, List.map_nil]
      apply List.Nodup.append h.waitersNodup (by simp)
      intro x hx1 hx2
      simp only [List.mem_singleton] at hx2
      obtain ⟨w, hw, hwid⟩ := List.mem_map.mp hx1
      have := h.waiters w hw
      omega
    · intro l hl
      exact Nat.lt_succ_of_lt (h.listeners l hl)

theorem waiters_map_ids (ws : List Waiter) (f : Waiter → Waiter) (hf : ∀ x, (f x).id = x.id) :
    ((ws.map f).map fun w => w.id) = ws.map fun w => w.id := by
  simp only [List.map_map]
  apply List.map_congr_left
  intro x _
  exact hf x

theorem idinv_timeoutFires (s : State) (w : Waiter) (h : IdInv s) : IdInv (timeoutFires s w) := by
  refine idinv_runUserCb _ w.callback false none ?_
  exact idinv_of h (by exact le_rfl) (fun r hr => Or.inl hr)
    (waiters_map_ids s.waiters _ (fun x => by split <;> rfl))
    (by exact List.Sublist.refl _)

theorem idinv_intervalFires (s : State) (w : Waiter) (due : Nat) (h : IdInv s) :
    IdInv (intervalFires s w due) := by
  unfold intervalFires
  split
  · exact idinv_timeoutFires s w h
  · exact idinv_of h (by exact le_rfl) (fun r hr => Or.inl hr)
      (waiters_map_ids s.waiters _ (fun x => by split <;> rfl))
      (by exact List.Sublist.refl _)

theorem step_idinv (env : Env) (s t : State) (e : Event) (h : IdInv s)
    (hstep : step env s e = some t) : IdInv t := by
  have hf := step_fired env s t e hstep
  cases hf with
  | frame a frames t hs hrun =>
    exact idinv_runFrame env _ t a
      (idinv_same h (by exact le_rfl) (by rfl) (by rfl) (by rfl)) hrun
  | ignored id signal r rest ht hc => exact h
  | signal id signal r rest frames ht hc hs =>
    refine idinv_onSignal env _ r signal ?_
    exact idinv_of h (by exact le_rfl)
      (fun x hx => Or.inl ((takeRequest_mem id _ _ _ ht).2.2 x hx)) (by rfl)
      (by exact List.Sublist.refl _)
  | call c hs => exact idinv_perform env s c h
  | waitCookieMsg cb hs => exact idinv_waitCookieMsg env s cb h
  | waitForServiceMessagesCompleted cb timeout hs =>
    exact idinv_waitForServiceMessagesCompleted s cb timeout h
  | job batch b hs hb hd => exact idinv_runJob s b h
  | elapse dt hs => exact idinv_same h (by exact le_rfl) (by rfl) (by rfl) (by rfl)
  | timeout waiter w due hs hw hdue hle => exact idinv_timeoutFires s w h
  | interval waiter w due hs hw hdue hle => exact idinv_intervalFires s w due h
  | beforeunload hs => exact idinv_same h (by exact le_rfl) (by rfl) (by rfl) (by rfl)
  | switchBack due rest hs hsb hle =>
    exact idinv_same h (by exact le_rfl) (by rfl) (by rfl) (by rfl)

theorem run_idinv (env : Env) (events : List Event) :
    ∀ (s t : State), IdInv s → run env s events = some t → IdInv t := by
  induction events with
  | nil =>
    intro s t k hrun
    simp [run] at hrun
    subst hrun
    exact k
  | cons e es ih =>
    intro s t k hrun
    simp only [run] at hrun
    cases hstep : step env s e with
    | none => simp [hstep] at hrun
    | some s1 =>
      simp only [hstep] at hrun
      exact ih s1 t (step_idinv env s s1 e k hstep) hrun

/-! ### C14: `waitForServiceMessagesCompleted` -/

theorem runUserCb_waiters (s : State) (cb : UserCb) (g : Bool) (res : Response) :
    (runUserCb s cb g res).waiters = s.waiters := by
  cases cb <;> cases g <;> rfl

theorem runItemCb_waiters (s : State) (cb : ItemCb) (res : Response) :
    (runItemCb s cb res).waiters = s.waiters := by
  cases cb with
  | user u => exact runUserCb_waiters s u true res
  | resolve batch index => rfl

theorem runSendCb_waiters (s : State) (cb : SendCb) (res : Response) :
    (runSendCb s cb res).waiters = s.waiters := by
  cases cb with
  | user u => exact runUserCb_waiters s u true res
  | sync stored u => exact runUserCb_waiters _ u false res
  | queued queueId item => exact runItemCb_waiters _ item res

theorem msgCallback_waiters (s : State) (r : Request) (res : Response) :
    (msgCallback s r res).waiters = s.waiters :=
  runSendCb_waiters _ r.callback res

theorem errorHandler_waiters (env : Env) (s : State) (r : Request) :
    (errorHandler env s r).waiters = s.waiters := by
  unfold errorHandler
  split
  · exact msgCallback_waiters _ r none
  · rfl

theorem onSignal_waiters (env : Env) (s : State) (r : Request) (signal : Signal) :
    (onSignal env s r signal).waiters = s.waiters := by
  rcases onSignal_cases env s r signal with h | ⟨res, h⟩ | ⟨_, h⟩
  · rw [h]
  · rw [h]; exact msgCallback_waiters s r res
  · rw [h]; exact errorHandler_waiters env s r

theorem sendNextQueuedMsg_waiters (env : Env) (s : State) (queueId : Cmd) :
    (sendNextQueuedMsg env s queueId).waiters = s.waiters := by
  unfold sendNextQueuedMsg
  split <;> rfl

theorem queuedAsyncServiceMsg_waiters (env : Env) (s : State) (msg : Msg) (cb : ItemCb) :
    (queuedAsyncServiceMsg env s msg cb).waiters = s.waiters := by
  unfold queuedAsyncServiceMsg
  simp only []
  split
  · exact sendNextQueuedMsg_waiters env _ _
  · rfl

theorem batchUpdate_waiters (s : State) (cb : UserCb) :
    (batchUpdate s cb).waiters = s.waiters := by
  unfold batchUpdate
  simp only []
  split
  · exact runUserCb_waiters s cb false none
  · rfl

theorem perform_waiters (env : Env) (s : State) (c : Call) :
    (perform env s c).waiters = s.waiters := by
  cases c with
  | queuedAsyncServiceMsg msg cb => exact queuedAsyncServiceMsg_waiters env s msg _
  | asyncServiceMsg msg cb => rfl
  | syncServiceMsg msg cb => rfl
  | batchUpdate cb => exact batchUpdate_waiters s cb

theorem handler_waiters (env : Env) (s : State) (l : Listener) :
    (handler env s l).waiters = s.waiters := by
  unfold handler
  split
  · rfl
  · exact runUserCb_waiters _ l.callback false none

theorem sendNextIfAny_waiters (env : Env) (s : State) (queueId : Cmd) :
    (sendNextIfAny env s queueId).waiters = s.waiters := by
  unfold sendNextIfAny
  split
  · rfl
  · exact sendNextQueuedMsg_waiters env s queueId

theorem runFrame_waiters (env : Env) (s t : State) (a : Action)
    (hrun : runFrame env s a = some t) : t.waiters = s.waiters := by
  cases a with
  | call c =>
    simp only [runFrame, Option.some.injEq] at hrun
    subst hrun
    exact perform_waiters env s c
  | replay msg batch index =>
    simp only [runFrame, Option.some.injEq] at hrun
    subst hrun
    exact queuedAsyncServiceMsg_waiters env s msg _
  | thenAll batch =>
    simp only [runFrame, Option.some.injEq] at hrun
    subst hrun
    rfl
  | advance queueId =>
    simp only [runFrame, Option.some.injEq] at hrun
    subst hrun
    rfl
  | handler l =>
    simp only [runFrame, Option.some.injEq] at hrun
    subst hrun
    exact handler_waiters env s l
  | sendNextIfAny queueId =>
    simp only [runFrame, Option.some.injEq] at hrun
    subst hrun
    exact sendNextIfAny_waiters env s queueId
  | awaitSync j => simp [runFrame] at hrun

theorem runJob_waiters (s : State) (b : Batch) : (runJob s b).waiters = s.waiters :=
  runUserCb_waiters _ b.callback true none

theorem waitCookieMsg_waiters (env : Env) (s : State) (cb : UserCb) :
    (waitCookieMsg env s cb).waiters = s.waiters := by
  unfold waitCookieMsg
  split
  · rfl
  · exact runUserCb_waiters s cb false none

theorem findWaiter_id {id : Nat} {ws : List Waiter} {w : Waiter}
    (h : findWaiter id ws = some w) : w.id = id := by
  unfold findWaiter at h
  simpa using List.find?_some h

theorem findWaiter_append {id : Nat} {ws : List Waiter} {w : Waiter} (x : Waiter)
    (h : findWaiter id ws = some w) : findWaiter id (ws ++ [x]) = some w := by
  unfold findWaiter at h ⊢
  rw [List.find?_append, h]
  rfl

theorem findWaiter_map {id : Nat} {ws : List Waiter} {w : Waiter} (f : Waiter → Waiter)
    (hf : ∀ x, (f x).id = x.id) (h : findWaiter id ws = some w) :
    findWaiter id (ws.map f) = some (f w) := by
  induction ws with
  | nil => simp [findWaiter] at h
  | cons x xs ih =>
    simp only [findWaiter, List.map_cons, List.find?_cons] at h ⊢
    rw [hf x]
    by_cases hx : x.id = id
    · simp only [hx, decide_True] at h ⊢
      simp only [Option.some.injEq] at h
      rw [h]
    · simp only [hx, decide_False] at h ⊢
      exact ih h

theorem waitForServiceMessagesCompleted_findWaiter (s : State) (cb : UserCb) (timeout : Nat)
    {id : Nat} {w : Waiter} (h : findWaiter id s.waiters = some w) :
    findWaiter id (waitForServiceMessagesCompleted s cb timeout).waiters = some w := by
  unfold waitForServiceMessagesCompleted
  split
  · rw [runUserCb_waiters]; exact h
  · exact findWaiter_append _ h

/-- How a step changes the waiter `id`: not at all; or its timeout fires; or
its interval fires with the counter at 0; or its interval fires with the
counter not at 0 and is due again 50 units later. -/
theorem step_waiter (env : Env) (u t : State) (e : Event) (id : Nat) (w : Waiter)
    (hw : findWaiter id u.waiters = some w) (hstep : step env u e = some t) :
    findWaiter id t.waiters = some w ∨
    (e = Event.timeout id ∧ (∃ due, w.timeoutDue = some due ∧ due ≤ u.clock) ∧
      t = timeoutFires u w ∧
      findWaiter id t.waiters = some { w with timeoutDue := none, intervalDue := none }) ∨
    (e = Event.interval id ∧ (∃ due, w.intervalDue = some due ∧ due ≤ u.clock) ∧
      u.activeServiceMessagesCounter = 0 ∧ t = timeoutFires u w ∧
      findWaiter id t.waiters = some { w with timeoutDue := none, intervalDue := none }) ∨
    (e = Event.interval id ∧ u.activeServiceMessagesCounter ≠ 0 ∧ t.history = u.history ∧
      ∃ due, w.intervalDue = some due ∧ due ≤ u.clock ∧
        findWaiter id t.waiters =
          some { w with intervalDue := some (due + SERVICE_MESSAGES_WAITING_INTERVAL) }) := by
  have hwid := findWaiter_id hw
  have hf := step_fired env u t e hstep
  cases hf with
  | frame a frames t hs hrun =>
    exact Or.inl (by rw [runFrame_waiters env _ t a hrun]; exact hw)
  | ignored id1 signal r rest ht hc => exact Or.inl hw
  | signal id1 signal r rest frames ht hc hs =>
    exact Or.inl (by rw [onSignal_waiters]; exact hw)
  | call c hs => exact Or.inl (by rw [perform_waiters]; exact hw)
  | waitCookieMsg cb hs => exact Or.inl (by rw [waitCookieMsg_waiters]; exact hw)
  | waitForServiceMessagesCompleted cb timeout hs =>
    exact Or.inl (waitForServiceMessagesCompleted_findWaiter u cb timeout hw)
  | job batch b hs hb hd => exact Or.inl (by rw [runJob_waiters]; exact hw)
  | elapse dt hs => exact Or.inl hw
  | timeout waiter w1 due hs hw1 hdue hle =>
    have hw1id := findWaiter_id hw1
    have hmap := findWaiter_map
      (fun x => if x.id = w1.id then { x with timeoutDue := none, intervalDue := none } else x)
      (fun x => by dsimp only; split <;> rfl) hw
    have hws : (timeoutFires u w1).waiters = u.waiters.map
        (fun x => if x.id = w1.id then { x with timeoutDue := none, intervalDue := none }
          else x) := by
      simp only [timeoutFires]
      rw [runUserCb_waiters]
    by_cases hsame : waiter = id
    · subst hsame
      rw [hw] at hw1
      simp only [Option.some.injEq] at hw1
      subst hw1
      refine Or.inr (Or.inl ⟨rfl, ⟨due, hdue, hle⟩, rfl, ?_⟩)
      rw [hws, hmap]
      simp
    · left
      rw [hws, hmap]
      have : ¬ w.id = w1.id := by rw [hwid, hw1id]; exact fun h => hsame h.symm
      simp [this]
  | interval waiter w1 due hs hw1 hdue hle =>
    have hw1id := findWaiter_id hw1
    by_cases hzero : u.activeServiceMessagesCounter = 0
    · have hmap := findWaiter_map
        (fun x => if x.id = w1.id then { x with timeoutDue := none, intervalDue := none }
          else x)
        (fun x => by dsimp only; split <;> rfl) hw
      have hws : (intervalFires u w1 due).waiters = u.waiters.map
          (fun x => if x.id = w1.id then { x with timeoutDue := none, intervalDue := none }
            else x) := by
        simp only [intervalFires, hzero, if_true]
        rw [runUserCb_waiters]
      have heq : intervalFires u w1 due = timeoutFires u w1 := by
        simp [intervalFires, timeoutFires, hzero]
      by_cases hsame : waiter = id
      · subst hsame
        rw [hw] at hw1
        simp only [Option.some.injEq] at hw1
        subst hw1
        refine Or.inr (Or.inr (Or.inl ⟨rfl, ⟨due, hdue, hle⟩, hzero, heq, ?_⟩))
        rw [hws, hmap]
        simp
      · left
        rw [hws, hmap]
        have : ¬ w.id = w1.id := by rw [hwid, hw1id]; exact fun h => hsame h.symm
        simp [this]
    · have hmap := findWaiter_map
        (fun x => if x.id = w1.id then
            { x with intervalDue := some (due + SERVICE_MESSAGES_WAITING_INTERVAL) }
          else x)
        (fun x => by dsimp only; split <;> rfl) hw
      have hws : (intervalFires u w1 due).waiters = u.waiters.map
          (fun x => if x.id = w1.id then
              { x with intervalDue := some (due + SERVICE_MESSAGES_WAITING_INTERVAL) }
            else x) := by
        simp only [intervalFires, hzero, if_false]
      have hhist : (intervalFires u w1 due).history = u.history := by
        simp only [intervalFires, hzero, if_false]
      by_cases hsame : waiter = id
      · subst hsame
        rw [hw] at hw1
        simp only [Option.some.injEq] at hw1
        subst hw1
        refine Or.inr (Or.inr (Or.inr ⟨rfl, hzero, hhist, due, hdue, hle, ?_⟩))
        rw [hws, hmap]
        simp
      · left
        rw [hws, hmap]
        have : ¬ w.id = w1.id := by rw [hwid, hw1id]; exact fun h => hsame h.symm
        simp [this]
  | beforeunload hs => exact Or.inl hw
  | switchBack due rest hs hsb hle => exact Or.inl hw

theorem calledBack_step (env : Env) (u t : State) (e : Event) (id : Nat)
    (h : CalledBack id u) (hstep : step env u e = some t) : CalledBack id t := by
  obtain ⟨w, hw, h1, h2⟩ := h
  rcases step_waiter env u t e id w hw hstep with
    h | ⟨_, _, _, h⟩ | ⟨_, _, _, _, h⟩ | ⟨_, _, _, due, hdue, _⟩
  · exact ⟨w, h, h1, h2⟩
  · exact ⟨_, h, rfl, rfl⟩
  · exact ⟨_, h, rfl, rfl⟩
  · rw [h2] at hdue
    exact absurd hdue (by simp)

theorem calledBack_disabled (env : Env) (u : State) (id : Nat) (h : CalledBack id u) :
    step env u (Event.timeout id) = none ∧ step env u (Event.interval id) = none := by
  obtain ⟨w, hw, h1, h2⟩ := h
  constructor
  · simp only [step]
    split
    · simp [hw, h1]
    · rfl
  · simp only [step]
    split
    · simp [hw, h2]
    · rfl

theorem waiting_step (env : Env) (u t : State) (e : Event) (start timeout id : Nat)
    (cb : UserCb) (h : Waiting start timeout id cb u) (hstep : step env u e = some t) :
    Waiting start timeout id cb t ∨
    (CalledBack id t ∧ (∃ w, w.callback = cb ∧ t = timeoutFires u w) ∧
      ((e = Event.timeout id ∧ start + timeout ≤ u.clock) ∨
       (e = Event.interval id ∧ u.activeServiceMessagesCounter = 0 ∧
         ∃ k, 1 ≤ k ∧ start + SERVICE_MESSAGES_WAITING_INTERVAL * k ≤ u.clock))) := by
  obtain ⟨w, hw, hcb, hto, k, hk, hint⟩ := h
  rcases step_waiter env u t e id w hw hstep with
    h | ⟨he, ⟨due, hdue, hle⟩, ht, h⟩ | ⟨he, ⟨due, hdue, hle⟩, hzero, ht, h⟩ |
    ⟨_, _, _, due, hdue, hle, h⟩
  · exact Or.inl ⟨w, h, hcb, hto, k, hk, hint⟩
  · right
    rw [hto] at hdue
    simp only [Option.some.injEq] at hdue
    exact ⟨⟨_, h, rfl, rfl⟩, ⟨w, hcb, ht⟩, Or.inl ⟨he, by omega⟩⟩
  · right
    rw [hint] at hdue
    simp only [Option.some.injEq] at hdue
    exact ⟨⟨_, h, rfl, rfl⟩, ⟨w, hcb, ht⟩, Or.inr ⟨he, hzero, k, hk, by omega⟩⟩
  · left
    rw [hint] at hdue
    simp only [Option.some.injEq] at hdue
    refine ⟨_, h, hcb, hto, k + 1, by omega, ?_⟩
    simp only [SERVICE_MESSAGES_WAITING_INTERVAL] at hdue ⊢
    rw [← hdue]
    congr 1

theorem run_waiting (env : Env) (start timeout id : Nat) (cb : UserCb) (events : List Event) :
    ∀ (u v : State), Waiting start timeout id cb u ∨ CalledBack id u →
      run env u events = some v → Waiting start timeout id cb v ∨ CalledBack id v := by
  induction events with
  | nil =>
    intro u v h hrun
    simp [run] at hrun
    subst hrun
    exact h
  | cons e es ih =>
    intro u v h hrun
    simp only [run] at hrun
    cases hstep : step env u e with
    | none => simp [hstep] at hrun
    | some u1 =>
      simp only [hstep] at hrun
      refine ih u1 v ?_ hrun
      rcases h with h | h
      · rcases waiting_step env u u1 e start timeout id cb h hstep with h1 | ⟨h1, _⟩
        · exact Or.inl h1
        · exact Or.inr h1
      · exact Or.inr (calledBack_step env u u1 e id h hstep)

/-- C14, counterexample: a message is in flight when
`waitForServiceMessagesCompleted` is called at time 0 with the timeout 120;
the polls at 50 and 100 find the counter at 1, and the message completes at
110, before the timeout.  The callback has not been called, and it cannot be
called before the time 120: the next poll is due at 150 and the timeout at
120.  At 120 the timeout calls it. -/
theorem completion_between_polls_waits_for_timeout :
    (run sampleEnv (init none) quiescenceEvents).map
      (fun s => (s.clock, s.activeServiceMessagesCounter, s.inflight.length,
        callbacksOf 9 s.history)) = some (110, 0, 0, 0) ∧
    (List.range 10).all (fun dt => !canCallBack sampleEnv quiescenceState 1 dt) = true ∧
    ((step sampleEnv quiescenceState (Event.elapse 10)).bind
      (fun t => step sampleEnv t (Event.timeout 1))).map
      (fun v => (v.clock, callbacksOf 9 v.history)) = some (120, 1) :=
  ⟨rfl, by decide, rfl⟩

/-- C14, amended: `waitForServiceMessagesCompleted(cb, timeout)` calls `cb`
at once when the counter is 0.  Otherwise it calls nothing and registers a
waiter, whose timeout is due `timeout` units after the call and whose
interval is due at the ticks 50, 100, ... after the call.  From then on the
waiter either is waiting or has called back.  While it waits, a step leaves
it waiting, or calls `cb` and clears both timers: this is the timeout, at or
after `timeout` units from the call, or a tick of the interval at which the
counter is 0, whichever the environment runs first.  Once it has called back
it stays so, and neither its timeout nor its interval can fire: `cb` is not
called again. -/
theorem waitForServiceMessagesCompleted_calls_back_once (env : Env) (s : State)
    (cb : UserCb) (timeout : Nat) (hr : Reachable env s) (hs : s.stack = []) :
    (s.activeServiceMessagesCounter = 0 →
      step env s (Event.waitForServiceMessagesCompleted cb timeout) =
        some (runUserCb s cb false none) ∧
      (runUserCb s cb false none).waiters = s.waiters) ∧
    (s.activeServiceMessagesCounter ≠ 0 →
      ∃ s1, step env s (Event.waitForServiceMessagesCompleted cb timeout) = some s1 ∧
        s1.history = s.history ∧ Waiting s.clock timeout s.nextId cb s1 ∧
        ∀ events u, run env s1 events = some u →
          (Waiting s.clock timeout s.nextId cb u ∨ CalledBack s.nextId u) ∧
          (CalledBack s.nextId u →
            step env u (Event.timeout s.nextId) = none ∧
            step env u (Event.interval s.nextId) = none) ∧
          ∀ e t, step env u e = some t →
            (CalledBack s.nextId u → CalledBack s.nextId t) ∧
            (Waiting s.clock timeout s.nextId cb u →
              Waiting s.clock timeout s.nextId cb t ∨
              (CalledBack s.nextId t ∧ (∃ w, w.callback = cb ∧ t = timeoutFires u w) ∧
                ((e = Event.timeout s.nextId ∧ s.clock + timeout ≤ u.clock) ∨
                 (e = Event.interval s.nextId ∧ u.activeServiceMessagesCounter = 0 ∧
                   ∃ k, 1 ≤ k ∧
                     s.clock + SERVICE_MESSAGES_WAITING_INTERVAL * k ≤ u.clock))))) := by
  constructor
  · intro hz
    exact ⟨by simp [step, hs, waitForServiceMessagesCompleted, hz], runUserCb_waiters _ _ _ _⟩
  · intro hnz
    obtain ⟨store, events0, hrun0⟩ := hr
    have hid := run_idinv env events0 _ s (idinv_init store) hrun0
    have hnone : findWaiter s.nextId s.waiters = none := by
      unfold findWaiter
      rw [List.find?_eq_none]
      intro w hw
      have := hid.waiters w hw
      simp only [decide_eq_true_eq]
      omega
    have hwait : Waiting s.clock timeout s.nextId cb
        (waitForServiceMessagesCompleted s cb timeout) := by
      refine ⟨{ id := s.nextId, callback := cb, timeoutDue := some (s.clock + timeout),
                intervalDue := some (s.clock + SERVICE_MESSAGES_WAITING_INTERVAL) }, ?_, rfl,
        rfl, 1, le_refl _, by simp⟩
      simp only [waitForServiceMessagesCompleted, hnz, if_false]
      unfold findWaiter at hnone ⊢
      rw [List.find?_append, hnone]
      simp
    refine ⟨waitForServiceMessagesCompleted s cb timeout,
      by simp [step, hs], by simp [waitForServiceMessagesCompleted, hnz], hwait, ?_⟩
    intro events u hu
    have hP := run_waiting env s.clock timeout s.nextId cb events _ u (Or.inl hwait) hu
    refine ⟨hP, calledBack_disabled env u s.nextId, ?_⟩
    intro e t hstep
    exact ⟨fun h => calledBack_step env u t e s.nextId h hstep,
      fun h => waiting_step env u t e s.clock timeout s.nextId cb h hstep⟩

/-- Witness of the amended C14: with no message in flight the callback is
called at once; with one in flight, at time 0, nothing is called and waiter 1
waits with the timeout 120. -/
theorem waitForServiceMessagesCompleted_calls_back_once_witness :
    Reachable sampleEnv (init none) ∧ Reachable sampleEnv messageInFlight ∧
    messageInFlight.activeServiceMessagesCounter ≠ 0 ∧
    step sampleEnv (init none) (Event.waitForServiceMessagesCompleted (UserCb.fn 9 []) 120) =
      some (runUserCb (init none) (UserCb.fn 9 []) false none) ∧
    ∃ s1, step sampleEnv messageInFlight
        (Event.waitForServiceMessagesCompleted (UserCb.fn 9 []) 120) = some s1 ∧
      s1.history = messageInFlight.history ∧ Waiting 0 120 1 (UserCb.fn 9 []) s1 :=
  ⟨⟨none, [], rfl⟩,
   ⟨none, [Event.call (Call.asyncServiceMsg (sampleMsg 3 30) (UserCb.fn 5 []))], rfl⟩,
   by decide,
   ((waitForServiceMessagesCompleted_calls_back_once sampleEnv (init none) (UserCb.fn 9 []) 120
      ⟨none, [], rfl⟩ rfl).1 rfl).1,
   let ⟨s1, h1, h2, h3, _⟩ :=
     (waitForServiceMessagesCompleted_calls_back_once sampleEnv messageInFlight
       (UserCb.fn 9 []) 120
       ⟨none, [Event.call (Call.asyncServiceMsg (sampleMsg 3 30) (UserCb.fn 5 []))], rfl⟩
       rfl).2 (by decide)
   ⟨s1, h1, h2, h3⟩⟩

/-! ### C15: `syncServiceMsg` -/

theorem takeRequest_append_new (id : Nat) (r : Request) (hr : r.id = id) :
    ∀ l : List Request, (∀ x ∈ l, x.id ≠ id) → takeRequest id (l ++ [r]) = some (r, l) := by
  intro l
  induction l with
  | nil => intro _; simp [takeRequest, hr]
  | cons x xs ih =>
    intro h
    have hx : ¬ x.id = id := h x (List.mem_cons_self _ _)
    have h1 := ih (fun y hy => h y (List.mem_cons_of_mem _ hy))
    show takeRequest id (x :: (xs ++ [r])) = some (r, x :: xs)
    simp only [takeRequest, hx, if_false, h1]

theorem onSignal_of_completes (env : Env) (s : State) (r : Request) (signal : Signal)
    (hc : completes env r signal = true) :
    (∃ res, onSignal env s r signal = msgCallback s r res) ∨
    (r.forced = false ∧ onSignal env s r signal = errorHandler env s r) ∨
    (env.isIE9 = true ∧ r.forced = false ∧ onSignal env s r signal = s) := by
  unfold onSignal
  cases hf : r.forced with
  | true =>
    cases signal with
    | readystatechange readyState status res =>
      have h4 : readyState = 4 := by simpa [completes, hf] using hc
      exact Or.inl ⟨none, by simp [h4]⟩
    | load res => simp [completes, hf] at hc
    | abort => simp [completes, hf] at hc
    | error => simp [completes, hf] at hc
    | timeout => simp [completes, hf] at hc
  | false =>
    cases h9 : env.isIE9 with
    | true =>
      cases signal with
      | readystatechange readyState status res =>
        have h4 : readyState = 4 := by simpa [completes, hf, h9] using hc
        cases status with
        | none => exact Or.inr (Or.inl ⟨rfl, by simp [h4]⟩)
        | some n =>
          by_cases h200 : n = 200
          · exact Or.inl ⟨res, by simp [h4, h200]⟩
          · exact Or.inr (Or.inr ⟨rfl, rfl, by simp [h4, h200]⟩)
      | load res => simp [completes, hf, h9] at hc
      | abort => simp [completes, hf, h9] at hc
      | error => simp [completes, hf, h9] at hc
      | timeout => simp [completes, hf, h9] at hc
    | false =>
      cases signal with
      | load res => exact Or.inl ⟨res, by simp⟩
      | abort => exact Or.inr (Or.inl ⟨rfl, by simp⟩)
      | error => exact Or.inr (Or.inl ⟨rfl, by simp⟩)
      | timeout => exact Or.inr (Or.inl ⟨rfl, by simp⟩)
      | readystatechange readyState status res => simp [completes, hf, h9] at hc

theorem inSend_sendMsg (s : State) (call : Nat) (msg : Msg) (stored forced : Bool)
    (cb : UserCb) (hid : ∀ r ∈ s.inflight, r.id < s.nextId)
    (hsync : (if forced then false else s.useAsyncXhr) = false) :
    InSend stored cb (sendMsg s call msg (SendCb.sync stored cb) forced) := by
  refine ⟨s.nextId, s.stack, Request.mk s.nextId call msg forced false (SendCb.sync stored cb),
    s.inflight, ?_, ?_, rfl, rfl⟩
  · simp [sendMsg, hsync]
  · simp only [sendMsg, hsync]
    exact takeRequest_append_new s.nextId _ rfl s.inflight
      (fun x hx => Nat.ne_of_lt (hid x hx))

/-- C15: whatever the mode flag is, `syncServiceMsg(msg, cb)` issues its
request synchronously and leaves the turn inside `request.send`; the queues,
the handlers, the waiters and the batches are as before and the counter is
one higher.  Until the callback of the call runs, the turn stays inside a
synchronous send of that call (the first request or its forced retry) and
nothing else runs; and the signal that completes the send either calls `cb`,
in a state where `useAsyncXhr` is what it was before the call, or, in IE9
with a status other than 200, calls nothing. -/
theorem syncServiceMsg_restores_mode (env : Env) (s : State) (msg : Msg) (tag : Nat)
    (body : List Call) (hr : Reachable env s) :
    (requestsIssued (syncServiceMsg env s msg (UserCb.fn tag body)).history =
      requestsIssued s.history ++ [(s.nextCall, false, false)] ∧
     InSend s.useAsyncXhr (UserCb.fn tag body) (syncServiceMsg env s msg (UserCb.fn tag body)) ∧
     (syncServiceMsg env s msg (UserCb.fn tag body)).msgQueue = s.msgQueue ∧
     (syncServiceMsg env s msg (UserCb.fn tag body)).activeServiceMessagesCounter =
       s.activeServiceMessagesCounter + 1 ∧
     (syncServiceMsg env s msg (UserCb.fn tag body)).listeners = s.listeners ∧
     (syncServiceMsg env s msg (UserCb.fn tag body)).waiters = s.waiters ∧
     (syncServiceMsg env s msg (UserCb.fn tag body)).batches = s.batches ∧
     callbacksOf tag (syncServiceMsg env s msg (UserCb.fn tag body)).history =
       callbacksOf tag s.history) ∧
    ∀ u e t, Reachable env u → InSend s.useAsyncXhr (UserCb.fn tag body) u →
      step env u e = some t →
      (∃ id signal, e = Event.xhr id signal) ∧ t.msgQueue = u.msgQueue ∧
      ((InSend s.useAsyncXhr (UserCb.fn tag body) t ∧
          callbacksOf tag t.history = callbacksOf tag u.history) ∨
       (env.isIE9 = true ∧ t.history = u.history) ∨
       (∃ call res, t.history = u.history ++ [Obs.msgCallback call res, Obs.callback tag res] ∧
          t.useAsyncXhr = s.useAsyncXhr)) := by
  refine ⟨?_, ?_⟩
  · obtain ⟨store, events, hrun⟩ := hr
    have hid := run_idinv env events _ s (idinv_init store) hrun
    refine ⟨?_, ?_, rfl, rfl, rfl, rfl, rfl, ?_⟩
    · simp [syncServiceMsg, asyncServiceMsg, sendMsg, _removeMessageFromStore, requestsIssued,
        List.filterMap_append, Obs.requestOf]
    · exact inSend_sendMsg _ _ _ _ false _ hid.inflight rfl
    · simp [syncServiceMsg, asyncServiceMsg, sendMsg, _removeMessageFromStore, callbacksOf,
        List.countP_append, Obs.callbackOf]
  · intro u e t hru hin hstep
    obtain ⟨store, events, hrun⟩ := hru
    have hid := run_idinv env events _ u (idinv_init store) hrun
    obtain ⟨j, frames, r, rest, hstack, htake, hasync, hcb⟩ := hin
    have hfired := step_fired env u t e hstep
    cases hfired with
    | frame a frames1 t hs h =>
      rw [hstack] at hs
      simp only [List.cons.injEq] at hs
      obtain ⟨ha, _⟩ := hs
      subst ha
      simp [runFrame] at h
    | ignored id signal r1 rest1 ht1 hc =>
      exact ⟨⟨id, signal, rfl⟩, rfl, Or.inl ⟨⟨j, frames, r, rest, hstack, htake, hasync, hcb⟩, rfl⟩⟩
    | signal id signal r1 rest1 frames1 ht1 hc hs =>
      rcases hs with ⟨_, hnil, _⟩ | ⟨_, hst⟩
      · rw [hstack] at hnil
        exact absurd hnil (by simp)
      · rw [hstack] at hst
        simp only [List.cons.injEq, Action.awaitSync.injEq] at hst
        obtain ⟨hj, hfr⟩ := hst
        subst hj hfr
        rw [htake] at ht1
        simp only [Option.some.injEq, Prod.mk.injEq] at ht1
        obtain ⟨e1, e2⟩ := ht1
        subst e1 e2
        refine ⟨⟨j, signal, rfl⟩, ?_, ?_⟩
        · rcases onSignal_cases env { u with inflight := rest, stack := frames } r signal with
            h | ⟨res, h⟩ | ⟨_, h⟩
          · rw [h]
          · rw [h]
            simp [msgCallback, hcb, runSendCb, runUserCb]
          · rw [h]
            unfold errorHandler
            split
            · simp [msgCallback, hcb, runSendCb, runUserCb, _storeMessage]
            · rfl
        · have hrest : ∀ x ∈ rest, x.id < u.nextId :=
            fun x hx => hid.inflight x ((takeRequest_mem j _ _ _ htake).2.2 x hx)
          rcases onSignal_of_completes env { u with inflight := rest, stack := frames } r signal
            hc with ⟨res, h⟩ | ⟨_, h⟩ | ⟨h9, _, h⟩
          · right; right
            rw [h]
            exact ⟨r.call, res, by simp [msgCallback, hcb, runSendCb, runUserCb],
              by simp [msgCallback, hcb, runSendCb, runUserCb]⟩
          · rw [h]
            unfold errorHandler
            split
            · right; right
              exact ⟨r.call, none, by simp [msgCallback, hcb, runSendCb, runUserCb, _storeMessage],
                by simp [msgCallback, hcb, runSendCb, runUserCb]⟩
            · left
              rw [hcb]
              exact ⟨inSend_sendMsg { u with inflight := rest, stack := frames } r.call r.msg
                  s.useAsyncXhr true (UserCb.fn tag body) hrest rfl,
                by simp [sendMsg, callbacksOf, List.countP_append, Obs.callbackOf]⟩
          · right; left
            rw [h]
            exact ⟨h9, rfl⟩
    | call c hs => rw [hstack] at hs; exact absurd hs (by simp)
    | waitCookieMsg cb hs => rw [hstack] at hs; exact absurd hs (by simp)
    | waitForServiceMessagesCompleted cb timeout hs =>
      rw [hstack] at hs; exact absurd hs (by simp)
    | job batch b hs hb hd => rw [hstack] at hs; exact absurd hs (by simp)
    | elapse dt hs => rw [hstack] at hs; exact absurd hs (by simp)
    | timeout waiter w due hs hw hdue hle => rw [hstack] at hs; exact absurd hs (by simp)
    | interval waiter w due hs hw hdue hle => rw [hstack] at hs; exact absurd hs (by simp)
    | beforeunload hs => rw [hstack] at hs; exact absurd hs (by simp)
    | switchBack due rest1 hs hsb hle => rw [hstack] at hs; exact absurd hs (by simp)

/-- Witness of C15: in asynchronous mode the request of `syncServiceMsg` is
issued synchronously; it loads, and when the callback is called the mode flag
is `true` again. -/
theorem syncServiceMsg_restores_mode_witness :
    Reachable sampleEnv (init none) ∧ (init none).useAsyncXhr = true ∧
    requestsIssued (syncServiceMsg sampleEnv (init none) (sampleMsg 3 30)
      (UserCb.fn 5 [])).history = requestsIssued (init none).history ++ [(0, false, false)] ∧
    (syncServiceMsg sampleEnv (init none) (sampleMsg 3 30) (UserCb.fn 5 [])).useAsyncXhr =
      false ∧
    (step sampleEnv (syncServiceMsg sampleEnv (init none) (sampleMsg 3 30) (UserCb.fn 5 []))
      (Event.xhr 0 (Signal.load (some 8)))).map
      (fun t => (t.useAsyncXhr, t.history.filter (Obs.callbackOf 5))) =
      some (true, [Obs.callback 5 (some 8)]) :=
  ⟨⟨none, [], rfl⟩, rfl,
   (syncServiceMsg_restores_mode sampleEnv (init none) (sampleMsg 3 30) 5 []
      ⟨none, [], rfl⟩).1.1, rfl, rfl⟩

/-! ### C13: `waitCookieMsg` -/

/-- C13: two callbacks wait for the set-cookie queue and the page is in
synchronous mode when the set-cookie request loads.  The handler of the first
unsubscribes and calls its callback, which queues a message of command 2; its
synchronous request completes inside the call and emits the signal again,
which the handler of the second callback receives: it unsubscribes and calls
callback 7.  The first signal, still being delivered, then reaches the same
handler, which finds the queue empty and calls callback 7 a second time.  In
asynchronous mode the same calls lead to one call of callback 7. -/
theorem nested_signal_calls_waiter_twice :
    cookieWaitSummary nestedSignalEvents = some (0, 0, 0, 0, 1, 2) ∧
    (run sampleEnv (init none) nestedSignalEvents).map (fun s => s.history.drop 11) =
      some [Obs.msgCallback 1 none, Obs.completed 2, Obs.callback 7 none,
        Obs.callback 7 none] ∧
    cookieWaitSummary plainSignalEvents = some (0, 0, 0, 0, 1, 1) :=
  ⟨rfl, rfl, rfl⟩

/-! ### C17: reading the store -/

/-- C17, counterexample: the item of the session holds `[`, which is not the
serialisation of a list; `parseJSON` throws, and so do `_getStoredMessages`,
`batchUpdate`, before it calls `updateCallback`, and `asyncServiceMsg`,
before it sends. -/
theorem corrupt_store_raises :
    Raw._getStoredMessages sampleParseJSON (some "[") = Except.error "SyntaxError" ∧
    Raw.batchUpdate sampleParseJSON (some "[") (init none) (UserCb.fn 4 []) =
      Except.error "SyntaxError" ∧
    Raw.asyncServiceMsg sampleParseJSON (some "[") sampleEnv (init none) (sampleMsg 3 30)
      (SendCb.user (UserCb.fn 5 [])) = Except.error "SyntaxError" := by
  have h : Raw._getStoredMessages sampleParseJSON (some "[") = Except.error "SyntaxError" := by
    simp [Raw._getStoredMessages, sampleParseJSON, sampleItem]
  refine ⟨h, ?_, ?_⟩
  · simp only [Raw.batchUpdate, h]
  · simp only [Raw.asyncServiceMsg, h]

/-- C17, amended: `_getStoredMessages` returns the empty list, without
parsing, when the item of the session is absent or the empty string, and
`batchUpdate` then calls `updateCallback` at once; for any other string it
returns what `parseJSON` returns: the list a serialised list stands for, and
for a corrupt string the error, which `_getStoredMessages`, `batchUpdate` and
`asyncServiceMsg` let through. -/
theorem getStoredMessages_reads_item (parseJSON : String → Except String (List Msg))
    (item : Option String) (env : Env) (s : State) (cb : UserCb) (msg : Msg) (send : SendCb) :
    (item = none ∨ item = some "" →
      Raw._getStoredMessages parseJSON item = Except.ok [] ∧
      Raw.batchUpdate parseJSON item s cb =
        Except.ok (runUserCb { s with store := some [] } cb false none)) ∧
    (∀ str l, item = some str → str ≠ "" → parseJSON str = Except.ok l →
      Raw._getStoredMessages parseJSON item = Except.ok l ∧
      Raw.batchUpdate parseJSON item s cb =
        Except.ok (batchUpdate { s with store := some l } cb) ∧
      Raw.asyncServiceMsg parseJSON item env s msg send =
        Except.ok (asyncServiceMsg env { s with store := some l } msg send)) ∧
    (∀ str err, item = some str → str ≠ "" → parseJSON str = Except.error err →
      Raw._getStoredMessages parseJSON item = Except.error err ∧
      Raw.batchUpdate parseJSON item s cb = Except.error err ∧
      Raw.asyncServiceMsg parseJSON item env s msg send = Except.error err) := by
  refine ⟨?_, ?_, ?_⟩
  · rintro (h | h) <;> subst h <;>
      simp [Raw._getStoredMessages, Raw.batchUpdate, batchUpdate, _getStoredMessages]
  · intro str l hi hne hp
    subst hi
    simp [Raw._getStoredMessages, Raw.batchUpdate, Raw.asyncServiceMsg, hne, hp]
  · intro str err hi hne hp
    subst hi
    simp [Raw._getStoredMessages, Raw.batchUpdate, Raw.asyncServiceMsg, hne, hp]

/-- Witness of the amended C17: an absent item, the serialisation of a list
of one message, and a corrupt string. -/
theorem getStoredMessages_reads_item_witness :
    Raw._getStoredMessages sampleParseJSON none = Except.ok [] ∧
    Raw._getStoredMessages sampleParseJSON
      (some sampleItem) = Except.ok [storedMsg 3 30] ∧
    Raw.batchUpdate sampleParseJSON (some "[") (init none) UserCb.absent =
      Except.error "SyntaxError" :=
  ⟨((getStoredMessages_reads_item sampleParseJSON none sampleEnv (init none) UserCb.absent
      (sampleMsg 3 30) (SendCb.user UserCb.absent)).1 (Or.inl rfl)).1,
   ((getStoredMessages_reads_item sampleParseJSON
      (some sampleItem) sampleEnv (init none)
      UserCb.absent (sampleMsg 3 30) (SendCb.user UserCb.absent)).2.1 _ _ rfl (by decide)
      (by simp [sampleParseJSON, sampleItem])).1,
   ((getStoredMessages_reads_item sampleParseJSON (some "[") sampleEnv (init none)
      UserCb.absent (sampleMsg 3 30) (SendCb.user UserCb.absent)).2.2 _ _ rfl (by decide)
      (by simp [sampleParseJSON, sampleItem])).2.1⟩

/-! ### C19: `_removeMessageFromStore` -/

theorem spliceFirst_of_no_match (cmd : Cmd) :
    ∀ l : List Msg, (∀ m ∈ l, m.cmd ≠ cmd) → spliceFirst cmd l = l := by
  intro l
  induction l with
  | nil => intro _; rfl
  | cons m ms ih =>
    intro h
    have hm : ¬ m.cmd = cmd := h m (List.mem_cons_self _ _)
    simp only [spliceFirst, hm, if_false]
    rw [ih (fun x hx => h x (List.mem_cons_of_mem _ hx))]

theorem spliceFirst_of_first_match (cmd : Cmd) (m : Msg) (post : List Msg) (hm : m.cmd = cmd) :
    ∀ pre : List Msg, (∀ x ∈ pre, x.cmd ≠ cmd) → spliceFirst cmd (pre ++ m :: post) = pre ++ post := by
  intro pre
  induction pre with
  | nil => intro _; simp [spliceFirst, hm]
  | cons x xs ih =>
    intro h
    have hx : ¬ x.cmd = cmd := h x (List.mem_cons_self _ _)
    simp only [List.cons_append, spliceFirst, hx, if_false]
    exact congrArg (List.cons x) (ih (fun y hy => h y (List.mem_cons_of_mem _ hy)))

/-- C19: `_removeMessageFromStore(cmd)` writes back the stored list with
the first record whose `cmd` is `cmd` taken out and every other record, later
records of the same `cmd` included, kept in its place; when no record has the
`cmd`, it writes back the list as it is.  The list written back is shorter by
one record or as long as the stored one, and nothing but the store item
changes. -/
theorem removeMessageFromStore_removes_first_match (s : State) (cmd : Cmd) :
    ((∀ m ∈ _getStoredMessages s, m.cmd ≠ cmd) →
      _getStoredMessages (_removeMessageFromStore s cmd) = _getStoredMessages s) ∧
    (∀ pre m post, _getStoredMessages s = pre ++ m :: post → m.cmd = cmd →
      (∀ x ∈ pre, x.cmd ≠ cmd) →
      _getStoredMessages (_removeMessageFromStore s cmd) = pre ++ post ∧
      (_getStoredMessages (_removeMessageFromStore s cmd)).length + 1 =
        (_getStoredMessages s).length) ∧
    _removeMessageFromStore s cmd =
      { s with store := some (_getStoredMessages (_removeMessageFromStore s cmd)) } := by
  refine ⟨?_, ?_, rfl⟩
  · intro h
    show spliceFirst cmd (_getStoredMessages s) = _
    exact spliceFirst_of_no_match cmd _ h
  · intro pre m post hl hm hpre
    have h1 : _getStoredMessages (_removeMessageFromStore s cmd) = pre ++ post := by
      show spliceFirst cmd (_getStoredMessages s) = _
      rw [hl]
      exact spliceFirst_of_first_match cmd m post hm pre hpre
    refine ⟨h1, ?_⟩
    rw [h1, hl]
    simp
    omega

/-- Witness of C19: of the records of commands 1, 2, 1 the first of command 1
is removed and the later one stays; no record has command 5. -/
theorem removeMessageFromStore_removes_first_match_witness :
    _getStoredMessages (_removeMessageFromStore replayStart 1) =
      [storedMsg 2 20, storedMsg 1 11] ∧
    _getStoredMessages (_removeMessageFromStore replayStart 5) =
      _getStoredMessages replayStart :=
  ⟨((removeMessageFromStore_removes_first_match replayStart 1).2.1 [] (storedMsg 1 10)
      [storedMsg 2 20, storedMsg 1 11] rfl rfl (by simp)).1,
   (removeMessageFromStore_removes_first_match replayStart 5).1 (by
      intro m hm
      simp only [replayStart, init, _getStoredMessages, List.mem_cons, List.mem_singleton,
        List.not_mem_nil, or_false] at hm
      rcases hm with rfl | rfl | rfl <;> decide)⟩

end Transport

namespace Resources

@[simp] theorem withCharset_encoding (c : Ctx) (cs : Charset) :
    (withCharset c cs).encoding = c.encoding := rfl
@[simp] theorem withCharset_destResBody (c : Ctx) (cs : Charset) :
    (withCharset c cs).destResBody = c.destResBody := rfl
@[simp] theorem withCharset_charset (c : Ctx) (cs : Charset) :
    (withCharset c cs).charset = cs := rfl
@[simp] theorem withCharset_info (c : Ctx) (cs : Charset) :
    (withCharset c cs).info = c.info := rfl
@[simp] theorem withCharset_withCharset (c : Ctx) (cs cs1 : Charset) :
    withCharset (withCharset c cs) cs1 = withCharset c cs1 := rfl

/-! ### The loop of `process` -/

theorem select_fst (ctx : Ctx) (ps : List Processor) :
    ∀ (i : Nat) (trace : List Effect), (select ctx i ps trace).1 = (select ctx i ps []).1 := by
  induction ps with
  | nil => intro i trace; rfl
  | cons p ps ih =>
    intro i trace
    simp only [select]
    split
    · rfl
    · rw [ih (i + 1) (trace ++ _), ih (i + 1) ([] ++ _)]

theorem select_transformsOf (ctx : Ctx) (ps : List Processor) :
    ∀ (i : Nat) (trace : List Effect),
      transformsOf (select ctx i ps trace).2 = transformsOf trace := by
  induction ps with
  | nil => intro i trace; rfl
  | cons p ps ih =>
    intro i trace
    simp only [select]
    split
    · simp [transformsOf, List.filterMap_append]
    · rw [ih]
      simp [transformsOf, List.filterMap_append]

theorem select_decodesOf (ctx : Ctx) (ps : List Processor) :
    ∀ (i : Nat) (trace : List Effect),
      decodesOf (select ctx i ps trace).2 = decodesOf trace := by
  induction ps with
  | nil => intro i trace; rfl
  | cons p ps ih =>
    intro i trace
    simp only [select]
    split
    · simp [decodesOf, List.countP_append]
    · rw [ih]
      simp [decodesOf, List.countP_append]

theorem select_encodesOf (ctx : Ctx) (ps : List Processor) :
    ∀ (i : Nat) (trace : List Effect),
      encodesOf (select ctx i ps trace).2 = encodesOf trace := by
  induction ps with
  | nil => intro i trace; rfl
  | cons p ps ih =>
    intro i trace
    simp only [select]
    split
    · simp [encodesOf, List.countP_append]
    · rw [ih]
      simp [encodesOf, List.countP_append]

theorem select_mem (ctx : Ctx) (ps : List Processor) :
    ∀ (i : Nat) (trace : List Effect) (e : Effect),
      e ∈ trace → e ∈ (select ctx i ps trace).2 := by
  induction ps with
  | nil => intro i trace e h; exact h
  | cons p ps ih =>
    intro i trace e h
    simp only [select]
    split
    · simp [h]
    · exact ih _ _ e (by simp [h])

theorem select_none (ctx : Ctx) (ps : List Processor) :
    ∀ (i : Nat) (trace : List Effect),
      (∀ q ∈ ps, q.shouldProcessResource ctx = false) → (select ctx i ps trace).1 = none := by
  induction ps with
  | nil => intro i trace _; rfl
  | cons p ps ih =>
    intro i trace h
    simp only [select]
    have hp : p.shouldProcessResource ctx = false := h p (by simp)
    simp only [hp]
    exact ih _ _ fun q hq => h q (by simp [hq])

/-- What `select` returns is the first processor of the list that accepts
the context. -/
theorem select_first (ctx : Ctx) (ps : List Processor) :
    ∀ (i k : Nat) (trace : List Effect) (p : Processor),
      (select ctx i ps trace).1 = some (k, p) →
      ∃ n, k = i + n ∧ ps[n]? = some p ∧ p.shouldProcessResource ctx = true ∧
        ∀ m, m < n → ∀ q, ps[m]? = some q → q.shouldProcessResource ctx = false := by
  induction ps with
  | nil => intro i k trace p h; simp [select] at h
  | cons x xs ih =>
    intro i k trace p h
    simp only [select] at h
    split at h
    next hx =>
      simp at h
      obtain ⟨h1, h2⟩ := h
      subst h1 h2
      exact ⟨0, rfl, by simp, hx, fun m hm => absurd hm (Nat.not_lt_zero m)⟩
    next hx =>
      obtain ⟨n, h1, h2, h3, h4⟩ := ih _ _ _ _ h
      refine ⟨n + 1, by omega, by simpa using h2, h3, ?_⟩
      intro m hm q hq
      cases m with
      | zero =>
        simp at hq
        subst hq
        simpa using hx
      | succ m => exact h4 m (by omega) q (by simpa using hq)

theorem firstMatch_eq (d : Deps) (ctx : Ctx) (trace : List Effect) :
    (select ctx 0 (processors d) trace).1 = firstMatch d ctx :=
  select_fst ctx (processors d) 0 trace

/-- Selection does not change when only the charset of the context changes,
for processors whose predicate does not read the charset. -/
theorem select_stable (ps : List Processor)
    (hs : ∀ q ∈ ps, ∀ (c : Ctx) (cs : Charset),
      q.shouldProcessResource (withCharset c cs) = q.shouldProcessResource c)
    (c : Ctx) (cs : Charset) :
    ∀ (i : Nat), (select (withCharset c cs) i ps []).1 = (select c i ps []).1 := by
  induction ps with
  | nil => intro i; rfl
  | cons p ps ih =>
    intro i
    simp only [select]
    rw [hs p (by simp) c cs]
    split
    · rfl
    · rw [select_fst, select_fst c ps (i + 1) ([] ++ _)]
      exact ih (fun q hq => hs q (by simp [hq])) (i + 1)

/-! ### One pass of `process` -/

theorem process_unmatched (d : Deps) (ctx : Ctx) (trace : List Effect) (fuel : Nat)
    (hsel : firstMatch d (decodedCtx d ctx) = none) :
    process d (fuel + 1) ctx trace =
      some { body := ctx.destResBody, ctx := decodedCtx d ctx, trace := passTrace d ctx trace } := by
  have h : select (decodedCtx d ctx) 0 (processors d)
      (trace ++ [Effect.decodeContent ctx.encoding ctx.charset]) =
      (none, passTrace d ctx trace) :=
    Prod.ext (by rw [firstMatch_eq]; exact hsel) rfl
  simp only [process]
  simp only [decodedCtx, withCharset] at h
  rw [h]
  rfl

theorem process_content (d : Deps) (ctx : Ctx) (trace : List Effect) (fuel i : Nat)
    (p : Processor) (text : String) (cs : Charset)
    (hsel : firstMatch d (decodedCtx d ctx) = some (i, p))
    (hres : p.processResource (d.decodeContent ctx.destResBody ctx.encoding ctx.charset).1
      (decodedCtx d ctx) (getResourceUrlReplacer d.url (decodedCtx d ctx)) =
      (Processed.content text, cs)) :
    process d (fuel + 1) ctx trace =
      some { body := d.encodeContent text ctx.encoding cs
             ctx := (withCharset ctx cs)
             trace := passTrace d ctx trace ++
               [Effect.processResource i (decodedCtx d ctx).charset,
                Effect.encodeContent text ctx.encoding cs] } := by
  have h : select (decodedCtx d ctx) 0 (processors d)
      (trace ++ [Effect.decodeContent ctx.encoding ctx.charset]) =
      (some (i, p), passTrace d ctx trace) :=
    Prod.ext (by rw [firstMatch_eq]; exact hsel) rfl
  simp only [process]
  simp only [decodedCtx, withCharset] at h hres
  rw [h]
  simp only [hres]
  simp [decodedCtx, withCharset]

theorem process_restart (d : Deps) (ctx : Ctx) (trace : List Effect) (fuel i : Nat)
    (p : Processor) (cs : Charset)
    (hsel : firstMatch d (decodedCtx d ctx) = some (i, p))
    (hres : p.processResource (d.decodeContent ctx.destResBody ctx.encoding ctx.charset).1
      (decodedCtx d ctx) (getResourceUrlReplacer d.url (decodedCtx d ctx)) =
      (Processed.restart, cs)) :
    process d (fuel + 1) ctx trace =
      process d fuel (withCharset ctx cs)
        (passTrace d ctx trace ++ [Effect.processResource i (decodedCtx d ctx).charset]) := by
  have h : select (decodedCtx d ctx) 0 (processors d)
      (trace ++ [Effect.decodeContent ctx.encoding ctx.charset]) =
      (some (i, p), passTrace d ctx trace) :=
    Prod.ext (by rw [firstMatch_eq]; exact hsel) rfl
  simp only [process]
  simp only [decodedCtx, withCharset] at h hres
  rw [h]
  simp only [hres]
  simp [decodedCtx, withCharset]

theorem passTrace_transformsOf (d : Deps) (ctx : Ctx) (trace : List Effect) :
    transformsOf (passTrace d ctx trace) = transformsOf trace := by
  rw [passTrace, select_transformsOf]
  simp [transformsOf, List.filterMap_append]

theorem passTrace_decodesOf (d : Deps) (ctx : Ctx) (trace : List Effect) :
    decodesOf (passTrace d ctx trace) = decodesOf trace + 1 := by
  rw [passTrace, select_decodesOf]
  simp [decodesOf, List.countP_append]

theorem passTrace_encodesOf (d : Deps) (ctx : Ctx) (trace : List Effect) :
    encodesOf (passTrace d ctx trace) = encodesOf trace := by
  rw [passTrace, select_encodesOf]
  simp [encodesOf, List.countP_append]

theorem passTrace_mem (d : Deps) (ctx : Ctx) (trace : List Effect) :
    Effect.decodeContent ctx.encoding ctx.charset ∈ passTrace d ctx trace :=
  select_mem _ _ _ _ _ (by simp)

end Resources

namespace Resources

theorem firstMatch_stable (d : Deps)
    (hs : ∀ q ∈ processors d, ∀ (c : Ctx) (cs : Charset),
      q.shouldProcessResource (withCharset c cs) = q.shouldProcessResource c)
    (c : Ctx) (cs : Charset) : firstMatch d (withCharset c cs) = firstMatch d c :=
  select_stable (processors d) hs c cs 0

theorem process_transforms_stable (d : Deps) (i : Nat) (p : Processor)
    (hs : ∀ q ∈ processors d, ∀ (c : Ctx) (cs : Charset),
      q.shouldProcessResource (withCharset c cs) = q.shouldProcessResource c) :
    ∀ (fuel : Nat) (ctx : Ctx) (trace : List Effect) (out : Outcome),
      firstMatch d (decodedCtx d ctx) = some (i, p) →
      process d fuel ctx trace = some out →
      ∀ j ∈ transformsOf out.trace, j ∈ transformsOf trace ∨ j = i := by
  intro fuel
  induction fuel with
  | zero => intro ctx trace out _ h; simp [process] at h
  | succ fuel ih =>
    intro ctx trace out hsel hrun j hj
    cases hres : p.processResource (d.decodeContent ctx.destResBody ctx.encoding ctx.charset).1
        (decodedCtx d ctx) (getResourceUrlReplacer d.url (decodedCtx d ctx)) with
    | mk r cs =>
      cases r with
      | content text =>
        rw [process_content d ctx trace fuel i p text cs hsel hres] at hrun
        simp only [Option.some.injEq] at hrun
        subst hrun
        simp only [transformsOf, List.filterMap_append] at hj
        have hp := passTrace_transformsOf d ctx trace
        simp only [transformsOf] at hp
        rw [hp] at hj
        simpa [transformsOf] using hj
      | restart =>
        rw [process_restart d ctx trace fuel i p cs hsel hres] at hrun
        have hsel1 : firstMatch d (decodedCtx d (withCharset ctx cs)) =
            some (i, p) := by
          have h1 : firstMatch d (decodedCtx d (withCharset ctx cs)) =
              firstMatch d ctx := firstMatch_stable d hs ctx _
          have h2 : firstMatch d (decodedCtx d ctx) = firstMatch d ctx :=
            firstMatch_stable d hs ctx _
          rw [h1, ← h2]
          exact hsel
        rcases ih _ _ out hsel1 hrun j hj with h | h
        · simp only [transformsOf, List.filterMap_append] at h
          have hp := passTrace_transformsOf d ctx trace
          simp only [transformsOf] at hp
          rw [hp] at h
          simpa [transformsOf] using h
        · exact Or.inr h

theorem firstMatch_eq_firstAccepting (d : Deps) (ctx : Ctx) :
    firstMatch d ctx = firstAccepting d ctx := by
  simp only [firstMatch, processors, select, firstAccepting]
  split_ifs <;> rfl

/-- C3, counterexample: the context is accepted by the script processor only.
Its `processResource` returns `RESTART_PROCESSING` and leaves the charset
`koi8-r`; in the second pass the page processor, which reads the charset,
accepts the context, and `process` calls its `processResource`: the transforms
called are those of the processors 2 (script) and 0 (page). -/
theorem restart_invokes_another_processor :
    rereadingDeps.page.shouldProcessResource (decodedCtx rereadingDeps (sampleCtx 2)) = false ∧
    rereadingDeps.manifest.shouldProcessResource (decodedCtx rereadingDeps (sampleCtx 2)) =
      false ∧
    rereadingDeps.script.shouldProcessResource (decodedCtx rereadingDeps (sampleCtx 2)) = true ∧
    rereadingDeps.stylesheet.shouldProcessResource (decodedCtx rereadingDeps (sampleCtx 2)) =
      false ∧
    (firstAccepting rereadingDeps (decodedCtx rereadingDeps (sampleCtx 2))).map Prod.fst =
      some 2 ∧
    (process rereadingDeps 2 (sampleCtx 2) []).map
      (fun o => (transformsOf o.trace, decodesOf o.trace, encodesOf o.trace)) =
      some ([2, 0], 2, 1) ∧
    (process rereadingDeps 2 (sampleCtx 2) []).map (fun o => o.body) =
      some (rereadingDeps.encodeContent "<page>koi8-r:3" "gzip" "koi8-r") := by
  refine ⟨by decide, by decide, by decide, by decide, by decide, by decide, by decide⟩

/-- C3, amended: when at least one of the processors page, manifest, script,
stylesheet accepts the context of the pass, `process` selects the first of
them in this order that does, `p` with number `i`, and in that pass calls
`processResource` of `p` and of no other processor.  (1) When it returns a
text, `process` returns `encodeContent` of that text with the encoding and the
charset of the context, and the `processResource` of `p` is the only one
called.  (2) When it returns `RESTART_PROCESSING`, `process` starts over on
the context with the charset the pass left, having called `processResource`
of `p` only and no `encodeContent`; the selection is made again there.
(3) When the predicates do not read the charset, every `processResource`
that `process` calls, restarts included, is that of `p`.  (4) A context
accepted by the script processor and by neither the page nor the manifest
processor selects the script processor. -/
theorem process_invokes_first_accepting (d : Deps) (ctx : Ctx)
    (hacc : d.page.shouldProcessResource (decodedCtx d ctx) = true ∨
      d.manifest.shouldProcessResource (decodedCtx d ctx) = true ∨
      d.script.shouldProcessResource (decodedCtx d ctx) = true ∨
      d.stylesheet.shouldProcessResource (decodedCtx d ctx) = true) :
    ∃ i p, firstAccepting d (decodedCtx d ctx) = some (i, p) ∧
      (∀ (text : String) (cs : Charset) (fuel : Nat),
        p.processResource (d.decodeContent ctx.destResBody ctx.encoding ctx.charset).1
          (decodedCtx d ctx) (getResourceUrlReplacer d.url (decodedCtx d ctx)) =
          (Processed.content text, cs) →
        ∃ out, process d (fuel + 1) ctx [] = some out ∧
          out.body = d.encodeContent text ctx.encoding cs ∧
          transformsOf out.trace = [i] ∧ encodesOf out.trace = 1 ∧
          Effect.encodeContent text ctx.encoding cs ∈ out.trace) ∧
      (∀ (cs : Charset) (fuel : Nat),
        p.processResource (d.decodeContent ctx.destResBody ctx.encoding ctx.charset).1
          (decodedCtx d ctx) (getResourceUrlReplacer d.url (decodedCtx d ctx)) =
          (Processed.restart, cs) →
        ∃ trace, transformsOf trace = [i] ∧ encodesOf trace = 0 ∧
          process d (fuel + 1) ctx [] = process d fuel (withCharset ctx cs) trace) ∧
      ((∀ q ∈ [d.page, d.manifest, d.script, d.stylesheet], ∀ (c : Ctx) (cs : Charset),
          q.shouldProcessResource (withCharset c cs) = q.shouldProcessResource c) →
        ∀ (fuel : Nat) (out : Outcome), process d fuel ctx [] = some out →
          ∀ j ∈ transformsOf out.trace, j = i) ∧
      (d.page.shouldProcessResource (decodedCtx d ctx) = false →
        d.manifest.shouldProcessResource (decodedCtx d ctx) = false →
        d.script.shouldProcessResource (decodedCtx d ctx) = true → i = 2 ∧ p = d.script) := by
  have hsome : ∃ i p, firstAccepting d (decodedCtx d ctx) = some (i, p) := by
    unfold firstAccepting
    split_ifs with h1 h2 h3 h4
    · exact ⟨_, _, rfl⟩
    · exact ⟨_, _, rfl⟩
    · exact ⟨_, _, rfl⟩
    · exact ⟨_, _, rfl⟩
    · rcases hacc with h | h | h | h
      · exact absurd h h1
      · exact absurd h h2
      · exact absurd h h3
      · exact absurd h h4
  obtain ⟨i, p, hfa⟩ := hsome
  have hsel : firstMatch d (decodedCtx d ctx) = some (i, p) := by
    rw [firstMatch_eq_firstAccepting]
    exact hfa
  refine ⟨i, p, hfa, ?_, ?_, ?_, ?_⟩
  · intro text cs fuel hres
    refine ⟨_, process_content d ctx [] fuel i p text cs hsel hres, rfl, ?_, ?_, by simp⟩
    · have hp := passTrace_transformsOf d ctx []
      simp only [transformsOf] at hp ⊢
      simp [List.filterMap_append, hp]
    · have hp := passTrace_encodesOf d ctx []
      simp only [encodesOf] at hp ⊢
      simp [List.countP_append, hp]
  · intro cs fuel hres
    refine ⟨_, ?_, ?_, process_restart d ctx [] fuel i p cs hsel hres⟩
    · have hp := passTrace_transformsOf d ctx []
      simp only [transformsOf] at hp ⊢
      simp [List.filterMap_append, hp]
    · have hp := passTrace_encodesOf d ctx []
      simp only [encodesOf] at hp ⊢
      simp [List.countP_append, hp]
  · intro hs fuel out hrun j hj
    rcases process_transforms_stable d i p hs fuel ctx [] out hsel hrun j hj with h | h
    · simp [transformsOf] at h
    · exact h
  · intro hp hm hsc
    unfold firstAccepting at hfa
    simp only [hp, hm, hsc, if_true, Bool.false_eq_true, if_false, Option.some.injEq,
      Prod.mk.injEq] at hfa
    exact ⟨hfa.1.symm, hfa.2.symm⟩

/-- Witness of the amended C3: a script resource is accepted by the script
processor only, which is selected; its transform is the only one called. -/
theorem process_invokes_first_accepting_witness :
    sampleDeps.script.shouldProcessResource (decodedCtx sampleDeps (sampleCtx 2)) = true ∧
    (∃ i p, firstAccepting sampleDeps (decodedCtx sampleDeps (sampleCtx 2)) = some (i, p) ∧
      i = 2 ∧ p = sampleDeps.script) ∧
    (process sampleDeps 1 (sampleCtx 2) []).map (fun o => transformsOf o.trace) = some [2] :=
  ⟨rfl,
   let ⟨i, p, h1, _, _, _, h5⟩ := process_invokes_first_accepting sampleDeps (sampleCtx 2)
     (Or.inr (Or.inr (Or.inl rfl)))
   ⟨i, p, h1, h5 rfl rfl rfl⟩,
   by decide⟩

/-- C4: when no processor accepts the context, `process` returns
`ctx.destResBody` as it is, and calls neither a `processResource` nor
`encodeContent`. -/
theorem process_returns_body_when_unmatched (d : Deps) (ctx : Ctx) (fuel : Nat)
    (hno : ∀ q ∈ processors d, q.shouldProcessResource (decodedCtx d ctx) = false) :
    ∃ out, process d (fuel + 1) ctx [] = some out ∧ out.body = ctx.destResBody ∧
      transformsOf out.trace = [] ∧ encodesOf out.trace = 0 := by
  have hsel : firstMatch d (decodedCtx d ctx) = none := select_none _ _ 0 [] hno
  refine ⟨_, process_unmatched d ctx [] fuel hsel, rfl, ?_, ?_⟩
  · simpa [transformsOf] using passTrace_transformsOf d ctx []
  · simpa [encodesOf] using passTrace_encodesOf d ctx []

/-- Witness of C4: a resource of no processed kind. -/
theorem process_returns_body_when_unmatched_witness :
    (∀ q ∈ processors sampleDeps,
      q.shouldProcessResource (decodedCtx sampleDeps (sampleCtx 5)) = false) ∧
    ∃ out, process sampleDeps 1 (sampleCtx 5) [] = some out ∧ out.body = [1, 2, 3] ∧
      transformsOf out.trace = [] ∧ encodesOf out.trace = 0 :=
  ⟨by simp [processors, sampleDeps, sampleCtx, decodedCtx],
   process_returns_body_when_unmatched sampleDeps (sampleCtx 5) 0
     (by simp [processors, sampleDeps, sampleCtx, decodedCtx])⟩

/-- C5: when the processor selected in the first pass returns
`RESTART_PROCESSING`, leaving the charset `cs2`, and the processor selected in
the second pass returns a text, `process` makes exactly one more pass:
`decodeContent` is called twice, the second time with the charset `cs2` left
by the first pass, a processor is selected and called in each pass,
`encodeContent` is called once, and the result is the encoding of the text of
the second pass. -/
theorem process_restarts_once (d : Deps) (ctx : Ctx) (i j : Nat) (p q : Processor)
    (cs2 cs4 : Charset) (text : String) (fuel : Nat)
    (h1 : firstMatch d (decodedCtx d ctx) = some (i, p))
    (h2 : p.processResource (d.decodeContent ctx.destResBody ctx.encoding ctx.charset).1
      (decodedCtx d ctx) (getResourceUrlReplacer d.url (decodedCtx d ctx)) =
      (Processed.restart, cs2))
    (h3 : firstMatch d (decodedCtx d (withCharset ctx cs2)) = some (j, q))
    (h4 : q.processResource (d.decodeContent ctx.destResBody ctx.encoding cs2).1
      (decodedCtx d (withCharset ctx cs2))
      (getResourceUrlReplacer d.url (decodedCtx d (withCharset ctx cs2))) =
      (Processed.content text, cs4)) :
    ∃ out, process d (fuel + 2) ctx [] = some out ∧
      out.body = d.encodeContent text ctx.encoding cs4 ∧
      decodesOf out.trace = 2 ∧ transformsOf out.trace = [i, j] ∧ encodesOf out.trace = 1 ∧
      Effect.decodeContent ctx.encoding cs2 ∈ out.trace ∧
      Effect.encodeContent text ctx.encoding cs4 ∈ out.trace := by
  have hr := process_restart d ctx [] (fuel + 1) i p cs2 h1 h2
  have hc := process_content d (withCharset ctx cs2)
    (passTrace d ctx [] ++ [Effect.processResource i (decodedCtx d ctx).charset]) fuel j q
    text cs4 h3 h4
  rw [hc] at hr
  refine ⟨_, hr, rfl, ?_, ?_, ?_, ?_, by simp⟩
  · have hp := passTrace_decodesOf d (withCharset ctx cs2)
      (passTrace d ctx [] ++ [Effect.processResource i (decodedCtx d ctx).charset])
    have hp0 := passTrace_decodesOf d ctx []
    simp only [decodesOf] at hp hp0 ⊢
    simp [List.countP_append, hp, hp0]
  · have hp := passTrace_transformsOf d (withCharset ctx cs2)
      (passTrace d ctx [] ++ [Effect.processResource i (decodedCtx d ctx).charset])
    have hp0 := passTrace_transformsOf d ctx []
    simp only [transformsOf] at hp hp0 ⊢
    simp [List.filterMap_append, hp, hp0]
  · have hp := passTrace_encodesOf d (withCharset ctx cs2)
      (passTrace d ctx [] ++ [Effect.processResource i (decodedCtx d ctx).charset])
    have hp0 := passTrace_encodesOf d ctx []
    simp only [encodesOf] at hp hp0 ⊢
    simp [List.countP_append, hp, hp0]
  · have := passTrace_mem d (withCharset ctx cs2)
      (passTrace d ctx [] ++ [Effect.processResource i (decodedCtx d ctx).charset])
    simp only [decodedCtx, withCharset] at this ⊢
    simp [this]

/-- Witness of C5: the sample page processor restarts once, moving the
charset from `utf-8` to `koi8-r`. -/
theorem process_restarts_once_witness :
    firstMatch sampleDeps (decodedCtx sampleDeps (sampleCtx 0)) = some (0, sampleDeps.page) ∧
    ∃ out, process sampleDeps 2 (sampleCtx 0) [] = some out ∧
      out.body = sampleDeps.encodeContent "<page>koi8-r:3" "gzip" "koi8-r" ∧
      decodesOf out.trace = 2 ∧ transformsOf out.trace = [0, 0] ∧ encodesOf out.trace = 1 ∧
      Effect.decodeContent "gzip" "koi8-r" ∈ out.trace ∧
      Effect.encodeContent "<page>koi8-r:3" "gzip" "koi8-r" ∈ out.trace :=
  ⟨rfl, process_restarts_once sampleDeps (sampleCtx 0) 0 0 sampleDeps.page sampleDeps.page
    "koi8-r" "koi8-r" "<page>koi8-r:3" 0 rfl (by decide) rfl (by decide)⟩

/-- C6, counterexample: for the resource URL `/a.js` on the page
`https://site.example/page`, with a `toProxyUrl` that throws, the callback
returns `/a.js`, while `resolvedUrl` is `https://site.example/a.js`. -/
theorem urlReplacer_fallback_is_not_resolvedUrl :
    failingCtx.toProxyUrl (resolvedUrl sampleUrlUtil failingCtx "/a.js" none) false none
        (charsetStr sampleUrlUtil failingCtx none none) = Except.error "cannot translate" ∧
    getResourceUrlReplacer sampleUrlUtil failingCtx "/a.js" none none none = "/a.js" ∧
    resolvedUrl sampleUrlUtil failingCtx "/a.js" none = "https://site.example/a.js" ∧
    getResourceUrlReplacer sampleUrlUtil failingCtx "/a.js" none none none ≠
      resolvedUrl sampleUrlUtil failingCtx "/a.js" none :=
  ⟨rfl, by decide, by decide, by decide⟩

/-- C6, amended: when `ctx.toProxyUrl` throws, the callback does not
propagate the error and returns the prepared resource URL,
`urlUtil.prepareUrl(resourceUrl)`. -/
theorem urlReplacer_falls_back_to_prepared_url (u : UrlUtil) (ctx : Ctx) (resourceUrl : Url)
    (resourceType charsetAttrValue : Option String) (baseUrl : Option Url) (err : String)
    (hthrow : ctx.toProxyUrl (resolvedUrl u ctx resourceUrl baseUrl) false resourceType
      (charsetStr u ctx resourceType charsetAttrValue) = Except.error err) :
    getResourceUrlReplacer u ctx resourceUrl resourceType charsetAttrValue baseUrl =
      u.prepareUrl resourceUrl := by
  simp [getResourceUrlReplacer, hthrow]

/-- Witness of the amended C6. -/
theorem urlReplacer_falls_back_to_prepared_url_witness :
    failingCtx.toProxyUrl (resolvedUrl sampleUrlUtil failingCtx "/a.js" none) false none
        (charsetStr sampleUrlUtil failingCtx none none) = Except.error "cannot translate" ∧
    getResourceUrlReplacer sampleUrlUtil failingCtx "/a.js" none none none =
      sampleUrlUtil.prepareUrl "/a.js" :=
  ⟨rfl, urlReplacer_falls_back_to_prepared_url sampleUrlUtil failingCtx "/a.js" none none none
    "cannot translate" rfl⟩

end Resources

namespace Resources

theorem resolveParts_scheme (b r : UrlParts) (h : b.scheme.isSome = true) :
    (resolveParts b r).scheme.isSome = true := by
  unfold resolveParts
  cases hs : r.scheme with
  | some s => simp [hs]
  | none =>
    cases ha : r.authority with
    | some a => simpa using h
    | none =>
      simp only
      split <;> exact h

theorem withRootPath_scheme (u : UrlParts) : (withRootPath u).scheme = u.scheme := by
  unfold withRootPath
  split
  · split <;> rfl
  · rfl

theorem formatUrl_ne_nil (u : UrlParts) (h : u.scheme.isSome = true) : formatUrl u ≠ [] := by
  unfold formatUrl
  cases hs : u.scheme with
  | none => simp [hs] at h
  | some s => simp

/-- The modelled resolver returns a non-empty URL when the base is absolute. -/
theorem urlResolve_ne_empty (base relative : Url) (h : isAbsoluteUrl base = true) :
    urlResolve base relative ≠ "" := by
  intro he
  have hd := congrArg String.data he
  simp only [urlResolve] at hd
  refine formatUrl_ne_nil _ ?_ hd
  rw [withRootPath_scheme]
  exact resolveParts_scheme _ _ h

/-- C16: the callback passes to `ctx.toProxyUrl` the URL `resolvedUrl`, which
is `resolve(B, prepareUrl(resourceUrl))`.  When a base URL is given, `B` is
`resolve(ctx.dest.url, baseUrl)`, unless that is the empty string, which the
code treats like no base URL; with the modelled resolver it is never empty
for an absolute `ctx.dest.url`.  When no base URL is given, or the empty
string, `B` is `ctx.dest.url`.  With the modelled resolver and a `prepareUrl`
that leaves `/a.js` as it is, the resource URL `/a.js` with the base URL
`//cdn.example.com` on the page `https://site.example/page` is resolved to
`https://cdn.example.com/a.js`. -/
theorem urlReplacer_translates_resolved_url (u : UrlUtil) (ctx : Ctx) (resourceUrl : Url)
    (resourceType charsetAttrValue : Option String) (baseUrl : Option Url) :
    (∀ proxied, ctx.toProxyUrl (resolvedUrl u ctx resourceUrl baseUrl) false resourceType
        (charsetStr u ctx resourceType charsetAttrValue) = Except.ok proxied →
      getResourceUrlReplacer u ctx resourceUrl resourceType charsetAttrValue baseUrl =
        proxied) ∧
    (∀ b, baseUrl = some b → b ≠ "" →
      resolvedUrl u ctx resourceUrl baseUrl =
        u.resolve (if u.resolve ctx.destUrl b = "" then ctx.destUrl else u.resolve ctx.destUrl b)
          (u.prepareUrl resourceUrl) ∧
      (u.resolve ctx.destUrl b ≠ "" →
        resolvedUrl u ctx resourceUrl baseUrl =
          u.resolve (u.resolve ctx.destUrl b) (u.prepareUrl resourceUrl)) ∧
      (u.resolve = urlResolve → isAbsoluteUrl ctx.destUrl = true →
        resolvedUrl u ctx resourceUrl baseUrl =
          urlResolve (urlResolve ctx.destUrl b) (u.prepareUrl resourceUrl))) ∧
    (baseUrl = none ∨ baseUrl = some "" →
      resolvedUrl u ctx resourceUrl baseUrl =
        u.resolve ctx.destUrl (u.prepareUrl resourceUrl)) ∧
    (u.resolve = urlResolve → u.prepareUrl "/a.js" = "/a.js" →
      ctx.destUrl = "https://site.example/page" → resourceUrl = "/a.js" →
      baseUrl = some "//cdn.example.com" →
      resolvedUrl u ctx resourceUrl baseUrl = "https://cdn.example.com/a.js") := by
  have hgiven : ∀ b, baseUrl = some b → b ≠ "" → u.resolve ctx.destUrl b ≠ "" →
      resolvedUrl u ctx resourceUrl baseUrl =
        u.resolve (u.resolve ctx.destUrl b) (u.prepareUrl resourceUrl) := by
    intro b hb hne hres
    subst hb
    simp [resolvedUrl, resolvedBase, truthy, hne, hres]
  refine ⟨?_, ?_, ?_, ?_⟩
  · intro proxied h
    simp [getResourceUrlReplacer, h]
  · intro b hb hne
    refine ⟨?_, hgiven b hb hne, ?_⟩
    · subst hb
      by_cases hres : u.resolve ctx.destUrl b = ""
      · simp [resolvedUrl, resolvedBase, truthy, hne, hres]
      · simp [resolvedUrl, resolvedBase, truthy, hne, hres]
    · intro hu habs
      have hres : u.resolve ctx.destUrl b ≠ "" := by
        rw [hu]
        exact urlResolve_ne_empty _ _ habs
      rw [hgiven b hb hne hres, hu]
  · rintro (h | h) <;> subst h <;> simp [resolvedUrl, resolvedBase, truthy]
  · intro hu hprep hdest hres hbase
    have h1 : u.resolve ctx.destUrl "//cdn.example.com" ≠ "" := by
      rw [hu, hdest]
      decide
    rw [hgiven "//cdn.example.com" hbase (by decide) h1, hres, hprep, hu, hdest]
    decide

/-- Witness of C16: the example, with the modelled resolver and a
`toProxyUrl` that returns the URL it is given. -/
theorem urlReplacer_translates_resolved_url_witness :
    isAbsoluteUrl echoCtx.destUrl = true ∧
    resolvedUrl resolverUrlUtil echoCtx "/a.js" (some "//cdn.example.com") =
      "https://cdn.example.com/a.js" ∧
    getResourceUrlReplacer resolverUrlUtil echoCtx "/a.js" none none
      (some "//cdn.example.com") = "https://cdn.example.com/a.js" :=
  ⟨by decide,
   (urlReplacer_translates_resolved_url resolverUrlUtil echoCtx "/a.js" none none
      (some "//cdn.example.com")).2.2.2 rfl rfl rfl rfl rfl,
   ((urlReplacer_translates_resolved_url resolverUrlUtil echoCtx "/a.js" none none
      (some "//cdn.example.com")).1 _ rfl).trans
     ((urlReplacer_translates_resolved_url resolverUrlUtil echoCtx "/a.js" none none
      (some "//cdn.example.com")).2.2.2 rfl rfl rfl rfl rfl)⟩

theorem pass_some (d : Deps) (ctx : Ctx) (i : Nat) (r : Processed) (cs : Charset)
    (h : pass d ctx = some (i, r, cs)) :
    ∃ p, firstMatch d (decodedCtx d ctx) = some (i, p) ∧
      p.processResource (d.decodeContent ctx.destResBody ctx.encoding ctx.charset).1
        (decodedCtx d ctx) (getResourceUrlReplacer d.url (decodedCtx d ctx)) = (r, cs) := by
  unfold pass at h
  cases hsel : firstMatch d (decodedCtx d ctx) with
  | none => simp [hsel] at h
  | some x =>
    obtain ⟨j, p⟩ := x
    simp only [hsel, Option.some.injEq, Prod.mk.injEq] at h
    obtain ⟨h1, h2, h3⟩ := h
    subst h1
    exact ⟨p, rfl, Prod.ext h2 h3⟩

theorem process_restartsThen (d : Deps) (text : String) (cs : Charset) :
    ∀ (n : Nat) (ctx : Ctx) (trace : List Effect), restartsThen d n ctx text cs →
      (∀ fuel, ∃ out, process d (n + 1 + fuel) ctx trace = some out ∧
        out.body = d.encodeContent text ctx.encoding cs ∧
        decodesOf out.trace = decodesOf trace + (n + 1) ∧
        (transformsOf out.trace).length = (transformsOf trace).length + (n + 1) ∧
        encodesOf out.trace = encodesOf trace + 1) ∧
      ∀ k, k ≤ n → process d k ctx trace = none := by
  intro n
  induction n with
  | zero =>
    intro ctx trace h
    obtain ⟨i, hp⟩ := h
    obtain ⟨p, hsel, hres⟩ := pass_some d ctx i _ cs hp
    refine ⟨?_, ?_⟩
    · intro fuel
      have hc := process_content d ctx trace fuel i p text cs hsel hres
      rw [show 0 + 1 + fuel = fuel + 1 by omega, hc]
      refine ⟨_, rfl, rfl, ?_, ?_, ?_⟩
      · have hp0 := passTrace_decodesOf d ctx trace
        simp only [decodesOf] at hp0 ⊢
        simp [List.countP_append, hp0]
      · have hp0 := passTrace_transformsOf d ctx trace
        simp only [transformsOf] at hp0 ⊢
        simp [List.filterMap_append, hp0]
      · have hp0 := passTrace_encodesOf d ctx trace
        simp only [encodesOf] at hp0 ⊢
        simp [List.countP_append, hp0]
    · intro k hk
      have : k = 0 := by omega
      subst this
      rfl
  | succ n ih =>
    intro ctx trace h
    obtain ⟨i, cs1, hp, hrest⟩ := h
    obtain ⟨p, hsel, hres⟩ := pass_some d ctx i _ cs1 hp
    obtain ⟨ih1, ih2⟩ := ih (withCharset ctx cs1)
      (passTrace d ctx trace ++ [Effect.processResource i (decodedCtx d ctx).charset]) hrest
    refine ⟨?_, ?_⟩
    · intro fuel
      have hr := process_restart d ctx trace (n + 1 + fuel) i p cs1 hsel hres
      rw [show n + 1 + 1 + fuel = n + 1 + fuel + 1 by omega, hr]
      obtain ⟨out, ho, hb, hd, ht, he⟩ := ih1 fuel
      refine ⟨out, ho, by simpa using hb, ?_, ?_, ?_⟩
      · rw [hd]
        have hp0 := passTrace_decodesOf d ctx trace
        simp only [decodesOf] at hp0 ⊢
        simp [List.countP_append, hp0]
        omega
      · rw [ht]
        have hp0 := passTrace_transformsOf d ctx trace
        simp only [transformsOf] at hp0 ⊢
        simp [List.filterMap_append, hp0]
        omega
      · rw [he]
        have hp0 := passTrace_encodesOf d ctx trace
        simp only [encodesOf] at hp0 ⊢
        simp [List.countP_append, hp0]
    · intro k hk
      cases k with
      | zero => rfl
      | succ k =>
        rw [process_restart d ctx trace k i p cs1 hsel hres]
        exact ih2 k (by omega)

/-- C18: when the processor selected returns `RESTART_PROCESSING` in each of
the first `n` passes and a text in pass `n + 1`, `process` returns after
exactly `n + 1` passes, for every `n` and whichever processor is selected in
each pass: `decodeContent` and `processResource` are called `n + 1` times each
and `encodeContent` once, the result is the encoding of the text of the last
pass, and no smaller number of passes gives a result. -/
theorem process_terminates_after_restarts (d : Deps) (n : Nat) (ctx : Ctx) (text : String)
    (cs : Charset) (h : restartsThen d n ctx text cs) :
    (∀ fuel, ∃ out, process d (n + 1 + fuel) ctx [] = some out ∧
      out.body = d.encodeContent text ctx.encoding cs ∧
      decodesOf out.trace = n + 1 ∧ (transformsOf out.trace).length = n + 1 ∧
      encodesOf out.trace = 1) ∧
    ∀ k, k ≤ n → process d k ctx [] = none := by
  obtain ⟨h1, h2⟩ := process_restartsThen d text cs n ctx [] h
  refine ⟨?_, h2⟩
  intro fuel
  obtain ⟨out, ho, hb, hd, ht, he⟩ := h1 fuel
  exact ⟨out, ho, hb, by simpa [decodesOf] using hd, by simpa [transformsOf] using ht,
    by simpa [encodesOf] using he⟩

/-- Witness of C18: the script processor restarts twice before it returns a
text; three passes are made. -/
theorem process_terminates_after_restarts_witness :
    restartsThen restartingDeps 2 scriptCtx "<js>uxx:3" "uxx" ∧
    (∃ out, process restartingDeps 3 scriptCtx [] = some out ∧
      out.body = restartingDeps.encodeContent "<js>uxx:3" "gzip" "uxx" ∧
      decodesOf out.trace = 3 ∧ transformsOf out.trace = [2, 2, 2]) ∧
    process restartingDeps 2 scriptCtx [] = none := by
  have h : restartsThen restartingDeps 2 scriptCtx "<js>uxx:3" "uxx" :=
    ⟨2, "ux", by decide, 2, "uxx", by decide, 2, by decide⟩
  obtain ⟨h1, h2⟩ := process_terminates_after_restarts restartingDeps 2 scriptCtx
    "<js>uxx:3" "uxx" h
  obtain ⟨out, ho, hb, hd, _, _⟩ := h1 0
  refine ⟨h, ⟨out, ho, hb, hd, ?_⟩, h2 2 (le_refl _)⟩
  have : out = (process restartingDeps 3 scriptCtx []).getD
      { body := [], ctx := scriptCtx, trace := [] } := by
    rw [show (2 + 1 + 0) = 3 from rfl] at ho
    rw [ho]; rfl
  rw [this]
  decide

end Resources
